import Mathlib

/-!
Verification of the `generator` package of vanity-eth (a vanity Ethereum
address search tool).  Go strings are modelled as `List Char`; `big.Int` as
`Int`; `big.Rat` as `ℚ`; fallible functions return `Except String` or
`Option`.  The concurrent search engine (`Run`) is modelled as a labelled
transition system over an explicit engine state.
-/

namespace VanityEth

/-- Go strings are modelled as lists of characters. -/
abbrev Str := List Char

/-- Models `isHex` from the source: `(c >= '0' && c <= '9') || (c >= 'a' && c <= 'f') || (c >= 'A' && c <= 'F')`. -/
def isHex (c : Char) : Bool :=
  (decide ('0' ≤ c) && decide (c ≤ '9')) ||
  (decide ('a' ≤ c) && decide (c ≤ 'f')) ||
  (decide ('A' ≤ c) && decide (c ≤ 'F'))

/-- Models Go `strings.TrimSpace` (for the ASCII whitespace relevant here):
drop whitespace characters from both ends. -/
def trimSpace (s : Str) : Str :=
  ((s.dropWhile Char.isWhitespace).reverse.dropWhile Char.isWhitespace).reverse

/-- Models the marker-stripping step of `compileHexPattern`:
a leading `"0x"`/`"0X"` is removed, otherwise a leading `'x'`/`'X'` is removed. -/
def stripHexMarker : Str → Str
  | c0 :: c1 :: rest =>
    if c0 = '0' ∧ (c1 = 'x' ∨ c1 = 'X') then rest
    else if c0 = 'x' ∨ c0 = 'X' then c1 :: rest
    else c0 :: c1 :: rest
  | [c0] => if c0 = 'x' ∨ c0 = 'X' then [] else [c0]
  | [] => []

/-- Loop of `splitTopLevel` from the source: scan the string keeping a paren
depth, splitting at depth-0 `'|'`; `cur` is the current part (reversed),
`acc` the parts collected so far.  Errors mirror the source: a negative
depth is "unexpected ')'", a nonzero final depth is "unclosed '('", an
empty part is "empty alternative near '|'". -/
def splitTopLevelGo : Str → Nat → Str → List Str → Except String (List Str)
  | [], depth, cur, acc =>
    if depth ≠ 0 then .error "unclosed '('"
    else if cur = [] then .error "empty alternative near '|'"
    else .ok (acc ++ [cur.reverse])
  | c :: cs, depth, cur, acc =>
    if c = '(' then splitTopLevelGo cs (depth + 1) (c :: cur) acc
    else if c = ')' then
      if depth = 0 then .error "unexpected ')'"
      else splitTopLevelGo cs (depth - 1) (c :: cur) acc
    else if c = '|' then
      if depth = 0 then
        if cur = [] then .error "empty alternative near '|'"
        else splitTopLevelGo cs 0 [] (acc ++ [cur.reverse])
      else splitTopLevelGo cs depth (c :: cur) acc
    else splitTopLevelGo cs depth (c :: cur) acc

/-- Models `splitTopLevel` from the source: split a pattern at top-level
`'|'` characters, validating paren balance and rejecting empty parts. -/
def splitTopLevel (s : Str) : Except String (List Str) :=
  splitTopLevelGo s 0 [] []

/-- Models `findGroupEnd` from the source, reformulated to return the group
content and the remainder instead of an index: scanning starts just after
the opening `'('` with `depth = 1`; the content before the matching `')'`
and the remainder after it are returned, `none` when the paren is unclosed. -/
def findGroupSplit : Nat → Str → Option (Str × Str)
  | _, [] => none
  | depth, c :: cs =>
    if c = '(' then
      match findGroupSplit (depth + 1) cs with
      | some (inner, rest) => some (c :: inner, rest)
      | none => none
    else if c = ')' then
      if depth = 1 then some ([], cs)
      else
        match findGroupSplit (depth - 1) cs with
        | some (inner, rest) => some (c :: inner, rest)
        | none => none
    else
      match findGroupSplit depth cs with
      | some (inner, rest) => some (c :: inner, rest)
      | none => none

/-- Models `appendSegment` from the source: the ordered pairwise
concatenation of every current alternative with every segment alternative. -/
def appendSegment (pres segment : List Str) : List Str :=
  pres.flatMap (fun p => segment.map (fun s => p ++ s))

/-- Loop of `expandBranch` from the source: scan a branch left to right;
a maximal hex run contributes itself as a one-alternative segment, a group
contributes the parts of its content (each part must be all-hex), anything
else is an error.  `alts` is the accumulator, seeded with `[""]`.  The
fuel argument bounds the number of loop iterations; the source's loop
index is bounded by the branch length, so `branch.length` fuel is always
enough (each iteration consumes at least one character). -/
def expandBranchGo : Nat → Str → List Str → Except String (List Str)
  | _, [], alts => .ok alts
  | 0, _ :: _, _ => .error "out of fuel"
  | fuel + 1, c :: rest, alts =>
    if isHex c then
      expandBranchGo fuel (rest.dropWhile isHex)
        (appendSegment alts [c :: rest.takeWhile isHex])
    else if c = '(' then
      match findGroupSplit 1 rest with
      | none => .error "unclosed '('"
      | some (inner, after) =>
        if inner = [] then .error "empty group '()'"
        else
          match splitTopLevel inner with
          | .error e => .error e
          | .ok groupAlts =>
            if groupAlts.all (fun ga => ga.all isHex) then
              expandBranchGo fuel after (appendSegment alts groupAlts)
            else .error "invalid character in group"
    else if c = ')' then .error "unexpected ')'"
    else if c = '|' then .error "unexpected '|'"
    else .error "invalid character"

/-- Models `expandBranch` from the source: the loop starts with the single
empty alternative, and `branch.length` fuel always suffices. -/
def expandBranch (branch : Str) : Except String (List Str) :=
  expandBranchGo branch.length branch [[]]

/-- One step of the `seen`-based deduplication in `compileHexPattern`:
append an alternative unless it was already collected. -/
def dedupStep (acc : List Str) (alt : Str) : List Str :=
  if alt ∈ acc then acc else acc ++ [alt]

/-- Branch loop of `compileHexPattern`: expand each branch in turn and
append its alternatives to `all`, skipping ones already seen (the source's
`seen` set always holds exactly the elements of `all`). -/
def compileBranches : List Str → List Str → Except String (List Str)
  | [], all => .ok all
  | b :: bs, all =>
    match expandBranch b with
    | .error e => .error e
    | .ok expanded => compileBranches bs (expanded.foldl dedupStep all)

/-- Models `compileHexPattern` from the source.  `.ok []` is the "no
constraint" result for a blank pattern (Go's `nil, nil`). -/
def compileHexPattern (pattern : Str) : Except String (List Str) :=
  let s := trimSpace pattern
  if s = [] then .ok []
  else
    let s := stripHexMarker s
    if s = [] then .error "pattern is empty"
    else
      match splitTopLevel s with
      | .error e => .error e
      | .ok branches =>
        match compileBranches branches [] with
        | .error e => .error e
        | .ok all => if all = [] then .error "pattern is empty" else .ok all

/-- Models `countHexLetters` from the source: the number of `a-f`/`A-F`
characters. -/
def countHexLetters (s : Str) : Nat :=
  (s.filter (fun c =>
    (decide ('a' ≤ c) && decide (c ≤ 'f')) ||
    (decide ('A' ≤ c) && decide (c ≤ 'F')))).length

/-- One step of the minimum search in `minPatternLenAndLetters`: take the
challenger when it is shorter, or as short with fewer letters. -/
def minStep (m : Nat × Nat) (alt : Str) : Nat × Nat :=
  let l := alt.length
  let letters := countHexLetters alt
  if l < m.1 ∨ (l = m.1 ∧ letters < m.2) then (l, letters) else m

/-- Models `minPatternLenAndLetters` from the source: length and letter
count of the shortest compiled alternative (letters break length ties);
`(0, 0)` for an empty or invalid pattern. -/
def minPatternLenAndLetters (pattern : Str) : Nat × Nat :=
  match compileHexPattern pattern with
  | .error _ => (0, 0)
  | .ok [] => (0, 0)
  | .ok (a :: rest) => rest.foldl minStep (a.length, countHexLetters a)

/-- Models `MinHexPatternLen` from the source. -/
def MinHexPatternLen (pattern : Str) : Nat :=
  (minPatternLenAndLetters pattern).1

/-- Byte-wise lexicographic string order, as used by Go's `slices.Sort` on
`[]string`. -/
def strLe : Str → Str → Bool
  | [], _ => true
  | _ :: _, [] => false
  | a :: as, b :: bs => if a = b then strLe as bs else decide (a < b)

/-- Sorted insertion for `sortStrs`. -/
def insertSorted (a : Str) : List Str → List Str
  | [] => [a]
  | b :: bs => if strLe a b then a :: b :: bs else b :: insertSorted a bs

/-- Models `slices.Sort` on `[]string` (as a sort producing the
lexicographically ordered permutation). -/
def sortStrs : List Str → List Str
  | [] => []
  | a :: as => insertSorted a (sortStrs as)

/-- Models Go `strings.ToLower` on the ASCII range relevant here. -/
def lowerChar (c : Char) : Char :=
  if decide ('A' ≤ c) && decide (c ≤ 'Z') then Char.ofNat (c.toNat + 32) else c

/-- `strings.ToLower` on a whole string. -/
def toLowerStr (s : Str) : Str := s.map lowerChar

/-- Models `patternDenominator` from the source:
`16^hexLen`, additionally multiplied by `2^letters` in case-sensitive mode. -/
def patternDenominator (hexLen letters : Nat) (caseSensitive : Bool) : Int :=
  let den : Int := 16 ^ hexLen
  if caseSensitive = true ∧ 0 < letters then den * 2 ^ letters else den

/-- The redundancy filter inside `edgePatternProbability`: an alternative is
dropped when a strictly shorter alternative of the same compiled set is its
prefix (for a leading anchor) or its suffix (for a trailing anchor). -/
def reduceAlts (alts : List Str) (isStart : Bool) : List Str :=
  alts.filter (fun a =>
    ! alts.any (fun b =>
      !(b == a) && decide (b.length < a.length) &&
        (if isStart then decide (b <+: a) else decide (b <:+ a))))

/-- The body of `edgePatternProbability` after pattern compilation: reduce
the alternatives, sort them, and sum their per-alternative probabilities.
`none` on a compile error or an empty alternative list. -/
def edgeProbCompiled (res : Except String (List Str)) (isStart caseSensitive : Bool) :
    Option ℚ :=
  match res with
  | .error _ => none
  | .ok [] => none
  | .ok alts =>
    let reduced := reduceAlts alts isStart
    let sorted := sortStrs reduced
    some (sorted.foldl
      (fun acc alt =>
        acc + 1 / ((patternDenominator alt.length (countHexLetters alt)
          caseSensitive : Int) : ℚ))
      0)

/-- Models `edgePatternProbability` from the source: the total probability
that a uniformly random hex string starts (resp. ends) with one of the
pattern's alternatives, summed over the reduced, sorted alternative list;
`none` for a blank or uncompilable pattern.  The pattern is lowercased
first unless case-sensitive. -/
def edgePatternProbability (pattern : Str) (isStart caseSensitive : Bool) :
    Option ℚ :=
  if trimSpace pattern = [] then none
  else
    edgeProbCompiled
      (compileHexPattern (if caseSensitive then pattern else toLowerStr pattern))
      isStart caseSensitive

/-- Models `containsPatternProbabilityApprox` from the source: the
per-position probability of the single shortest alternative only. -/
def containsPatternProbabilityApprox (pattern : Str) (caseSensitive : Bool) :
    Option ℚ :=
  if trimSpace pattern = [] then none
  else
    let p := if caseSensitive then pattern else toLowerStr pattern
    let m := minPatternLenAndLetters p
    if m.1 = 0 then none
    else some (1 / ((patternDenominator m.1 m.2 caseSensitive : Int) : ℚ))

/-- One step of the probability accumulation in `HexDifficulty`: multiply a
present probability into the running product and mark the estimate active. -/
def accumProb (st : Bool × ℚ) : Option ℚ → Bool × ℚ
  | some p => (true, st.2 * p)
  | none => st

/-- The tail of `HexDifficulty` after the probability accumulation:
`none` when nothing contributed or the probability is zero, otherwise the
truncating quotient `denominator / numerator` clamped up to 1. -/
def hexDifficultyOf (st : Bool × ℚ) : Option Int :=
  if st.1 = false ∨ st.2 = 0 then none
  else if st.2.num = 0 then none
  else if (st.2.den : Int).tdiv st.2.num = 0 then some 1
  else some ((st.2.den : Int).tdiv st.2.num)

/-- Models `HexDifficulty` from the source: expected attempts as the
truncating quotient `denominator / numerator` of the combined probability,
clamped to at least 1; `none` when no pattern contributed or the combined
probability is zero. -/
def HexDifficulty (pre suf sub : Str) (caseSensitive : Bool) : Option Int :=
  hexDifficultyOf (accumProb
    (accumProb
      (accumProb (false, 1) (edgePatternProbability pre true caseSensitive))
      (edgePatternProbability suf false caseSensitive))
    (containsPatternProbabilityApprox sub caseSensitive))

/-- Models `strings.HasPrefix check(haystack, alt)`. -/
def startsWithB (s p : Str) : Bool := decide (p <+: s)

/-- Models `strings.HasSuffix check(haystack, alt)`. -/
def endsWithB (s p : Str) : Bool := decide (p <:+ s)

/-- Models `strings.Contains check(haystack, alt)`. -/
def containsB (s p : Str) : Bool := decide (p <:+: s)

/-- Models `matchAlt` from the source: does any alternative pass `check`? -/
def matchAlt (haystack : Str) (alts : List Str) (check : Str → Str → Bool) :
    Bool :=
  alts.any (fun alt => check haystack alt)

/-- The alternative list `BuildMatcher` actually uses: compile errors are
silently discarded (`prefixAlts, _ := compileHexPattern(prefix)`), leaving
an empty list. -/
def altsOrNil (p : Str) : List Str :=
  match compileHexPattern p with
  | .ok alts => alts
  | .error _ => []

/-- Models `strings.TrimPrefix(a, "0x")`. -/
def trimPrefix0x : Str → Str
  | '0' :: 'x' :: rest => rest
  | s => s

/-- The `normalize` closure of `BuildMatcher`: identity in case-sensitive
mode, `strings.ToLower` otherwise. -/
def normStr (caseSensitive : Bool) (s : Str) : Str :=
  if caseSensitive then s else toLowerStr s

/-- The closure returned by `BuildMatcher`, with the three compiled
alternative lists as explicit arguments. -/
def matcherBody (preAlts sufAlts subAlts : List Str) (re : Option (Str → Bool))
    (caseSensitive : Bool) (addr : Str) : Bool :=
  let a := normStr caseSensitive addr
  let bare := trimPrefix0x a
  if !preAlts.isEmpty && !matchAlt bare preAlts startsWithB then false
  else if !sufAlts.isEmpty && !matchAlt bare sufAlts endsWithB then false
  else if !subAlts.isEmpty && !matchAlt bare subAlts containsB then false
  else
    match re with
    | some r => r addr
    | none => true

/-- Models `BuildMatcher` from the source.  The optional compiled regex is
modelled as an opaque predicate on the raw address string, which is how the
matcher treats it (`re.MatchString(addr)` on the unnormalized address). -/
def BuildMatcher (pre suf sub : Str) (re : Option (Str → Bool))
    (caseSensitive : Bool) : Str → Bool :=
  matcherBody (altsOrNil (normStr caseSensitive pre))
    (altsOrNil (normStr caseSensitive suf))
    (altsOrNil (normStr caseSensitive sub)) re caseSensitive

/-! ### The search engine as a labelled transition system

`Run` spawns `Workers` goroutines that loop: check the cancellation signal,
check `Found ≥ Count`, generate a key (a failure retries), increment
`Total`, test the address, and on a match atomically increment `Found`,
publishing the result only when the post-increment ticket is within
`Count` (the publish itself can be abandoned on cancellation).  The engine
closes the channel after all workers exited.  Each worker is modelled by a
phase, and each atomic action of the Go code by one labelled transition;
the matcher outcome and cancellation are nondeterministic, covering every
oracle and scheduling. -/

/-- The phase of one worker inside its loop. -/
inductive WPhase
  | top
  | testing (matched : Bool)
  | holding (n : Nat)
  | exited
deriving DecidableEq

/-- Engine state: worker phases, the two atomic counters, the number of
results published on the channel, the channel-closed flag and the
cancellation flag. -/
structure EngState where
  workers : List WPhase
  total : Nat
  found : Nat
  sent : Nat
  closed : Bool
  canceled : Bool
deriving DecidableEq

/-- Transition labels for the engine. -/
inductive ELabel
  | exitCancel (i : Nat)
  | exitFound (i : Nat)
  | genFail (i : Nat)
  | generate (i : Nat) (matched : Bool)
  | noMatch (i : Nat)
  | incFound (i : Nat)
  | publish (i : Nat)
  | abortSend (i : Nat)
  | discard (i : Nat)
  | cancel
  | closeCh
deriving DecidableEq

/-- One atomic step of `Run` with target count `cnt`.  Worker `i` steps
according to its phase and the Go loop; `cancel` models the external
signal; `closeCh` models `wg.Wait(); close(resultCh)`, enabled only when
every worker has exited and the channel is not yet closed.  A `publish`
is deliberately not guarded on `closed` (a Go send on a closed channel
would be the send-after-close fault to rule out). -/
inductive EngStep (cnt : Nat) : EngState → ELabel → EngState → Prop
  | exitCancel {s : EngState} {i : Nat} (h : s.workers[i]? = some .top)
      (hc : s.canceled = true) :
      EngStep cnt s (.exitCancel i) { s with workers := s.workers.set i .exited }
  | exitFound {s : EngState} {i : Nat} (h : s.workers[i]? = some .top)
      (hf : cnt ≤ s.found) :
      EngStep cnt s (.exitFound i) { s with workers := s.workers.set i .exited }
  | genFail {s : EngState} {i : Nat} (h : s.workers[i]? = some .top) :
      EngStep cnt s (.genFail i) s
  | generate {s : EngState} {i : Nat} {b : Bool}
      (h : s.workers[i]? = some .top) :
      EngStep cnt s (.generate i b)
        { s with workers := s.workers.set i (.testing b), total := s.total + 1 }
  | noMatch {s : EngState} {i : Nat} (h : s.workers[i]? = some (.testing false)) :
      EngStep cnt s (.noMatch i) { s with workers := s.workers.set i .top }
  | incFound {s : EngState} {i : Nat} (h : s.workers[i]? = some (.testing true)) :
      EngStep cnt s (.incFound i)
        { s with workers := s.workers.set i (.holding (s.found + 1)),
                 found := s.found + 1 }
  | publish {s : EngState} {i n : Nat} (h : s.workers[i]? = some (.holding n))
      (hn : n ≤ cnt) :
      EngStep cnt s (.publish i)
        { s with workers := s.workers.set i .top, sent := s.sent + 1 }
  | abortSend {s : EngState} {i n : Nat} (h : s.workers[i]? = some (.holding n))
      (hn : n ≤ cnt) (hc : s.canceled = true) :
      EngStep cnt s (.abortSend i) { s with workers := s.workers.set i .exited }
  | discard {s : EngState} {i n : Nat} (h : s.workers[i]? = some (.holding n))
      (hn : cnt < n) :
      EngStep cnt s (.discard i) { s with workers := s.workers.set i .top }
  | cancel {s : EngState} : EngStep cnt s .cancel { s with canceled := true }
  | closeCh {s : EngState} (hcl : s.closed = false)
      (hex : ∀ w ∈ s.workers, w = .exited) :
      EngStep cnt s .closeCh { s with closed := true }

/-- The engine's initial state with `W` workers. -/
def initState (W : Nat) : EngState :=
  ⟨List.replicate W .top, 0, 0, 0, false, false⟩

/-- States reachable by the engine from its initial state. -/
inductive Reachable (cnt W : Nat) : EngState → Prop
  | init : Reachable cnt W (initState W)
  | step {s : EngState} {l : ELabel} {s' : EngState} :
      Reachable cnt W s → EngStep cnt s l s' → Reachable cnt W s'

/-- Weight of a worker phase toward the channel bound: `1` for a worker
holding a publishable ticket (one `≤ cnt`), else `0`. -/
def ticketWeight (cnt : Nat) : WPhase → Nat
  | .holding n => if n ≤ cnt then 1 else 0
  | _ => 0

/-- Number of workers currently holding a publishable ticket. -/
def pendingPublishable (cnt : Nat) (s : EngState) : Nat :=
  (s.workers.map (ticketWeight cnt)).sum

/-- Every worker has exited its loop. -/
def allExited (s : EngState) : Prop := ∀ w ∈ s.workers, w = .exited

/-- The engine's safety invariant: results published so far plus
publishable tickets still held never exceed `min found cnt`, and a closed
channel means every worker has exited. -/
def EngInv (cnt : Nat) (s : EngState) : Prop :=
  s.sent + pendingPublishable cnt s ≤ min s.found cnt
  ∧ (s.closed = true → allExited s)

/-- Swap the case of a single hex letter (`a-f` to `A-F` and back); any
other character is unchanged. -/
def swapHexCase (c : Char) : Char :=
  if c = 'a' then 'A' else if c = 'b' then 'B' else if c = 'c' then 'C'
  else if c = 'd' then 'D' else if c = 'e' then 'E' else if c = 'f' then 'F'
  else if c = 'A' then 'a' else if c = 'B' then 'b' else if c = 'C' then 'c'
  else if c = 'D' then 'd' else if c = 'E' then 'e' else if c = 'F' then 'f'
  else c

/-- `CaseSwapped addr addr'` holds when `addr'` is `addr` with the case of
some (possibly none) of its `a-f`/`A-F` characters swapped. -/
def CaseSwapped (addr addr' : Str) : Prop :=
  List.Forall₂ (fun c d => d = c ∨ d = swapHexCase c) addr addr'

/-! ### Definitions written from the specification's wording

These re-state, in the spec's own terms, what the compiled result, the
difficulty and the error taxonomy are supposed to be; the theorems below
compare them with the source embedding. -/

/-- Deduplication keeping the first occurrence of each element, in
first-seen order (the spec's "union, deduplicated, first-seen order"). -/
def dedupFS (l : List Str) : List Str := l.foldl dedupStep []

/-- The spec's "ordered cross-product of sequential segments": each segment
is a list of alternatives; the product enumerates choices left to right. -/
def crossProd : List (List Str) → List Str
  | [] => [[]]
  | seg :: rest => seg.flatMap (fun x => (crossProd rest).map (fun r => x ++ r))

/-- The segment decomposition of a branch per the spec's grammar: a maximal
hex run is a one-alternative segment, a group is the segment of its
alternatives (which the code requires to be plain hex runs).  Scanning and
error cases mirror `expandBranchGo`, but segments are collected instead of
being multiplied into an accumulator. -/
def branchSegments : Nat → Str → Except String (List (List Str))
  | _, [] => .ok []
  | 0, _ :: _ => .error "out of fuel"
  | fuel + 1, c :: rest =>
    if isHex c then
      match branchSegments fuel (rest.dropWhile isHex) with
      | .error e => .error e
      | .ok segs => .ok ([c :: rest.takeWhile isHex] :: segs)
    else if c = '(' then
      match findGroupSplit 1 rest with
      | none => .error "unclosed '('"
      | some (inner, after) =>
        if inner = [] then .error "empty group '()'"
        else
          match splitTopLevel inner with
          | .error e => .error e
          | .ok groupAlts =>
            if groupAlts.all (fun ga => ga.all isHex) then
              match branchSegments fuel after with
              | .error e => .error e
              | .ok segs => .ok (groupAlts :: segs)
            else .error "invalid character in group"
    else if c = ')' then .error "unexpected ')'"
    else if c = '|' then .error "unexpected '|'"
    else .error "invalid character"

/-- A branch's expansion per the spec: the ordered cross-product of its
segments. -/
def specExpandBranch (b : Str) : Except String (List Str) :=
  (branchSegments b.length b).map crossProd

/-- Expand every branch per the spec, stopping at the first error. -/
def specExpandBranches : List Str → Except String (List (List Str))
  | [] => .ok []
  | b :: bs =>
    match specExpandBranch b, specExpandBranches bs with
    | .error e, _ => .error e
    | .ok _, .error e => .error e
    | .ok x, .ok xs => .ok (x :: xs)

/-- The compiled result per the spec: the deduplicated, first-seen-order
union of every top-level branch's cross-product expansion. -/
def specCompile (pattern : Str) : Except String (List Str) :=
  let s := trimSpace pattern
  if s = [] then .ok []
  else
    let s := stripHexMarker s
    if s = [] then .error "pattern is empty"
    else
      match splitTopLevel s with
      | .error e => .error e
      | .ok branches =>
        match specExpandBranches branches with
        | .error e => .error e
        | .ok expansions =>
          let all := dedupFS expansions.flatten
          if all = [] then .error "pattern is empty" else .ok all

/-- The spec's caseFactor on a letter count: `2^letters` when case
sensitive, else 1. -/
def specCaseFactorK (k : Nat) (cs : Bool) : ℚ := if cs then 2 ^ k else 1

/-- The spec's caseFactor of an alternative. -/
def specCaseFactor (alt : Str) (cs : Bool) : ℚ :=
  specCaseFactorK (countHexLetters alt) cs

/-- An anchor's probability from a compiled result, as the claim words it:
the sum, over the compiled alternatives that survive redundancy removal, of
`1 / (16^len · caseFactor)`. -/
def specAnchorOfCompiled : Except String (List Str) → Bool → Bool → Option ℚ
  | .error _, _, _ => none
  | .ok [], _, _ => none
  | .ok alts, isStart, cs =>
    some (((reduceAlts alts isStart).map
      (fun alt => 1 / ((16:ℚ) ^ alt.length * specCaseFactor alt cs))).sum)

/-- An anchor's probability as the claim words it. -/
def specAnchorProbability (p : Str) (isStart cs : Bool) : Option ℚ :=
  if trimSpace p = [] then none
  else
    specAnchorOfCompiled
      (compileHexPattern (if cs then p else toLowerStr p)) isStart cs

/-- The contains probability as the claim words it: the single shortest
compiled alternative's per-position probability only. -/
def specContainsProbability (p : Str) (cs : Bool) : Option ℚ :=
  if trimSpace p = [] then none
  else
    let m := minPatternLenAndLetters (if cs then p else toLowerStr p)
    if m.1 = 0 then none
    else some (1 / ((16:ℚ) ^ m.1 * specCaseFactorK m.2 cs))

/-- Expected attempts from a combined probability, as the claim words it:
the truncating quotient denominator/numerator, a zero quotient (probability
close to or equal to 1) yielding 1 attempt, never 0. -/
def specAttempts (tot : ℚ) : Option Int :=
  if tot = 0 then none
  else if (tot.den : Int).tdiv tot.num = 0 then some 1
  else some ((tot.den : Int).tdiv tot.num)

/-- The difficulty as the claim words it: truncated reciprocal of the
product of the present anchors' probabilities; `none` when no anchor is
present. -/
def specHexDifficulty (pre suf sub : Str) (cs : Bool) : Option Int :=
  let probs := [specAnchorProbability pre true cs,
    specAnchorProbability suf false cs,
    specContainsProbability sub cs].filterMap id
  if probs = [] then none else specAttempts probs.prod

/-- A pattern argument that is blank or compiles (after the estimator's
case normalization) to a nonempty alternative list — the well-formed uses
of the estimator. -/
def ValidOrBlank (p : Str) (cs : Bool) : Prop :=
  trimSpace p = [] ∨
    ∃ a alts,
      compileHexPattern (if cs then p else toLowerStr p) = .ok (a :: alts)

/-! ### The error taxonomy, written from the spec's wording

`errorSyndromes` captures, over the marker-stripped pattern: empty pattern;
a character outside `[0-9a-fA-F()|]`; unmatched `(` or unexpected `)`
(paren scan failing or not returning to zero); an empty alternative
(dangling `|` at either end, or the adjacent pairs `||`, `(|`, `|)`, and
the empty group `()`); and — the amendment forced by the code — a nested
group (paren depth reaching 2). -/

/-- A character the pattern language accepts. -/
def validChar (c : Char) : Bool := isHex c || c = '(' || c = ')' || c = '|'

/-- Paren scan: final depth after a string, `none` once the depth would go
negative. -/
def parenRun : Str → Nat → Option Nat
  | [], d => some d
  | c :: cs, d =>
    if c = '(' then parenRun cs (d + 1)
    else if c = ')' then (if d = 0 then none else parenRun cs (d - 1))
    else parenRun cs d

/-- Adjacent pairs that create an empty alternative or an empty group. -/
def badPair (a b : Char) : Bool :=
  (a = '|' && b = '|') || (a = '(' && b = '|') ||
  (a = '|' && b = ')') || (a = '(' && b = ')')

/-- Does the string contain an adjacent bad pair? -/
def hasBadPair : Str → Bool
  | a :: b :: rest => badPair a b || hasBadPair (b :: rest)
  | _ => false

/-- A `|` dangling at the start or the end of the string. -/
def danglingPipe (s : Str) : Bool :=
  (s.head? == some '|') || (s.getLast? == some '|')

/-- Does the paren depth ever reach 2 (a nested group)? -/
def depthReaches2 : Str → Nat → Bool
  | [], _ => false
  | c :: cs, d =>
    if c = '(' then decide (2 ≤ d + 1) || depthReaches2 cs (d + 1)
    else if c = ')' then depthReaches2 cs (d - 1)
    else depthReaches2 cs d

/-- Does the string contain a `|` at paren depth 0 (a top-level split
point)? -/
def pipeAt0 : Str → Nat → Bool
  | [], _ => false
  | c :: cs, d =>
    if c = '(' then pipeAt0 cs (d + 1)
    else if c = ')' then pipeAt0 cs (d - 1)
    else if c = '|' then (d == 0) || pipeAt0 cs d
    else pipeAt0 cs d

/-- The full error taxonomy of C5, amended with the nested-group case. -/
def errorSyndromes (s : Str) : Bool :=
  s.isEmpty || s.any (fun c => !validChar c) || !(parenRun s 0 == some 0) ||
  danglingPipe s || hasBadPair s || depthReaches2 s 0

/-- Join strings with `'|'` separators (inverse of top-level splitting). -/
def joinPipe : List Str → Str
  | [] => []
  | [p] => p
  | p :: q :: ps => p ++ '|' :: joinPipe (q :: ps)

/-! ### The case-sensitive probability weights, for the C7 comparison -/

/-- Is a character a hex letter (`a-f` or `A-F`)?  Matches the filter of
`countHexLetters`. -/
def isHexLetter (c : Char) : Bool :=
  (decide ('a' ≤ c) && decide (c ≤ 'f')) ||
  (decide ('A' ≤ c) && decide (c ≤ 'F'))

/-- Per-character weight of the case-sensitive model: a cased letter matches
1 of 32 equally likely cased nibbles, a digit 2 of 32. -/
def u1 (c : Char) : ℚ := if isHexLetter c = true then 1/32 else 1/16

/-- The case-sensitive matching probability of one alternative: the product
of its per-character weights, `1/(16^len · 2^letters)`. -/
def uWeight (a : Str) : ℚ := (a.map u1).prod

/-- The 22 characters accepted by `isHex`. -/
def hexChars : List Char :=
  ['0','A','1','B','2','C','3','D','4','E','5','F',
   '6','a','7','b','8','c','9','d','e','f']

/-- The tails of the strings of `A` that start with `c` (the bucket of `c`
in the first-character partition). -/
def headTails (c : Char) (A : List Str) : List Str :=
  A.filterMap (fun a => match a with
    | [] => none
    | x :: t => if x = c then some t else none)

/-! ## Theorems -/

theorem findGroupSplit_length {d : Nat} {l inner rest : Str}
    (h : findGroupSplit d l = some (inner, rest)) :
    l.length = inner.length + 1 + rest.length := by
  induction l generalizing d inner rest with
  | nil => simp [findGroupSplit] at h
  | cons c cs ih =>
    simp only [findGroupSplit] at h
    split_ifs at h with h1 h2 h3
    · cases hr : findGroupSplit (d + 1) cs with
      | none => rw [hr] at h; simp at h
      | some p =>
        rw [hr] at h
        obtain ⟨i', r'⟩ := p
        simp only [Option.some.injEq, Prod.mk.injEq] at h
        obtain ⟨h4, h5⟩ := h
        subst h4; subst h5
        have := ih hr
        simp [this]; omega
    · simp only [Option.some.injEq, Prod.mk.injEq] at h
      obtain ⟨h4, h5⟩ := h
      subst h4; subst h5
      simp; omega
    · cases hr : findGroupSplit (d - 1) cs with
      | none => rw [hr] at h; simp at h
      | some p =>
        rw [hr] at h
        obtain ⟨i', r'⟩ := p
        simp only [Option.some.injEq, Prod.mk.injEq] at h
        obtain ⟨h4, h5⟩ := h
        subst h4; subst h5
        have := ih hr
        simp [this]; omega
    · cases hr : findGroupSplit d cs with
      | none => rw [hr] at h; simp at h
      | some p =>
        rw [hr] at h
        obtain ⟨i', r'⟩ := p
        simp only [Option.some.injEq, Prod.mk.injEq] at h
        obtain ⟨h4, h5⟩ := h
        subst h4; subst h5
        have := ih hr
        simp [this]; omega

theorem length_dropWhile_le (p : Char → Bool) (l : Str) :
    (l.dropWhile p).length ≤ l.length := by
  induction l with
  | nil => simp [List.dropWhile]
  | cons c cs ih =>
    simp only [List.dropWhile]
    split <;> simp <;> omega

theorem appendSegment_assoc (a b c : List Str) :
    appendSegment (appendSegment a b) c = appendSegment a (appendSegment b c) := by
  simp [appendSegment, List.flatMap_assoc, List.flatMap_map, List.map_flatMap,
    List.map_map, Function.comp_def, List.append_assoc]

theorem appendSegment_unit (x : List Str) : appendSegment [[]] x = x := by
  simp [appendSegment]

theorem foldl_appendSegment (segs : List (List Str)) (acc : List Str) :
    segs.foldl appendSegment acc = appendSegment acc (crossProd segs) := by
  induction segs generalizing acc with
  | nil => simp [crossProd, appendSegment]
  | cons seg rest ih =>
    simp only [List.foldl_cons, crossProd]
    rw [ih, appendSegment_assoc]
    rfl

theorem expandBranchGo_eq (fuel : Nat) :
    ∀ b acc, expandBranchGo fuel b acc
      = (branchSegments fuel b).map (fun segs => segs.foldl appendSegment acc) := by
  induction fuel with
  | zero =>
    intro b acc
    cases b <;> simp [expandBranchGo, branchSegments, Except.map]
  | succ fuel ih =>
    intro b acc
    cases b with
    | nil => simp [expandBranchGo, branchSegments, Except.map]
    | cons c rest =>
      rw [expandBranchGo, branchSegments]
      by_cases hhex : isHex c
      · simp only [hhex, if_pos, ih]
        cases branchSegments fuel (rest.dropWhile isHex) <;> simp [Except.map]
      · simp only [hhex, Bool.false_eq_true, if_false]
        by_cases hpar : c = '('
        · simp only [hpar, if_pos]
          cases findGroupSplit 1 rest with
          | none => simp [Except.map]
          | some p =>
            obtain ⟨inner, after⟩ := p
            by_cases hinner : inner = []
            · simp [hinner, Except.map]
            · simp only [hinner, if_neg, if_false]
              cases splitTopLevel inner with
              | error e => simp [Except.map]
              | ok groupAlts =>
                by_cases hall : groupAlts.all (fun ga => ga.all isHex) = true
                · simp only [hall, if_pos, ih]
                  cases branchSegments fuel after <;> simp [Except.map]
                · simp [hall, Except.map]
        · by_cases hcl : c = ')'
          · simp [hpar, hcl, Except.map]
          · by_cases hpi : c = '|'
            · simp [hpar, hcl, hpi, Except.map]
            · simp [hpar, hcl, hpi, Except.map]

theorem expandBranch_eq_spec (b : Str) : expandBranch b = specExpandBranch b := by
  rw [expandBranch, expandBranchGo_eq, specExpandBranch]
  cases branchSegments b.length b with
  | error e => simp [Except.map]
  | ok segs => simp [Except.map, foldl_appendSegment, appendSegment_unit]

theorem compileBranches_eq (bs : List Str) (all : List Str) :
    compileBranches bs all
      = (specExpandBranches bs).map
          (fun exps => exps.flatten.foldl dedupStep all) := by
  induction bs generalizing all with
  | nil => simp [compileBranches, specExpandBranches, Except.map]
  | cons b bs ih =>
    rw [compileBranches, expandBranch_eq_spec, specExpandBranches]
    cases hb : specExpandBranch b with
    | error e => simp [Except.map]
    | ok expanded =>
      simp only [ih]
      cases hbs : specExpandBranches bs with
      | error e => simp [Except.map]
      | ok exps => simp [Except.map, List.foldl_append]

theorem compileHexPattern_eq_specCompile (p : Str) :
    compileHexPattern p = specCompile p := by
  rw [compileHexPattern, specCompile]
  by_cases h0 : trimSpace p = []
  · simp [h0]
  · simp only [h0, if_neg, if_false]
    by_cases h1 : stripHexMarker (trimSpace p) = []
    · simp [h1]
    · simp only [h1, if_neg, if_false]
      cases hsp : splitTopLevel (stripHexMarker (trimSpace p)) with
      | error e => rfl
      | ok branches =>
        simp only [compileBranches_eq]
        cases hm : specExpandBranches branches with
        | error e => simp [Except.map]
        | ok exps => simp [Except.map, dedupFS]

theorem nodup_foldl_dedupStep (l : List Str) :
    ∀ acc : List Str, acc.Nodup → (l.foldl dedupStep acc).Nodup := by
  induction l with
  | nil => intro acc h; simpa using h
  | cons a l ih =>
    intro acc h
    simp only [List.foldl_cons]
    apply ih
    rw [dedupStep]
    split
    · exact h
    · rename_i hmem
      simp [List.nodup_append, h, hmem]

theorem compileHexPattern_ok_nodup (p : Str) (alts : List Str)
    (h : compileHexPattern p = .ok alts) : alts.Nodup := by
  rw [compileHexPattern_eq_specCompile, specCompile] at h
  by_cases h0 : trimSpace p = []
  · simp only [h0, if_pos] at h
    cases h
    exact List.nodup_nil
  · simp only [h0, if_neg, if_false] at h
    by_cases h1 : stripHexMarker (trimSpace p) = []
    · simp [h1] at h
    · simp only [h1, if_neg, if_false] at h
      cases hsp : splitTopLevel (stripHexMarker (trimSpace p)) with
      | error e => rw [hsp] at h; cases h
      | ok branches =>
        rw [hsp] at h
        dsimp only at h
        cases hm : specExpandBranches branches with
        | error e => rw [hm] at h; cases h
        | ok exps =>
          rw [hm] at h
          dsimp only at h
          split at h
          · cases h
          · cases h
            exact nodup_foldl_dedupStep _ _ List.nodup_nil


/-- C1: for every pattern-string that compiles successfully, the compiled
result is the union, in first-seen order and with no duplicates, of every
top-level branch's expansion, a branch's expansion being the ordered
cross-product of its sequential segments (hex runs and group alternations);
in particular `"a|b|c"` compiles to exactly `["a","b","c"]`,
`"x(a|b|c)(10|20|30|40|50)"` to exactly the 15 combinations, and
`MinHexPatternLen` of that pattern is 3. -/
theorem compile_expansion_characterization :
    (∀ p : Str, compileHexPattern p = specCompile p)
    ∧ (∀ (p : Str) (alts : List Str), compileHexPattern p = .ok alts → alts.Nodup)
    ∧ compileHexPattern "a|b|c".toList = .ok ["a".toList, "b".toList, "c".toList]
    ∧ compileHexPattern "x(a|b|c)(10|20|30|40|50)".toList
        = .ok ["a10".toList, "a20".toList, "a30".toList, "a40".toList, "a50".toList,
               "b10".toList, "b20".toList, "b30".toList, "b40".toList, "b50".toList,
               "c10".toList, "c20".toList, "c30".toList, "c40".toList, "c50".toList]
    ∧ MinHexPatternLen "x(a|b|c)(10|20|30|40|50)".toList = 3 :=
  ⟨compileHexPattern_eq_specCompile, compileHexPattern_ok_nodup, rfl, rfl, rfl⟩

/-- Witness for C1: the Nodup component applied at the concrete pattern
`"a|b|c"`, whose compilation hypothesis is discharged by `rfl`. -/
theorem compile_expansion_characterization_witness :
    compileHexPattern "a|b|c".toList = .ok ["a".toList, "b".toList, "c".toList]
      ∧ List.Nodup ["a".toList, "b".toList, "c".toList] :=
  ⟨rfl, compile_expansion_characterization.2.1 "a|b|c".toList
    ["a".toList, "b".toList, "c".toList] rfl⟩


theorem guardIte (p : List Str) (f : Str → Bool) (x : Bool) :
    ((if !p.isEmpty && !p.any f then false else x) = true) ↔
      ((p ≠ [] → ∃ a ∈ p, f a = true) ∧ x = true) := by
  cases hp : p.any f <;> cases p <;> cases x <;> simp_all [List.any_eq_true]

theorem matcherBody_spec (preAlts sufAlts subAlts : List Str)
    (re : Option (Str → Bool)) (cs : Bool) (addr : Str) :
    matcherBody preAlts sufAlts subAlts re cs addr = true ↔
      ((preAlts ≠ [] → ∃ a ∈ preAlts, a <+: trimPrefix0x (normStr cs addr))
       ∧ (sufAlts ≠ [] → ∃ a ∈ sufAlts, a <:+ trimPrefix0x (normStr cs addr))
       ∧ (subAlts ≠ [] → ∃ a ∈ subAlts, a <:+: trimPrefix0x (normStr cs addr))
       ∧ (∀ r, re = some r → r addr = true)) := by
  unfold matcherBody matchAlt
  rw [guardIte, guardIte, guardIte]
  cases re <;>
    simp [startsWithB, endsWithB, containsB, and_assoc]

/-- C3: the predicate built by `BuildMatcher` accepts an address exactly
when every present constraint passes: the 0x-stripped, case-normalized body
starts with some prefix alternative, ends with some suffix alternative,
contains some contains alternative, and the regex (when present) accepts
the full, unnormalized address; absent constraints impose no condition.
In particular the prefix pattern `"e|f|ff"` accepts bodies starting with
`"ff"` or `"e0"` and rejects one starting with `"0a"`. -/
theorem buildMatcher_characterization :
    (∀ (pre suf sub : Str) (re : Option (Str → Bool)) (cs : Bool) (addr : Str),
      BuildMatcher pre suf sub re cs addr = true ↔
        ((altsOrNil (normStr cs pre) ≠ [] →
            ∃ a ∈ altsOrNil (normStr cs pre), a <+: trimPrefix0x (normStr cs addr))
         ∧ (altsOrNil (normStr cs suf) ≠ [] →
            ∃ a ∈ altsOrNil (normStr cs suf), a <:+ trimPrefix0x (normStr cs addr))
         ∧ (altsOrNil (normStr cs sub) ≠ [] →
            ∃ a ∈ altsOrNil (normStr cs sub), a <:+: trimPrefix0x (normStr cs addr))
         ∧ (∀ r, re = some r → r addr = true)))
    ∧ BuildMatcher "e|f|ff".toList [] [] none false
        "0xffaaaaaaaaaaaaaaaaaaaaaaaaaaaaaaaaaaaaaa".toList = true
    ∧ BuildMatcher "e|f|ff".toList [] [] none false
        "0xe0aaaaaaaaaaaaaaaaaaaaaaaaaaaaaaaaaaaaaa".toList = true
    ∧ BuildMatcher "e|f|ff".toList [] [] none false
        "0x0aaaaaaaaaaaaaaaaaaaaaaaaaaaaaaaaaaaaaaa".toList = false :=
  ⟨fun pre suf sub re cs addr => matcherBody_spec _ _ _ re cs addr, rfl, rfl, rfl⟩

/-- Witness for C3: the characterization applied to the concrete matcher
with prefix `"e|f|ff"` and a concrete address accepted by it. -/
theorem buildMatcher_characterization_witness :
    BuildMatcher "e|f|ff".toList [] [] none false "0xff00".toList = true
      ∧ ((altsOrNil (normStr false "e|f|ff".toList) ≠ [] →
            ∃ a ∈ altsOrNil (normStr false "e|f|ff".toList),
              a <+: trimPrefix0x (normStr false "0xff00".toList))
         ∧ (altsOrNil (normStr false ([] : Str)) ≠ [] →
            ∃ a ∈ altsOrNil (normStr false ([] : Str)),
              a <:+ trimPrefix0x (normStr false "0xff00".toList))
         ∧ (altsOrNil (normStr false ([] : Str)) ≠ [] →
            ∃ a ∈ altsOrNil (normStr false ([] : Str)),
              a <:+: trimPrefix0x (normStr false "0xff00".toList))
         ∧ (∀ r, (none : Option (Str → Bool)) = some r → r "0xff00".toList = true)) :=
  ⟨rfl, (buildMatcher_characterization.1 "e|f|ff".toList [] [] none false
      "0xff00".toList).mp rfl⟩


theorem lowerChar_swapHexCase (c : Char) :
    lowerChar (swapHexCase c) = lowerChar c := by
  rw [swapHexCase]
  by_cases h1 : c = 'a'
  · subst h1; rfl
  rw [if_neg h1]
  by_cases h2 : c = 'b'
  · subst h2; rfl
  rw [if_neg h2]
  by_cases h3 : c = 'c'
  · subst h3; rfl
  rw [if_neg h3]
  by_cases h4 : c = 'd'
  · subst h4; rfl
  rw [if_neg h4]
  by_cases h5 : c = 'e'
  · subst h5; rfl
  rw [if_neg h5]
  by_cases h6 : c = 'f'
  · subst h6; rfl
  rw [if_neg h6]
  by_cases h7 : c = 'A'
  · subst h7; rfl
  rw [if_neg h7]
  by_cases h8 : c = 'B'
  · subst h8; rfl
  rw [if_neg h8]
  by_cases h9 : c = 'C'
  · subst h9; rfl
  rw [if_neg h9]
  by_cases h10 : c = 'D'
  · subst h10; rfl
  rw [if_neg h10]
  by_cases h11 : c = 'E'
  · subst h11; rfl
  rw [if_neg h11]
  by_cases h12 : c = 'F'
  · subst h12; rfl
  rw [if_neg h12]

theorem toLowerStr_caseSwapped {a a' : Str} (h : CaseSwapped a a') :
    toLowerStr a = toLowerStr a' := by
  induction a generalizing a' with
  | nil => cases h; rfl
  | cons c l ih =>
    cases h with
    | cons hcd htail =>
      simp only [toLowerStr, List.map_cons, List.cons.injEq]
      refine ⟨?_, ih htail⟩
      rcases hcd with rfl | rfl
      · rfl
      · exact (lowerChar_swapHexCase c).symm

theorem matcher_no_regex_invariant (pre suf sub addr addr' : Str)
    (h : CaseSwapped addr addr') :
    BuildMatcher pre suf sub none false addr
      = BuildMatcher pre suf sub none false addr' := by
  have hn : normStr false addr = normStr false addr' := by
    simpa [normStr] using toLowerStr_caseSwapped h
  simp only [BuildMatcher, matcherBody, hn]

/-- C8, amended: for every configuration of prefix, suffix and contains
constraints and **no regex**, the matcher built with `caseSensitive=false`
returns the same boolean for an address and any case-swapped variant of it;
with `caseSensitive=true` there are constraints and an address for which
swapping the case changes the result (prefix `"ab"` on `"0xab00"` vs
`"0xAb00"`).  (With a regex constraint present, cs=false invariance can
fail, since the regex is applied to the unnormalized address — see the
counterexample theorem.) -/
theorem matcher_case_swap_invariance :
    (∀ (pre suf sub addr addr' : Str), CaseSwapped addr addr' →
        BuildMatcher pre suf sub none false addr
          = BuildMatcher pre suf sub none false addr')
    ∧ (CaseSwapped "0xab00".toList "0xAb00".toList
        ∧ BuildMatcher "ab".toList [] [] none true "0xab00".toList = true
        ∧ BuildMatcher "ab".toList [] [] none true "0xAb00".toList = false) :=
  ⟨matcher_no_regex_invariant,
    ⟨.cons (Or.inl rfl) (.cons (Or.inl rfl) (.cons (Or.inr rfl)
      (.cons (Or.inl rfl) (.cons (Or.inl rfl) (.cons (Or.inl rfl) .nil))))),
     rfl, rfl⟩⟩

/-- Witness for C8 (amended): the invariance component applied at the
concrete prefix `"a"` and the case-swapped pair `"0xa0"` / `"0xA0"`. -/
theorem matcher_case_swap_invariance_witness :
    BuildMatcher "a".toList [] [] none false "0xa0".toList
      = BuildMatcher "a".toList [] [] none false "0xA0".toList :=
  matcher_case_swap_invariance.1 "a".toList [] [] "0xa0".toList "0xA0".toList
    (.cons (Or.inl rfl) (.cons (Or.inl rfl)
      (.cons (Or.inr rfl) (.cons (Or.inl rfl) .nil))))

/-- Counterexample to C8 as stated: with a regex constraint present (a
realizable one — Go's `regexp.MustCompile("A")` behaves as "the address
contains an `'A'`"), the `caseSensitive=false` matcher distinguishes two
addresses that differ only in the case of an `a` character. -/
theorem matcher_case_swap_counterexample :
    CaseSwapped "0xA0".toList "0xa0".toList
    ∧ BuildMatcher [] [] [] (some (fun s => s.contains 'A')) false
        "0xA0".toList = true
    ∧ BuildMatcher [] [] [] (some (fun s => s.contains 'A')) false
        "0xa0".toList = false :=
  ⟨.cons (Or.inl rfl) (.cons (Or.inl rfl)
      (.cons (Or.inr rfl) (.cons (Or.inl rfl) .nil))),
   rfl, rfl⟩

theorem altsOrNil_error {p : Str} (h : (compileHexPattern p).isOk = false) :
    altsOrNil p = [] := by
  rw [altsOrNil]
  cases hc : compileHexPattern p with
  | error e => rfl
  | ok alts => rw [hc] at h; simp [Except.isOk, Except.toBool] at h

/-- C9, amended: the engine performs no validation and returns no compile
error: `BuildMatcher` (which `Run` calls) silently discards pattern compile
errors, so a non-compiling prefix, suffix or contains pattern behaves
exactly like an absent constraint, and the workers run unconstrained by it
(validation is the caller's job: the TUI runs `ValidateHexPattern` before
invoking `Run`; a failed regex compile likewise leaves `re = nil`). -/
theorem engine_ignores_invalid_patterns :
    (∀ (pre suf sub : Str) (re : Option (Str → Bool)) (cs : Bool),
        (compileHexPattern (normStr cs pre)).isOk = false →
          BuildMatcher pre suf sub re cs = BuildMatcher [] suf sub re cs)
    ∧ (∀ (pre suf sub : Str) (re : Option (Str → Bool)) (cs : Bool),
        (compileHexPattern (normStr cs suf)).isOk = false →
          BuildMatcher pre suf sub re cs = BuildMatcher pre [] sub re cs)
    ∧ (∀ (pre suf sub : Str) (re : Option (Str → Bool)) (cs : Bool),
        (compileHexPattern (normStr cs sub)).isOk = false →
          BuildMatcher pre suf sub re cs = BuildMatcher pre suf [] re cs) := by
  refine ⟨fun pre suf sub re cs h => ?_, fun pre suf sub re cs h => ?_,
    fun pre suf sub re cs h => ?_⟩ <;>
    simp only [BuildMatcher, altsOrNil_error h] <;>
    rw [show altsOrNil (normStr cs []) = [] from by cases cs <;> rfl]

/-- Witness for C9 (amended): the prefix component applied at the invalid
pattern `"zz"`, whose compile failure is discharged by `rfl`. -/
theorem engine_ignores_invalid_patterns_witness :
    BuildMatcher "zz".toList [] [] none false
      = BuildMatcher [] [] [] none false :=
  engine_ignores_invalid_patterns.1 "zz".toList [] [] none false rfl

/-- Counterexample to C9 as stated: an invalid prefix pattern does not make
the engine return a compile error before workers start; the matcher the
engine builds simply accepts every address (the constraint is dropped), as
here where `"zz"` does not compile yet the matcher accepts an address not
starting with `"zz"`. -/
theorem engine_invalid_pattern_counterexample :
    (compileHexPattern "zz".toList).isOk = false
    ∧ BuildMatcher "zz".toList [] [] none false "0xdeadbeef".toList = true :=
  ⟨rfl, rfl⟩


theorem sum_map_set (f : WPhase → Nat) (l : List WPhase) :
    ∀ (i : Nat) (x ph : WPhase), l[i]? = some ph →
      ((l.set i x).map f).sum + f ph = (l.map f).sum + f x := by
  induction l with
  | nil => intro i x ph h; simp at h
  | cons a l ih =>
    intro i x ph h
    cases i with
    | zero =>
      simp only [List.getElem?_cons_zero, Option.some.injEq] at h
      subst h
      simp [List.set]
      omega
    | succ i =>
      simp only [List.getElem?_cons_succ] at h
      simp only [List.set, List.map_cons, List.sum_cons]
      have := ih i x ph h
      omega

theorem allExited_set_exited {s : EngState} {i : Nat}
    (h : allExited s) : ∀ w ∈ s.workers.set i .exited, w = WPhase.exited := by
  intro w hw
  rcases List.mem_or_eq_of_mem_set hw with hw' | rfl
  · exact h w hw'
  · rfl

theorem not_allExited_of_active {s : EngState} {i : Nat} {ph : WPhase}
    (h : s.workers[i]? = some ph) (hne : ph ≠ .exited) : ¬ allExited s := by
  intro hall
  exact hne (hall ph (List.getElem?_mem h))

theorem engInv_init (cnt W : Nat) : EngInv cnt (initState W) := by
  constructor
  · simp [initState, pendingPublishable, List.map_replicate, ticketWeight]
  · intro h
    simp [initState] at h

theorem engInv_step {cnt : Nat} {s : EngState} {l : ELabel} {s' : EngState}
    (hs : EngInv cnt s) (h : EngStep cnt s l s') : EngInv cnt s' := by
  obtain ⟨hsum, hcl⟩ := hs
  cases h with
  | exitCancel h hc =>
    refine ⟨?_, fun hc' => allExited_set_exited (hcl hc')⟩
    have := sum_map_set (ticketWeight cnt) s.workers _ .exited _ h
    simp only [ticketWeight] at this
    simp only [pendingPublishable] at *
    omega
  | exitFound h hf =>
    refine ⟨?_, fun hc' => allExited_set_exited (hcl hc')⟩
    have := sum_map_set (ticketWeight cnt) s.workers _ .exited _ h
    simp only [ticketWeight] at this
    simp only [pendingPublishable] at *
    omega
  | genFail h => exact ⟨hsum, hcl⟩
  | generate h =>
    rename_i i b
    refine ⟨?_, fun hc' =>
      absurd (hcl hc' _ (List.getElem?_mem h)) (by simp)⟩
    have := sum_map_set (ticketWeight cnt) s.workers i (.testing b) _ h
    simp only [ticketWeight] at this
    simp only [pendingPublishable] at *
    omega
  | noMatch h =>
    refine ⟨?_, fun hc' =>
      absurd (hcl hc' _ (List.getElem?_mem h)) (by simp)⟩
    have := sum_map_set (ticketWeight cnt) s.workers _ .top _ h
    simp only [ticketWeight] at this
    simp only [pendingPublishable] at *
    omega
  | incFound h =>
    refine ⟨?_, fun hc' =>
      absurd (hcl hc' _ (List.getElem?_mem h)) (by simp)⟩
    have := sum_map_set (ticketWeight cnt) s.workers _ (.holding (s.found + 1)) _ h
    simp only [ticketWeight] at this
    simp only [pendingPublishable] at *
    by_cases hn : s.found + 1 ≤ cnt
    · rw [if_pos hn] at this
      omega
    · rw [if_neg hn] at this
      omega
  | publish h hn =>
    refine ⟨?_, fun hc' =>
      absurd (hcl hc' _ (List.getElem?_mem h)) (by simp)⟩
    have := sum_map_set (ticketWeight cnt) s.workers _ .top _ h
    simp only [ticketWeight, if_pos hn] at this
    simp only [pendingPublishable] at *
    omega
  | abortSend h hn hc =>
    refine ⟨?_, fun hc' => allExited_set_exited (hcl hc')⟩
    have := sum_map_set (ticketWeight cnt) s.workers _ .exited _ h
    simp only [ticketWeight, if_pos hn] at this
    simp only [pendingPublishable] at *
    omega
  | discard h hn =>
    rename_i i n
    refine ⟨?_, fun hc' =>
      absurd (hcl hc' _ (List.getElem?_mem h)) (by simp)⟩
    have := sum_map_set (ticketWeight cnt) s.workers i .top _ h
    simp only [ticketWeight, if_neg (by omega : ¬ n ≤ cnt)] at this
    simp only [pendingPublishable] at *
    omega
  | cancel => exact ⟨hsum, hcl⟩
  | closeCh hcl' hex => exact ⟨hsum, fun _ => hex⟩

theorem engInv_reachable {cnt W : Nat} {s : EngState}
    (h : Reachable cnt W s) : EngInv cnt s := by
  induction h with
  | init => exact engInv_init cnt W
  | step _ hstep ih => exact engInv_step ih hstep


/-- C4: in every run of the engine (any `Workers ≥ 1`, `Count ≥ 1`) and at
every reachable state, at most `Count` results have been published; the
channel can be closed only once, and only after every worker has exited;
from a state with the channel closed no step publishes (no send after
close) and the channel stays closed; and `Found` is incremented exactly
once per accepted match even beyond `Count` (a beyond-`Count` match is
discarded without publishing, its increment having already happened). -/
theorem run_engine_safety (cnt W : Nat) (hW : 1 ≤ W) (hcnt : 1 ≤ cnt)
    (s : EngState) (hr : Reachable cnt W s) :
    s.sent ≤ cnt
    ∧ (s.closed = true → allExited s)
    ∧ (∀ (l : ELabel) (s' : EngState), EngStep cnt s l s' → s.closed = true →
        s'.sent = s.sent ∧ s'.closed = true)
    ∧ (∀ s' : EngState, EngStep cnt s .closeCh s' →
        s.closed = false ∧ allExited s ∧ s'.closed = true)
    ∧ (∀ (i : Nat) (s' : EngState), EngStep cnt s (.incFound i) s' →
        s'.found = s.found + 1 ∧ s'.sent = s.sent)
    ∧ (∀ (i : Nat) (s' : EngState), EngStep cnt s (.discard i) s' →
        s'.sent = s.sent ∧ s'.found = s.found) := by
  obtain ⟨hsum, hcl⟩ := engInv_reachable hr
  refine ⟨by omega, hcl, ?_, ?_, ?_, ?_⟩
  · intro l s' hstep hclosed
    cases hstep with
    | exitCancel h hc =>
      exact absurd (hcl hclosed _ (List.getElem?_mem h)) (by simp)
    | exitFound h hf =>
      exact absurd (hcl hclosed _ (List.getElem?_mem h)) (by simp)
    | genFail h => exact ⟨rfl, hclosed⟩
    | generate h =>
      exact absurd (hcl hclosed _ (List.getElem?_mem h)) (by simp)
    | noMatch h =>
      exact absurd (hcl hclosed _ (List.getElem?_mem h)) (by simp)
    | incFound h =>
      exact absurd (hcl hclosed _ (List.getElem?_mem h)) (by simp)
    | publish h hn =>
      exact absurd (hcl hclosed _ (List.getElem?_mem h)) (by simp)
    | abortSend h hn hc =>
      exact absurd (hcl hclosed _ (List.getElem?_mem h)) (by simp)
    | discard h hn =>
      exact absurd (hcl hclosed _ (List.getElem?_mem h)) (by simp)
    | cancel => exact ⟨rfl, hclosed⟩
    | closeCh hcl' hex => rw [hclosed] at hcl'; cases hcl'
  · intro s' hstep
    cases hstep with
    | closeCh hcl' hex => exact ⟨hcl', hex, rfl⟩
  · intro i s' hstep
    cases hstep with
    | incFound h => exact ⟨rfl, rfl⟩
  · intro i s' hstep
    cases hstep with
    | discard h hn => exact ⟨rfl, rfl⟩

/-- Witness for C4: the safety conjunction applied at the initial state of
a 1-worker, count-1 engine, reachable by definition. -/
theorem run_engine_safety_witness :
    (initState 1).sent ≤ 1 ∧ ((initState 1).closed = true → allExited (initState 1)) :=
  ⟨(run_engine_safety 1 1 (by decide) (by decide) (initState 1) Reachable.init).1,
   (run_engine_safety 1 1 (by decide) (by decide) (initState 1) Reachable.init).2.1⟩


/-- Counterexample to C6 as stated: `"a(b(c|d))"` does not compile to
`["abc","abd"]` — group contents are not recursively expanded; a nested
group is rejected with an invalid-character error. -/
theorem nested_group_counterexample :
    compileHexPattern "a(b(c|d))".toList ≠ .ok ["abc".toList, "abd".toList]
    ∧ compileHexPattern "a(b(c|d))".toList
        = .error "invalid character in group" := by
  refine ⟨?_, rfl⟩
  intro h
  rw [show compileHexPattern "a(b(c|d))".toList
        = Except.error "invalid character in group" from rfl] at h
  exact Except.noConfusion h

/-- C6, amended: groups expand one level of alternation only — a group's
content must be a flat alternation of hex runs, so a pattern whose group
contains a further group fails to compile with an invalid-character error
(`"a(b(c|d))"`), while a single-level group expands as the alternation of
its hex alternatives (`"a(b|c)"` compiles to `["ab","ac"]`). -/
theorem group_expansion_flat :
    compileHexPattern "a(b(c|d))".toList
      = .error "invalid character in group"
    ∧ compileHexPattern "a(b|c)".toList = .ok ["ab".toList, "ac".toList] :=
  ⟨rfl, rfl⟩


theorem patternDenominator_pos (n k : Nat) (cs : Bool) :
    0 < patternDenominator n k cs := by
  rw [patternDenominator]
  split_ifs <;> positivity

theorem foldl_add_eq_sum (f : Str → ℚ) (l : List Str) :
    ∀ q : ℚ, l.foldl (fun acc a => acc + f a) q = q + (l.map f).sum := by
  induction l with
  | nil => intro q; simp
  | cons a l ih =>
    intro q
    simp only [List.foldl_cons, List.map_cons, List.sum_cons, ih]
    ring

theorem insertSorted_perm (a : Str) (l : List Str) :
    (insertSorted a l).Perm (a :: l) := by
  induction l with
  | nil => simp [insertSorted]
  | cons b bs ih =>
    rw [insertSorted]
    split
    · exact List.Perm.refl _
    · exact (List.Perm.cons b ih).trans (List.Perm.swap a b bs)

theorem sortStrs_perm (l : List Str) : (sortStrs l).Perm l := by
  induction l with
  | nil => simp [sortStrs]
  | cons a l ih =>
    exact (insertSorted_perm a (sortStrs l)).trans (List.Perm.cons a ih)

theorem exists_min_length {l : List Str} (h : l ≠ []) :
    ∃ a ∈ l, ∀ b ∈ l, a.length ≤ b.length := by
  induction l with
  | nil => exact absurd rfl h
  | cons a l ih =>
    cases l with
    | nil => exact ⟨a, List.mem_singleton_self a, by simp⟩
    | cons b bs =>
      obtain ⟨m, hm, hmin⟩ := ih (by simp)
      by_cases hc : a.length ≤ m.length
      · refine ⟨a, List.mem_cons_self a _, ?_⟩
        intro x hx
        rcases List.mem_cons.mp hx with rfl | hx
        · exact le_rfl
        · exact hc.trans (hmin x hx)
      · refine ⟨m, List.mem_cons_of_mem a hm, ?_⟩
        intro x hx
        rcases List.mem_cons.mp hx with rfl | hx
        · omega
        · exact hmin x hx

theorem reduceAlts_ne_nil {alts : List Str} (h : alts ≠ []) (st : Bool) :
    reduceAlts alts st ≠ [] := by
  obtain ⟨a, ha, hmin⟩ := exists_min_length h
  apply List.ne_nil_of_mem (a := a)
  rw [reduceAlts, List.mem_filter]
  refine ⟨ha, ?_⟩
  simp only [Bool.not_eq_true', List.any_eq_false]
  intro b hb
  have := hmin b hb
  cases st <;> simp_all <;> omega

theorem edgeProbCompiled_pos {res : Except String (List Str)} {st cs : Bool}
    {q : ℚ} (h : edgeProbCompiled res st cs = some q) : 0 < q := by
  cases res with
  | error e => exact Option.noConfusion h
  | ok alts =>
    cases alts with
    | nil => exact Option.noConfusion h
    | cons a0 rest =>
      simp only [edgeProbCompiled, Option.some.injEq] at h
      subst h
      rw [foldl_add_eq_sum]
      have hne : reduceAlts (a0 :: rest) st ≠ [] :=
        reduceAlts_ne_nil (by simp) st
      have hperm :
          ((sortStrs (reduceAlts (a0 :: rest) st)).map
            (fun alt => 1 / ((patternDenominator alt.length
              (countHexLetters alt) cs : Int) : ℚ))).Perm
          ((reduceAlts (a0 :: rest) st).map
            (fun alt => 1 / ((patternDenominator alt.length
              (countHexLetters alt) cs : Int) : ℚ))) :=
        (sortStrs_perm _).map _
      rw [hperm.sum_eq]
      cases hrl : reduceAlts (a0 :: rest) st with
      | nil => exact absurd hrl hne
      | cons r rs =>
        simp only [List.map_cons, List.sum_cons, zero_add]
        have h1 : (0:ℚ) < 1 / ((patternDenominator r.length
            (countHexLetters r) cs : Int) : ℚ) := by
          apply div_pos one_pos
          exact_mod_cast patternDenominator_pos _ _ _
        have h2 : (0:ℚ) ≤ ((rs).map (fun alt => 1 / ((patternDenominator
            alt.length (countHexLetters alt) cs : Int) : ℚ))).sum := by
          apply List.sum_nonneg
          intro x hx
          simp only [List.mem_map] at hx
          obtain ⟨alt, _, rfl⟩ := hx
          apply le_of_lt
          apply div_pos one_pos
          exact_mod_cast patternDenominator_pos _ _ _
        linarith

theorem edgePatternProbability_pos {p : Str} {st cs : Bool} {q : ℚ}
    (h : edgePatternProbability p st cs = some q) : 0 < q := by
  rw [edgePatternProbability] at h
  split_ifs at h
  all_goals exact edgeProbCompiled_pos h

theorem containsPatternProbabilityApprox_pos {p : Str} {cs : Bool} {q : ℚ}
    (h : containsPatternProbabilityApprox p cs = some q) : 0 < q := by
  rw [containsPatternProbabilityApprox] at h
  split_ifs at h
  all_goals
    dsimp only at h
    split_ifs at h
    all_goals
      simp only [Option.some.injEq] at h
      subst h
      exact div_pos one_pos (by exact_mod_cast patternDenominator_pos _ _ _)

theorem accumProb_pos {st : Bool × ℚ} {o : Option ℚ}
    (hst : 0 < st.2) (ho : ∀ q, o = some q → 0 < q) :
    0 < (accumProb st o).2 := by
  cases o with
  | none => exact hst
  | some q => exact mul_pos hst (ho q rfl)

theorem hexDifficultyOf_ge_one {st : Bool × ℚ} {d : Int}
    (hpos : 0 < st.2) (h : hexDifficultyOf st = some d) : 1 ≤ d := by
  rw [hexDifficultyOf] at h
  by_cases hact : st.1 = false
  · rw [if_pos (Or.inl hact)] at h
    exact Option.noConfusion h
  · rw [if_neg (not_or.mpr ⟨hact, ne_of_gt hpos⟩)] at h
    have hnum : 0 < st.2.num := Rat.num_pos.mpr hpos
    rw [if_neg hnum.ne'] at h
    by_cases hd : (st.2.den : Int).tdiv st.2.num = 0
    · rw [if_pos hd] at h
      simp only [Option.some.injEq] at h
      omega
    · rw [if_neg hd] at h
      simp only [Option.some.injEq] at h
      have hden : (0:Int) < (st.2.den : Int) := by exact_mod_cast st.2.pos
      have : 0 ≤ (st.2.den : Int).tdiv st.2.num :=
        Int.tdiv_nonneg (by omega) (by omega)
      omega

/-- C10: whenever `HexDifficulty` returns a value, that value is at least 1
(never zero or negative): a combined probability whose truncated reciprocal
would be 0 is clamped to 1. -/
theorem hexDifficulty_ge_one (pre suf sub : Str) (cs : Bool) (d : Int)
    (h : HexDifficulty pre suf sub cs = some d) : 1 ≤ d := by
  rw [HexDifficulty] at h
  refine hexDifficultyOf_ge_one ?_ h
  apply accumProb_pos
  apply accumProb_pos
  apply accumProb_pos
  · norm_num
  · exact fun q hq => edgePatternProbability_pos hq
  · exact fun q hq => edgePatternProbability_pos hq
  · exact fun q hq => containsPatternProbabilityApprox_pos hq

/-- Witness for C10: applied at the concrete prefix `"a"`, for which the
estimator returns 16. -/
theorem hexDifficulty_ge_one_witness : (1:Int) ≤ 16 := by
  refine hexDifficulty_ge_one "a".toList [] [] false 16 ?_
  have he : edgePatternProbability "a".toList true false
      = some (0 + 1 / ((patternDenominator 1 1 false : Int) : ℚ)) := rfl
  have hs : edgePatternProbability [] false false = none := rfl
  have hc : containsPatternProbabilityApprox [] false = none := rfl
  rw [HexDifficulty, he, hs, hc]
  simp only [accumProb, hexDifficultyOf]
  norm_num [patternDenominator]


theorem patternDenominator_cast (n k : Nat) (cs : Bool) :
    ((patternDenominator n k cs : Int) : ℚ)
      = (16:ℚ) ^ n * specCaseFactorK k cs := by
  cases cs with
  | false =>
    rw [patternDenominator, specCaseFactorK, if_neg (by simp), if_neg (by simp)]
    push_cast
    ring
  | true =>
    rw [patternDenominator, specCaseFactorK]
    by_cases hk : 0 < k
    · rw [if_pos ⟨rfl, hk⟩, if_pos rfl]
      push_cast
      ring
    · have hk0 : k = 0 := by omega
      subst hk0
      rw [if_neg (by simp), if_pos rfl]
      push_cast
      ring

theorem edgeProbCompiled_eq_spec (res : Except String (List Str))
    (st cs : Bool) : edgeProbCompiled res st cs = specAnchorOfCompiled res st cs := by
  cases res with
  | error e => rfl
  | ok alts =>
    cases alts with
    | nil => rfl
    | cons a0 rest =>
      simp only [edgeProbCompiled, specAnchorOfCompiled, Option.some.injEq]
      rw [foldl_add_eq_sum, zero_add,
        ((sortStrs_perm (reduceAlts (a0 :: rest) st)).map _).sum_eq]
      exact congrArg List.sum (List.map_eq_map_iff.mpr
        (fun alt _ => by rw [patternDenominator_cast, specCaseFactor]))

theorem edgePatternProbability_eq_spec (p : Str) (st cs : Bool) :
    edgePatternProbability p st cs = specAnchorProbability p st cs := by
  rw [edgePatternProbability, specAnchorProbability, edgeProbCompiled_eq_spec]

theorem containsPatternProbabilityApprox_eq_spec (p : Str) (cs : Bool) :
    containsPatternProbabilityApprox p cs = specContainsProbability p cs := by
  rw [containsPatternProbabilityApprox, specContainsProbability]
  simp only [patternDenominator_cast]

theorem hexDifficultyOf_true_eq (x : ℚ) :
    hexDifficultyOf (true, x) = specAttempts x := by
  rw [hexDifficultyOf, specAttempts]
  by_cases hx : x = 0
  · simp [hx]
  · rw [if_neg (by simp [hx]), if_neg hx,
      if_neg (Rat.num_ne_zero.mpr hx)]

/-- Part 1 of C2: the source's difficulty computation agrees everywhere
with the claim's description of it. -/
theorem hexDifficulty_eq_spec (pre suf sub : Str) (cs : Bool) :
    HexDifficulty pre suf sub cs = specHexDifficulty pre suf sub cs := by
  rw [HexDifficulty, specHexDifficulty,
    edgePatternProbability_eq_spec, edgePatternProbability_eq_spec,
    containsPatternProbabilityApprox_eq_spec]
  cases h1 : specAnchorProbability pre true cs <;>
    cases h2 : specAnchorProbability suf false cs <;>
    cases h3 : specContainsProbability sub cs <;>
    simp only [accumProb]
  · simp [hexDifficultyOf]
  · rw [hexDifficultyOf_true_eq,
      show List.filterMap id [(none : Option ℚ), none, some _] = [_] from rfl,
      if_neg (by simp)]
    exact congrArg specAttempts (by simp <;> ring)
  · rw [hexDifficultyOf_true_eq,
      show List.filterMap id [(none : Option ℚ), some _, none] = [_] from rfl,
      if_neg (by simp)]
    exact congrArg specAttempts (by simp <;> ring)
  · rw [hexDifficultyOf_true_eq,
      show List.filterMap id [(none : Option ℚ), some _, some _] = [_, _] from rfl,
      if_neg (by simp)]
    exact congrArg specAttempts (by simp <;> ring)
  · rw [hexDifficultyOf_true_eq,
      show List.filterMap id [some _, (none : Option ℚ), none] = [_] from rfl,
      if_neg (by simp)]
    exact congrArg specAttempts (by simp <;> ring)
  · rw [hexDifficultyOf_true_eq,
      show List.filterMap id [some _, (none : Option ℚ), some _] = [_, _] from rfl,
      if_neg (by simp)]
    exact congrArg specAttempts (by simp <;> ring)
  · rw [hexDifficultyOf_true_eq,
      show List.filterMap id [some _, some _, (none : Option ℚ)] = [_, _] from rfl,
      if_neg (by simp)]
    exact congrArg specAttempts (by simp <;> ring)
  · rw [hexDifficultyOf_true_eq,
      show List.filterMap id [some _, some _, some _] = [_, _, _] from rfl,
      if_neg (by simp)]
    exact congrArg specAttempts (by simp <;> ring)


theorem splitTopLevelGo_parts_ne_nil :
    ∀ (s : Str) (depth : Nat) (cur : Str) (acc parts : List Str),
      splitTopLevelGo s depth cur acc = .ok parts →
      (∀ x ∈ acc, x ≠ []) → ∀ x ∈ parts, x ≠ [] := by
  intro s
  induction s with
  | nil =>
    intro depth cur acc parts h hacc
    rw [splitTopLevelGo] at h
    split_ifs at h with hd hcur
    simp only [Except.ok.injEq] at h
    subst h
    intro x hx
    rcases List.mem_append.mp hx with hx | hx
    · exact hacc x hx
    · rcases List.mem_singleton.mp hx with rfl
      simpa using hcur
  | cons c cs ih =>
    intro depth cur acc parts h hacc
    rw [splitTopLevelGo] at h
    split_ifs at h
    all_goals first
      | exact ih _ _ _ _ h hacc
      | (refine ih _ _ _ _ h ?_
         intro x hx
         rcases List.mem_append.mp hx with hx | hx
         · exact hacc x hx
         · rcases List.mem_singleton.mp hx with rfl
           simp_all)

theorem splitTopLevel_parts_ne_nil {s : Str} {parts : List Str}
    (h : splitTopLevel s = .ok parts) : ∀ x ∈ parts, x ≠ [] :=
  splitTopLevelGo_parts_ne_nil s 0 [] [] parts h (by simp)

theorem mem_appendSegment {x : Str} {A S : List Str} :
    x ∈ appendSegment A S ↔ ∃ p ∈ A, ∃ t ∈ S, x = p ++ t := by
  simp only [appendSegment, List.mem_flatMap, List.mem_map]
  constructor
  · rintro ⟨p, hp, t, ht, rfl⟩
    exact ⟨p, hp, t, ht, rfl⟩
  · rintro ⟨p, hp, t, ht, rfl⟩
    exact ⟨p, hp, t, ht, rfl⟩

theorem expandBranchGo_ne_nil :
    ∀ (fuel : Nat) (b : Str) (acc alts : List Str),
      expandBranchGo fuel b acc = .ok alts →
      ((∀ a ∈ acc, a ≠ []) ∨ b ≠ []) → ∀ a ∈ alts, a ≠ [] := by
  intro fuel
  induction fuel with
  | zero =>
    intro b acc alts h hgood
    cases b with
    | nil =>
      simp only [expandBranchGo, Except.ok.injEq] at h
      subst h
      rcases hgood with hgood | hgood
      · exact hgood
      · exact absurd rfl hgood
    | cons c rest => exact Except.noConfusion h
  | succ fuel ih =>
    intro b acc alts h hgood
    cases b with
    | nil =>
      simp only [expandBranchGo, Except.ok.injEq] at h
      subst h
      rcases hgood with hgood | hgood
      · exact hgood
      · exact absurd rfl hgood
    | cons c rest =>
      rw [expandBranchGo] at h
      split_ifs at h with h1 h2
      · refine ih _ _ _ h (Or.inl ?_)
        intro a ha
        rcases mem_appendSegment.mp ha with ⟨p, _, t, ht, rfl⟩
        rcases List.mem_singleton.mp ht with rfl
        simp
      · cases hfs : findGroupSplit 1 rest with
        | none => rw [hfs] at h; exact Except.noConfusion h
        | some pr =>
          obtain ⟨inner, after⟩ := pr
          rw [hfs] at h
          dsimp only at h
          split_ifs at h with h5
          cases hsp : splitTopLevel inner with
          | error e => rw [hsp] at h; exact Except.noConfusion h
          | ok groupAlts =>
            rw [hsp] at h
            dsimp only at h
            split_ifs at h with h6
            refine ih _ _ _ h (Or.inl ?_)
            intro a ha
            rcases mem_appendSegment.mp ha with ⟨p, _, t, ht, rfl⟩
            have := splitTopLevel_parts_ne_nil hsp t ht
            simp [this]

theorem mem_foldl_dedupStep :
    ∀ (l acc : List Str) (x : Str), x ∈ l.foldl dedupStep acc →
      x ∈ acc ∨ x ∈ l := by
  intro l
  induction l with
  | nil => intro acc x hx; exact Or.inl hx
  | cons a l ih =>
    intro acc x hx
    rcases ih _ _ hx with hx' | hx'
    · rw [dedupStep] at hx'
      split_ifs at hx' with hmem
      · exact Or.inl hx'
      · rcases List.mem_append.mp hx' with hx'' | hx''
        · exact Or.inl hx''
        · rcases List.mem_singleton.mp hx'' with rfl
          exact Or.inr (List.mem_cons_self _ _)
    · exact Or.inr (List.mem_cons_of_mem _ hx')

theorem compileBranches_ne_nil :
    ∀ (bs : List Str) (all alts : List Str),
      compileBranches bs all = .ok alts →
      (∀ a ∈ all, a ≠ []) → (∀ b ∈ bs, b ≠ []) → ∀ a ∈ alts, a ≠ [] := by
  intro bs
  induction bs with
  | nil =>
    intro all alts h hall hbs
    simp only [compileBranches, Except.ok.injEq] at h
    subst h
    exact hall
  | cons b bs ih =>
    intro all alts h hall hbs
    rw [compileBranches] at h
    cases he : expandBranch b with
    | error e => rw [he] at h; exact Except.noConfusion h
    | ok expanded =>
      rw [he] at h
      refine ih _ _ h ?_ (fun x hx => hbs x (List.mem_cons_of_mem _ hx))
      intro a ha
      rcases mem_foldl_dedupStep _ _ _ ha with ha' | ha'
      · exact hall a ha'
      · exact expandBranchGo_ne_nil _ _ _ _ he
          (Or.inr (hbs b (List.mem_cons_self _ _))) a ha'

theorem compile_alts_ne_nil {p : Str} {alts : List Str}
    (h : compileHexPattern p = .ok alts) : ∀ a ∈ alts, a ≠ [] := by
  rw [compileHexPattern] at h
  split_ifs at h with h0
  · simp only [Except.ok.injEq] at h
    subst h
    simp
  · dsimp only at h
    split_ifs at h with h1
    cases hsp : splitTopLevel (stripHexMarker (trimSpace p)) with
    | error e => rw [hsp] at h; exact Except.noConfusion h
    | ok branches =>
      rw [hsp] at h
      dsimp only at h
      cases hcb : compileBranches branches [] with
      | error e => rw [hcb] at h; exact Except.noConfusion h
      | ok all =>
        rw [hcb] at h
        dsimp only at h
        split_ifs at h with h2
        simp only [Except.ok.injEq] at h
        subst h
        exact compileBranches_ne_nil branches [] all hcb (by simp)
          (splitTopLevel_parts_ne_nil hsp)

theorem foldl_minStep_mem (l : List Str) :
    ∀ x0 : Str, ∃ x, (x = x0 ∨ x ∈ l) ∧
      l.foldl minStep (x0.length, countHexLetters x0)
        = (x.length, countHexLetters x) := by
  induction l with
  | nil => intro x0; exact ⟨x0, Or.inl rfl, rfl⟩
  | cons b l ih =>
    intro x0
    simp only [List.foldl_cons]
    rw [minStep]
    dsimp only
    split_ifs with hc
    · obtain ⟨x, hx, hfold⟩ := ih b
      exact ⟨x, Or.inr (hx.elim (fun h => h ▸ List.mem_cons_self _ _)
        (fun h => List.mem_cons_of_mem _ h)), hfold⟩
    · obtain ⟨x, hx, hfold⟩ := ih x0
      exact ⟨x, hx.imp_right (List.mem_cons_of_mem _), hfold⟩

theorem minPatternLenAndLetters_pos {p : Str} {a : Str} {rest : List Str}
    (h : compileHexPattern p = .ok (a :: rest)) :
    (minPatternLenAndLetters p).1 ≠ 0 := by
  rw [minPatternLenAndLetters, h]
  dsimp only
  obtain ⟨x, hx, hfold⟩ := foldl_minStep_mem rest a
  rw [hfold]
  have hne : x ≠ [] := by
    refine compile_alts_ne_nil h x ?_
    rcases hx with rfl | hx
    · exact List.mem_cons_self _ _
    · exact List.mem_cons_of_mem _ hx
  simpa [List.length_eq_zero] using hne


theorem accumProb_fst_true {st : Bool × ℚ} (h : st.1 = true)
    (o : Option ℚ) : (accumProb st o).1 = true := by
  cases o with
  | none => exact h
  | some q => rfl

theorem accumProb_some_fst (st : Bool × ℚ) (q : ℚ) :
    (accumProb st (some q)).1 = true := rfl

theorem hexDifficultyOf_ne_none {st : Bool × ℚ} (h1 : st.1 = true)
    (hpos : 0 < st.2) : hexDifficultyOf st ≠ none := by
  rw [hexDifficultyOf,
    if_neg (not_or.mpr ⟨by simp [h1], ne_of_gt hpos⟩),
    if_neg (Rat.num_pos.mpr hpos).ne']
  split_ifs <;> simp

theorem edgePatternProbability_isSome {p : Str} {cs : Bool} (st : Bool)
    (h0 : trimSpace p ≠ [])
    (hc : ∃ a alts, compileHexPattern (if cs then p else toLowerStr p)
      = .ok (a :: alts)) :
    ∃ q, edgePatternProbability p st cs = some q := by
  obtain ⟨a, alts, hc⟩ := hc
  rw [edgePatternProbability, if_neg h0, hc]
  exact ⟨_, rfl⟩

theorem containsPatternProbabilityApprox_isSome {p : Str} {cs : Bool}
    (h0 : trimSpace p ≠ [])
    (hc : ∃ a alts, compileHexPattern (if cs then p else toLowerStr p)
      = .ok (a :: alts)) :
    ∃ q, containsPatternProbabilityApprox p cs = some q := by
  obtain ⟨a, alts, hc⟩ := hc
  rw [containsPatternProbabilityApprox, if_neg h0]
  dsimp only
  rw [if_neg (minPatternLenAndLetters_pos hc)]
  exact ⟨_, rfl⟩

theorem hexDifficulty_accum_pos (pre suf sub : Str) (cs : Bool) :
    0 < (accumProb
      (accumProb
        (accumProb (false, 1) (edgePatternProbability pre true cs))
        (edgePatternProbability suf false cs))
      (containsPatternProbabilityApprox sub cs)).2 := by
  apply accumProb_pos
  apply accumProb_pos
  apply accumProb_pos
  · norm_num
  · exact fun q hq => edgePatternProbability_pos hq
  · exact fun q hq => edgePatternProbability_pos hq
  · exact fun q hq => containsPatternProbabilityApprox_pos hq

/-- Part 2 of C2: with well-formed (blank or compilable) patterns, the
estimate is `none` exactly when no prefix/suffix/contains constraint was
supplied. -/
theorem hexDifficulty_none_iff (pre suf sub : Str) (cs : Bool)
    (h1 : ValidOrBlank pre cs) (h2 : ValidOrBlank suf cs)
    (h3 : ValidOrBlank sub cs) :
    (HexDifficulty pre suf sub cs = none ↔
      (trimSpace pre = [] ∧ trimSpace suf = [] ∧ trimSpace sub = [])) := by
  constructor
  · intro h0
    by_contra hq
    have hpos := hexDifficulty_accum_pos pre suf sub cs
    rw [HexDifficulty] at h0
    have hactive : (accumProb
        (accumProb
          (accumProb (false, 1) (edgePatternProbability pre true cs))
          (edgePatternProbability suf false cs))
        (containsPatternProbabilityApprox sub cs)).1 = true := by
      by_cases hb3 : trimSpace sub = []
      · by_cases hb2 : trimSpace suf = []
        · by_cases hb1 : trimSpace pre = []
          · exact absurd ⟨hb1, hb2, hb3⟩ hq
          · obtain ⟨q, hsome⟩ := edgePatternProbability_isSome true hb1
              (h1.resolve_left hb1)
            rw [hsome]
            exact accumProb_fst_true (accumProb_fst_true rfl _) _
        · obtain ⟨q, hsome⟩ := edgePatternProbability_isSome false hb2
            (h2.resolve_left hb2)
          rw [hsome]
          exact accumProb_fst_true rfl _
      · obtain ⟨q, hsome⟩ := containsPatternProbabilityApprox_isSome hb3
          (h3.resolve_left hb3)
        rw [hsome]
        rfl
    exact hexDifficultyOf_ne_none hactive hpos h0
  · rintro ⟨hb1, hb2, hb3⟩
    rw [HexDifficulty,
      show edgePatternProbability pre true cs = none from by
        rw [edgePatternProbability, if_pos hb1],
      show edgePatternProbability suf false cs = none from by
        rw [edgePatternProbability, if_pos hb2],
      show containsPatternProbabilityApprox sub cs = none from by
        rw [containsPatternProbabilityApprox, if_pos hb3]]
    simp [accumProb, hexDifficultyOf]

/-- C2: `HexDifficulty` agrees with the claim's description — for each of
prefix and suffix the probability is the sum of `1/(16^len · caseFactor)`
over the compiled alternatives after removing every alternative with a
strictly shorter prefix (resp. suffix) in the same set; the contains
probability uses only the single shortest compiled alternative; the
expected-attempt count is the truncating quotient denominator/numerator of
the combined probability (probability 1 giving 1 attempt, never 0); and
for blank-or-compilable patterns the result is `none` exactly when no
prefix/suffix/contains constraint was supplied. -/
theorem hexDifficulty_characterization :
    (∀ (pre suf sub : Str) (cs : Bool),
        HexDifficulty pre suf sub cs = specHexDifficulty pre suf sub cs)
    ∧ (∀ (pre suf sub : Str) (cs : Bool),
        ValidOrBlank pre cs → ValidOrBlank suf cs → ValidOrBlank sub cs →
          (HexDifficulty pre suf sub cs = none ↔
            (trimSpace pre = [] ∧ trimSpace suf = [] ∧ trimSpace sub = []))) :=
  ⟨hexDifficulty_eq_spec, hexDifficulty_none_iff⟩

/-- Witness for C2: the nil-characterization applied at prefix `"a"` (valid
and non-blank) with blank suffix and contains. -/
theorem hexDifficulty_characterization_witness :
    HexDifficulty "a".toList [] [] false = none ↔
      (trimSpace "a".toList = [] ∧ trimSpace ([] : Str) = []
        ∧ trimSpace ([] : Str) = []) :=
  hexDifficulty_characterization.2 "a".toList [] [] false
    (Or.inr ⟨"a".toList, [], rfl⟩) (Or.inl rfl) (Or.inl rfl)

/-! ### C5: scanner lemmas -/

theorem parenRun_append (a b : Str) (d : Nat) :
    parenRun (a ++ b) d = (parenRun a d).bind (fun e => parenRun b e) := by
  induction a generalizing d with
  | nil => simp [parenRun]
  | cons c cs ih =>
    simp only [List.cons_append, parenRun]
    split_ifs <;> simp [ih]

theorem depthReaches2_append {a : Str} {d e : Nat} (b : Str)
    (h : parenRun a d = some e) :
    depthReaches2 (a ++ b) d = (depthReaches2 a d || depthReaches2 b e) := by
  induction a generalizing d with
  | nil =>
    simp only [parenRun, Option.some.injEq] at h
    subst h
    simp [depthReaches2]
  | cons c cs ih =>
    simp only [parenRun] at h
    simp only [List.cons_append, depthReaches2, List.append_eq]
    split_ifs at h ⊢
    all_goals first
      | exact absurd h (by simp)
      | rw [ih h, Bool.or_assoc]
      | rw [ih h]

theorem pipeAt0_append {a : Str} {d e : Nat} (b : Str)
    (h : parenRun a d = some e) :
    pipeAt0 (a ++ b) d = (pipeAt0 a d || pipeAt0 b e) := by
  induction a generalizing d with
  | nil =>
    simp only [parenRun, Option.some.injEq] at h
    subst h
    simp [pipeAt0]
  | cons c cs ih =>
    simp only [parenRun] at h
    simp only [List.cons_append, pipeAt0, List.append_eq]
    split_ifs at h ⊢
    all_goals first
      | exact absurd h (by simp)
      | rw [ih h, Bool.or_assoc]
      | rw [ih h]

theorem hasBadPair_cons_tail {c : Char} {cs : Str}
    (h : hasBadPair (c :: cs) = false) : hasBadPair cs = false := by
  cases cs with
  | nil => rfl
  | cons b r =>
    rw [hasBadPair] at h
    exact (Bool.or_eq_false_iff.mp h).2

theorem hasBadPair_append_right :
    ∀ (a : Str) {b : Str}, hasBadPair (a ++ b) = false → hasBadPair b = false := by
  intro a
  induction a with
  | nil => intro b h; exact h
  | cons c cs ih => intro b h; exact ih (hasBadPair_cons_tail h)

theorem hasBadPair_append_left :
    ∀ (a b : Str), hasBadPair (a ++ b) = false → hasBadPair a = false := by
  intro a
  induction a with
  | nil => intro b _; rfl
  | cons c cs ih =>
    intro b h
    cases cs with
    | nil => rfl
    | cons c2 r =>
      rw [List.cons_append] at h
      rw [hasBadPair]
      rw [List.cons_append, hasBadPair] at h
      rcases Bool.or_eq_false_iff.mp h with ⟨h1, h2⟩
      rw [h1, ih _ (by rw [List.cons_append]; exact h2)]
      rfl

theorem hasBadPair_append (a b : Str) (ha : a ≠ []) (hb : b ≠ []) :
    hasBadPair (a ++ b) =
      (hasBadPair a || badPair (a.getLastD ' ') (b.headD ' ') || hasBadPair b) := by
  induction a with
  | nil => exact absurd rfl ha
  | cons c cs ih =>
    cases cs with
    | nil =>
      cases b with
      | nil => exact absurd rfl hb
      | cons d r => simp [hasBadPair]
    | cons c2 r =>
      have e1 : hasBadPair ((c :: c2 :: r) ++ b)
          = (badPair c c2 || hasBadPair ((c2 :: r) ++ b)) := rfl
      have e2 : hasBadPair (c :: c2 :: r)
          = (badPair c c2 || hasBadPair (c2 :: r)) := rfl
      rw [e1, ih (by simp), e2]
      simp only [List.getLastD_cons, Bool.or_assoc]

theorem isHex_not_special {c : Char} (h : isHex c = true) :
    c ≠ '(' ∧ c ≠ ')' ∧ c ≠ '|' := by
  refine ⟨?_, ?_, ?_⟩ <;> rintro rfl <;> exact absurd h (by decide)

theorem badPair_left_hex {a b : Char} (h : isHex a = true) :
    badPair a b = false := by
  obtain ⟨h1, h2, h3⟩ := isHex_not_special h
  simp [badPair, h1, h3]

theorem badPair_right_hex {a b : Char} (h : isHex b = true) :
    badPair a b = false := by
  obtain ⟨h1, h2, h3⟩ := isHex_not_special h
  simp [badPair, h2, h3]

theorem badPair_left_rparen (b : Char) : badPair ')' b = false := by
  simp [badPair]

theorem badPair_right_lparen (a : Char) : badPair a '(' = false := by
  simp [badPair]

theorem parenRun_noParen {l : Str} (h : ∀ x ∈ l, x ≠ '(' ∧ x ≠ ')') (d : Nat) :
    parenRun l d = some d := by
  induction l with
  | nil => rfl
  | cons c cs ih =>
    obtain ⟨h1, h2⟩ := h c (List.mem_cons_self _ _)
    simp only [parenRun, if_neg h1, if_neg h2]
    exact ih (fun x hx => h x (List.mem_cons_of_mem _ hx))

theorem depthReaches2_noParen {l : Str} (h : ∀ x ∈ l, x ≠ '(' ∧ x ≠ ')')
    (d : Nat) : depthReaches2 l d = false := by
  induction l with
  | nil => rfl
  | cons c cs ih =>
    obtain ⟨h1, h2⟩ := h c (List.mem_cons_self _ _)
    simp only [depthReaches2, if_neg h1, if_neg h2]
    exact ih (fun x hx => h x (List.mem_cons_of_mem _ hx))

theorem pipeAt0_noPipe {l : Str} (h : ∀ x ∈ l, x ≠ '|') :
    ∀ d, pipeAt0 l d = false := by
  induction l with
  | nil => intro d; rfl
  | cons c cs ih =>
    intro d
    have h1 := h c (List.mem_cons_self _ _)
    have ih' := ih (fun x hx => h x (List.mem_cons_of_mem _ hx))
    simp only [pipeAt0, if_neg h1]
    split_ifs <;> exact ih' _

theorem noPipe_of_pipeAt0 {l : Str} (hnp : ∀ x ∈ l, x ≠ '(' ∧ x ≠ ')')
    (h : pipeAt0 l 0 = false) : ∀ x ∈ l, x ≠ '|' := by
  induction l with
  | nil => intro x hx; exact absurd hx (List.not_mem_nil x)
  | cons c cs ih =>
    obtain ⟨h1, h2⟩ := hnp c (List.mem_cons_self _ _)
    rw [pipeAt0, if_neg h1, if_neg h2] at h
    intro x hx
    by_cases hc : c = '|'
    · rw [if_pos hc] at h
      simp at h
    · rw [if_neg hc] at h
      rcases List.mem_cons.mp hx with rfl | hx'
      · exact hc
      · exact ih (fun y hy => hnp y (List.mem_cons_of_mem _ hy)) h x hx'

theorem hasBadPair_hexRun : ∀ {l : Str}, l.all isHex = true → hasBadPair l = false := by
  intro l
  induction l with
  | nil => intro _; rfl
  | cons c cs ih =>
    intro h
    rw [List.all_cons] at h
    rcases Bool.and_eq_true_iff.mp h with ⟨hc, hcs⟩
    cases cs with
    | nil => rfl
    | cons b r =>
      rw [hasBadPair, badPair_left_hex hc, ih hcs]
      rfl

theorem getLastD_of_ne_nil {l : Str} (h : l ≠ []) (d1 d2 : Char) :
    l.getLastD d1 = l.getLastD d2 := by
  rw [List.getLastD_eq_getLast?, List.getLastD_eq_getLast?]
  cases hl : l.getLast? with
  | none => exact absurd (List.getLast?_eq_none_iff.mp hl) h
  | some y => rfl

theorem getLastD_mem {l : Str} (h : l ≠ []) : l.getLastD ' ' ∈ l := by
  rw [List.getLastD_eq_getLast?]
  cases hl : l.getLast? with
  | none => exact absurd (List.getLast?_eq_none_iff.mp hl) h
  | some y => exact List.mem_of_mem_getLast? hl

theorem headD_mem {l : Str} (h : l ≠ []) : l.headD ' ' ∈ l := by
  cases l with
  | nil => exact absurd rfl h
  | cons c cs => exact List.mem_cons_self _ _

theorem headD_append_left {a : Str} (t : Str) (h : a ≠ []) (d : Char) :
    (a ++ t).headD d = a.headD d := by
  cases a with
  | nil => exact absurd rfl h
  | cons c cs => rfl

theorem getLastD_append_right (a : Str) {t : Str} (h : t ≠ []) (d : Char) :
    (a ++ t).getLastD d = t.getLastD d := by
  induction a generalizing d with
  | nil => rfl
  | cons c cs ih =>
    rw [List.cons_append, List.getLastD_cons, ih c]
    exact getLastD_of_ne_nil h c d

theorem joinPipe_ne_nil : ∀ {parts : List Str}, parts ≠ [] →
    (∀ p ∈ parts, p ≠ []) → joinPipe parts ≠ [] := by
  intro parts h1 h2
  match parts with
  | [p] => exact h2 p (List.mem_cons_self _ _)
  | p :: q :: ps =>
    rw [joinPipe]
    intro he
    rcases List.append_eq_nil.mp he with ⟨_, ht⟩
    exact List.noConfusion ht

theorem headD_joinPipe {p : Str} (ps : List Str) (hp : p ≠ []) :
    (joinPipe (p :: ps)).headD ' ' = p.headD ' ' := by
  cases ps with
  | nil => rfl
  | cons q qs => exact headD_append_left _ hp ' '

theorem getLastD_joinPipe : ∀ {parts : List Str}, parts ≠ [] →
    (∀ p ∈ parts, p ≠ []) →
    (joinPipe parts).getLastD ' ' = (parts.getLastD []).getLastD ' ' := by
  intro parts h1 h2
  match parts with
  | [p] => simp [joinPipe, List.getLastD_cons]
  | p :: q :: ps =>
    have hqs : joinPipe (q :: ps) ≠ [] :=
      joinPipe_ne_nil (by simp) (fun x hx => h2 x (List.mem_cons_of_mem _ hx))
    rw [joinPipe, getLastD_append_right p (by simp) ' ', List.getLastD_cons,
      getLastD_of_ne_nil hqs '|' ' ',
      getLastD_joinPipe (by simp) (fun x hx => h2 x (List.mem_cons_of_mem _ hx))]
    simp [List.getLastD_cons]

theorem mem_joinPipe_of_mem : ∀ {parts : List Str} {p : Str}, p ∈ parts →
    ∀ {x : Char}, x ∈ p → x ∈ joinPipe parts := by
  intro parts p hp x hx
  match parts with
  | [] => exact absurd hp (List.not_mem_nil p)
  | [q] =>
    rcases List.mem_singleton.mp hp with rfl
    exact hx
  | q :: r :: ps =>
    rw [joinPipe]
    rcases List.mem_cons.mp hp with rfl | hp'
    · exact List.mem_append_left _ hx
    · have hrec : x ∈ joinPipe (r :: ps) := mem_joinPipe_of_mem hp' hx
      exact List.mem_append_right _ (List.mem_cons_of_mem _ hrec)

theorem mem_joinPipe : ∀ {parts : List Str} {x : Char}, x ∈ joinPipe parts →
    (∃ p ∈ parts, x ∈ p) ∨ x = '|' := by
  intro parts x hx
  match parts with
  | [] => exact absurd hx (List.not_mem_nil x)
  | [q] => exact Or.inl ⟨q, List.mem_singleton.mpr rfl, hx⟩
  | q :: r :: ps =>
    rw [joinPipe] at hx
    rcases List.mem_append.mp hx with hx' | hx'
    · exact Or.inl ⟨q, List.mem_cons_self _ _, hx'⟩
    · rcases List.mem_cons.mp hx' with rfl | hx''
      · exact Or.inr rfl
      · rcases mem_joinPipe hx'' with ⟨p, hp, hxp⟩ | hpipe
        · exact Or.inl ⟨p, List.mem_cons_of_mem _ hp, hxp⟩
        · exact Or.inr hpipe

theorem findGroupSplit_append : ∀ {d : Nat} {l inner rest : Str},
    findGroupSplit d l = some (inner, rest) → l = inner ++ ')' :: rest := by
  intro d l
  induction l generalizing d with
  | nil => intro inner rest h; exact Option.noConfusion h
  | cons c cs ih =>
    intro inner rest h
    simp only [findGroupSplit] at h
    split_ifs at h with h1 h2 h3
    · cases hr : findGroupSplit (d + 1) cs with
      | none => rw [hr] at h; exact Option.noConfusion h
      | some pr =>
        obtain ⟨inner2, rest2⟩ := pr
        rw [hr] at h
        simp only [Option.some.injEq, Prod.mk.injEq] at h
        obtain ⟨h4, h5⟩ := h
        subst h4; subst h5; subst h1
        rw [ih hr]
        rfl
    · simp only [Option.some.injEq, Prod.mk.injEq] at h
      obtain ⟨h4, h5⟩ := h
      subst h4; subst h5; subst h2
      rfl
    · cases hr : findGroupSplit (d - 1) cs with
      | none => rw [hr] at h; exact Option.noConfusion h
      | some pr =>
        obtain ⟨inner2, rest2⟩ := pr
        rw [hr] at h
        simp only [Option.some.injEq, Prod.mk.injEq] at h
        obtain ⟨h4, h5⟩ := h
        subst h4; subst h5; subst h2
        rw [ih hr]
        rfl
    · cases hr : findGroupSplit d cs with
      | none => rw [hr] at h; exact Option.noConfusion h
      | some pr =>
        obtain ⟨inner2, rest2⟩ := pr
        rw [hr] at h
        simp only [Option.some.injEq, Prod.mk.injEq] at h
        obtain ⟨h4, h5⟩ := h
        subst h4; subst h5
        rw [ih hr]
        rfl

theorem findGroupSplit_exists : ∀ {rest : Str} {depth : Nat}, depth ≠ 0 →
    parenRun rest depth = some 0 →
    ∃ inner after, findGroupSplit depth rest = some (inner, after) := by
  intro rest
  induction rest with
  | nil =>
    intro depth hd h
    simp only [parenRun, Option.some.injEq] at h
    exact absurd h hd
  | cons c cs ih =>
    intro depth hd h
    simp only [parenRun] at h
    simp only [findGroupSplit]
    split_ifs at h ⊢ with h1 h2 h3
    · obtain ⟨inner, after, hr⟩ := ih (Nat.succ_ne_zero depth) h
      exact ⟨c :: inner, after, by rw [hr]⟩
    · exact ⟨[], cs, rfl⟩
    · have hd1 : depth - 1 ≠ 0 := by omega
      obtain ⟨inner, after, hr⟩ := ih hd1 h
      exact ⟨c :: inner, after, by rw [hr]⟩
    · obtain ⟨inner, after, hr⟩ := ih hd h
      exact ⟨c :: inner, after, by rw [hr]⟩

theorem findGroupSplit_flat : ∀ {rest inner after : Str},
    findGroupSplit 1 rest = some (inner, after) →
    depthReaches2 rest 1 = false →
    ∀ x ∈ inner, x ≠ '(' ∧ x ≠ ')' := by
  intro rest
  induction rest with
  | nil => intro inner after h _; exact Option.noConfusion h
  | cons c cs ih =>
    intro inner after h hd2
    simp only [findGroupSplit] at h
    rw [depthReaches2] at hd2
    split_ifs at h with h1 h2
    · rw [if_pos h1] at hd2
      simp at hd2
    · simp only [Option.some.injEq, Prod.mk.injEq] at h
      obtain ⟨h4, _⟩ := h
      subst h4
      intro x hx
      exact absurd hx (List.not_mem_nil x)
    · cases hr : findGroupSplit 1 cs with
      | none => rw [hr] at h; exact Option.noConfusion h
      | some pr =>
        obtain ⟨inner2, rest2⟩ := pr
        rw [hr] at h
        simp only [Option.some.injEq, Prod.mk.injEq] at h
        obtain ⟨h4, h5⟩ := h
        subst h4; subst h5
        rw [if_neg h1, if_neg h2] at hd2
        intro x hx
        rcases List.mem_cons.mp hx with rfl | hx'
        · exact ⟨h1, h2⟩
        · exact ih hr hd2 x hx'

theorem splitTopLevelGo_sound :
    ∀ (s : Str) (depth : Nat) (cur : Str) (acc parts : List Str),
      splitTopLevelGo s depth cur acc = .ok parts →
      parenRun cur.reverse 0 = some depth →
      pipeAt0 cur.reverse 0 = false →
      ∃ tail, parts = acc ++ tail ∧ tail ≠ [] ∧
        cur.reverse ++ s = joinPipe tail ∧
        ∀ p ∈ tail, p ≠ [] ∧ parenRun p 0 = some 0 ∧ pipeAt0 p 0 = false := by
  intro s
  induction s with
  | nil =>
    intro depth cur acc parts h hpr hp0
    rw [splitTopLevelGo] at h
    by_cases hd : depth ≠ 0
    · rw [if_pos hd] at h; exact Except.noConfusion h
    · rw [if_neg hd] at h
      push_neg at hd
      by_cases hcur : cur = []
      · rw [if_pos hcur] at h; exact Except.noConfusion h
      · rw [if_neg hcur] at h
        simp only [Except.ok.injEq] at h
        subst h
        refine ⟨[cur.reverse], rfl, by simp, by simp [joinPipe], ?_⟩
        intro p hp
        rcases List.mem_singleton.mp hp with rfl
        refine ⟨by simpa using hcur, ?_, hp0⟩
        rw [hpr, hd]
  | cons c cs ih =>
    intro depth cur acc parts h hpr hp0
    rw [splitTopLevelGo] at h
    by_cases h1 : c = '('
    · rw [if_pos h1] at h
      subst h1
      have hpr' : parenRun ('(' :: cur).reverse 0 = some (depth + 1) := by
        rw [List.reverse_cons, parenRun_append, hpr]
        simp [parenRun]
      have hp0' : pipeAt0 ('(' :: cur).reverse 0 = false := by
        rw [List.reverse_cons, pipeAt0_append _ hpr, hp0]
        simp [pipeAt0]
      obtain ⟨tail, hparts, hne, hjoin, hfacts⟩ := ih _ _ _ _ h hpr' hp0'
      refine ⟨tail, hparts, hne, ?_, hfacts⟩
      rw [← hjoin, List.reverse_cons, List.append_assoc]
      rfl
    · rw [if_neg h1] at h
      by_cases h2 : c = ')'
      · rw [if_pos h2] at h
        subst h2
        by_cases h3 : depth = 0
        · rw [if_pos h3] at h; exact Except.noConfusion h
        · rw [if_neg h3] at h
          have hpr' : parenRun (')' :: cur).reverse 0 = some (depth - 1) := by
            rw [List.reverse_cons, parenRun_append, hpr]
            simp [parenRun, h3]
          have hp0' : pipeAt0 (')' :: cur).reverse 0 = false := by
            rw [List.reverse_cons, pipeAt0_append _ hpr, hp0]
            simp [pipeAt0]
          obtain ⟨tail, hparts, hne, hjoin, hfacts⟩ := ih _ _ _ _ h hpr' hp0'
          refine ⟨tail, hparts, hne, ?_, hfacts⟩
          rw [← hjoin, List.reverse_cons, List.append_assoc]
          rfl
      · rw [if_neg h2] at h
        by_cases h3 : c = '|'
        · rw [if_pos h3] at h
          subst h3
          by_cases h4 : depth = 0
          · rw [if_pos h4] at h
            by_cases h5 : cur = []
            · rw [if_pos h5] at h; exact Except.noConfusion h
            · rw [if_neg h5] at h
              obtain ⟨tail, hparts, hne, hjoin, hfacts⟩ := ih _ _ _ _ h rfl rfl
              simp only [List.reverse_nil, List.nil_append] at hjoin
              refine ⟨cur.reverse :: tail, ?_, by simp, ?_, ?_⟩
              · rw [hparts, List.append_assoc]
                rfl
              · cases tail with
                | nil => exact absurd rfl hne
                | cons t ts =>
                  rw [joinPipe, ← hjoin]
              · intro p hp
                rcases List.mem_cons.mp hp with rfl | hp'
                · refine ⟨by simpa using h5, ?_, hp0⟩
                  rw [hpr, h4]
                · exact hfacts p hp'
          · rw [if_neg h4] at h
            have hpr' : parenRun ('|' :: cur).reverse 0 = some depth := by
              rw [List.reverse_cons, parenRun_append, hpr]
              simp [parenRun]
            have hp0' : pipeAt0 ('|' :: cur).reverse 0 = false := by
              rw [List.reverse_cons, pipeAt0_append _ hpr, hp0]
              simp [pipeAt0, h4]
            obtain ⟨tail, hparts, hne, hjoin, hfacts⟩ := ih _ _ _ _ h hpr' hp0'
            refine ⟨tail, hparts, hne, ?_, hfacts⟩
            rw [← hjoin, List.reverse_cons, List.append_assoc]
            rfl
        · rw [if_neg h3] at h
          have hpr' : parenRun (c :: cur).reverse 0 = some depth := by
            rw [List.reverse_cons, parenRun_append, hpr]
            simp [parenRun, h1, h2]
          have hp0' : pipeAt0 (c :: cur).reverse 0 = false := by
            rw [List.reverse_cons, pipeAt0_append _ hpr, hp0]
            simp [pipeAt0, h1, h2, h3]
          obtain ⟨tail, hparts, hne, hjoin, hfacts⟩ := ih _ _ _ _ h hpr' hp0'
          refine ⟨tail, hparts, hne, ?_, hfacts⟩
          rw [← hjoin, List.reverse_cons, List.append_assoc]
          rfl

theorem splitTopLevel_sound {s : Str} {parts : List Str}
    (h : splitTopLevel s = .ok parts) :
    parts ≠ [] ∧ s = joinPipe parts ∧
      ∀ p ∈ parts, p ≠ [] ∧ parenRun p 0 = some 0 ∧ pipeAt0 p 0 = false := by
  obtain ⟨tail, hparts, hne, hjoin, hfacts⟩ :=
    splitTopLevelGo_sound s 0 [] [] parts h rfl rfl
  simp only [List.nil_append] at hparts
  subst hparts
  simp only [List.reverse_nil, List.nil_append] at hjoin
  exact ⟨hne, hjoin, hfacts⟩

theorem getLastD_pipe_tail {c : Char} {cs : Str}
    (h : (c :: cs).getLastD ' ' ≠ '|') : cs.getLastD ' ' ≠ '|' := by
  cases cs with
  | nil => decide
  | cons b r =>
    rw [List.getLastD_cons, List.getLastD_cons] at h
    rw [List.getLastD_cons]
    exact h

theorem splitTopLevelGo_complete :
    ∀ (s : Str) (depth : Nat) (cur : Str) (acc : List Str),
      parenRun s depth = some 0 →
      hasBadPair s = false →
      s.getLastD ' ' ≠ '|' →
      (cur = [] → s ≠ [] ∧ s.headD ' ' ≠ '|') →
      ∃ parts, splitTopLevelGo s depth cur acc = .ok parts := by
  intro s
  induction s with
  | nil =>
    intro depth cur acc hpr hbp hlast hcur
    simp only [parenRun, Option.some.injEq] at hpr
    rw [splitTopLevelGo, if_neg (by omega : ¬depth ≠ 0)]
    have hc : cur ≠ [] := fun hc => absurd rfl (hcur hc).1
    rw [if_neg hc]
    exact ⟨_, rfl⟩
  | cons c cs ih =>
    intro depth cur acc hpr hbp hlast hcur
    simp only [parenRun] at hpr
    rw [splitTopLevelGo]
    have hbp' : hasBadPair cs = false := hasBadPair_cons_tail hbp
    have hlast' : cs.getLastD ' ' ≠ '|' := getLastD_pipe_tail hlast
    by_cases h1 : c = '('
    · rw [if_pos h1]
      rw [if_pos h1] at hpr
      exact ih (depth + 1) (c :: cur) acc hpr hbp' hlast' (by simp)
    · rw [if_neg h1]
      rw [if_neg h1] at hpr
      by_cases h2 : c = ')'
      · rw [if_pos h2]
        rw [if_pos h2] at hpr
        by_cases h3 : depth = 0
        · rw [if_pos h3] at hpr
          exact Option.noConfusion hpr
        · rw [if_neg h3] at hpr
          rw [if_neg h3]
          exact ih _ _ _ hpr hbp' hlast' (by simp)
      · rw [if_neg h2]
        rw [if_neg h2] at hpr
        by_cases h3 : c = '|'
        · rw [if_pos h3]
          by_cases h4 : depth = 0
          · rw [if_pos h4]
            have hc : cur ≠ [] := by
              intro hc
              have hh := (hcur hc).2
              subst h3
              exact hh rfl
            rw [if_neg hc]
            subst h4
            apply ih _ _ _ hpr hbp' hlast'
            intro _
            constructor
            · intro hcs
              subst h3
              subst hcs
              exact hlast rfl
            · intro hh
              cases cs with
              | nil => exact absurd hh (by decide)
              | cons b r =>
                rw [hasBadPair] at hbp
                rcases Bool.or_eq_false_iff.mp hbp with ⟨hb1, _⟩
                subst h3
                simp only [List.headD_cons] at hh
                subst hh
                simp [badPair] at hb1
          · rw [if_neg h4]
            exact ih _ _ _ hpr hbp' hlast' (by simp)
        · rw [if_neg h3]
          exact ih _ _ _ hpr hbp' hlast' (by simp)

theorem all_takeWhile_self (p : Char → Bool) (l : Str) :
    ∀ x ∈ l.takeWhile p, p x = true := by
  induction l with
  | nil => intro x hx; exact absurd hx (List.not_mem_nil x)
  | cons c cs ih =>
    intro x hx
    rw [List.takeWhile_cons] at hx
    by_cases hc : p c
    · rw [if_pos hc] at hx
      rcases List.mem_cons.mp hx with rfl | hx'
      · exact hc
      · exact ih x hx'
    · rw [if_neg hc] at hx
      exact absurd hx (List.not_mem_nil x)

theorem expandBranchGo_complete :
    ∀ (fuel : Nat) (b : Str) (alts : List Str),
      b.length ≤ fuel →
      (∀ x ∈ b, validChar x = true) →
      parenRun b 0 = some 0 →
      depthReaches2 b 0 = false →
      hasBadPair b = false →
      pipeAt0 b 0 = false →
      ∃ alts2, expandBranchGo fuel b alts = .ok alts2 := by
  intro fuel
  induction fuel with
  | zero =>
    intro b alts hlen hvc hpr hd2 hbp hp0
    cases b with
    | nil => exact ⟨alts, rfl⟩
    | cons c rest => simp at hlen
  | succ fuel ih =>
    intro b alts hlen hvc hpr hd2 hbp hp0
    cases b with
    | nil => exact ⟨alts, rfl⟩
    | cons c rest =>
      rw [expandBranchGo]
      by_cases h1 : isHex c
      · rw [if_pos h1]
        have hrunhex : ∀ x ∈ c :: rest.takeWhile isHex, isHex x = true := by
          intro x hx
          rcases List.mem_cons.mp hx with rfl | hx'
          · exact h1
          · exact all_takeWhile_self isHex rest x hx'
        have hnopar : ∀ x ∈ c :: rest.takeWhile isHex, x ≠ '(' ∧ x ≠ ')' :=
          fun x hx => ⟨(isHex_not_special (hrunhex x hx)).1,
            (isHex_not_special (hrunhex x hx)).2.1⟩
        have hsplit : c :: rest = (c :: rest.takeWhile isHex) ++ rest.dropWhile isHex := by
          rw [List.cons_append, List.takeWhile_append_dropWhile]
        have hrun0 : parenRun (c :: rest.takeWhile isHex) 0 = some 0 :=
          parenRun_noParen hnopar 0
        refine ih (rest.dropWhile isHex) _ ?_ ?_ ?_ ?_ ?_ ?_
        · have hdl := length_dropWhile_le isHex rest
          simp only [List.length_cons] at hlen
          omega
        · intro x hx
          exact hvc x (List.mem_cons_of_mem _ ((List.dropWhile_sublist _).subset hx))
        · rw [hsplit, parenRun_append, hrun0, Option.some_bind] at hpr
          exact hpr
        · rw [hsplit, depthReaches2_append _ hrun0,
            depthReaches2_noParen hnopar, Bool.false_or] at hd2
          exact hd2
        · rw [hsplit] at hbp
          exact hasBadPair_append_right _ hbp
        · rw [hsplit, pipeAt0_append _ hrun0] at hp0
          exact (Bool.or_eq_false_iff.mp hp0).2
      · rw [if_neg h1]
        by_cases h2 : c = '('
        · rw [if_pos h2]
          subst h2
          simp only [parenRun, reduceIte, Nat.zero_add] at hpr
          obtain ⟨inner, after, hfg⟩ := findGroupSplit_exists one_ne_zero hpr
          rw [hfg]
          have hrest : rest = inner ++ ')' :: after := findGroupSplit_append hfg
          have hd2r : depthReaches2 rest 1 = false := by
            rw [depthReaches2] at hd2
            simpa using hd2
          have hinner_nopar : ∀ x ∈ inner, x ≠ '(' ∧ x ≠ ')' :=
            findGroupSplit_flat hfg hd2r
          have hinner_ne : inner ≠ [] := by
            intro hi
            subst hi
            rw [hrest] at hbp
            simp [hasBadPair, badPair] at hbp
          have hinner_pr : parenRun inner 0 = some 0 := parenRun_noParen hinner_nopar 0
          have hbp_tail : hasBadPair rest = false := hasBadPair_cons_tail hbp
          have hbp_inner : hasBadPair inner = false := by
            rw [hrest] at hbp_tail
            exact hasBadPair_append_left _ _ hbp_tail
          have hinner_last : inner.getLastD ' ' ≠ '|' := by
            intro hl
            rw [hrest, hasBadPair_append inner _ hinner_ne (by simp)] at hbp_tail
            rcases Bool.or_eq_false_iff.mp hbp_tail with ⟨hA, _⟩
            rcases Bool.or_eq_false_iff.mp hA with ⟨_, hB⟩
            rw [hl] at hB
            simp [badPair] at hB
          have hinner_head : inner.headD ' ' ≠ '|' := by
            intro hh
            cases inner with
            | nil => exact hinner_ne rfl
            | cons i is =>
              rw [hrest] at hbp
              simp only [List.headD_cons] at hh
              subst hh
              simp [hasBadPair, badPair] at hbp
          obtain ⟨groupAlts, hsp⟩ := splitTopLevelGo_complete inner 0 [] []
            hinner_pr hbp_inner hinner_last (fun _ => ⟨hinner_ne, hinner_head⟩)
          have hsp' : splitTopLevel inner = .ok groupAlts := hsp
          dsimp only
          rw [if_neg hinner_ne, hsp']
          dsimp only
          obtain ⟨hne2, hjoin2, hfacts2⟩ := splitTopLevel_sound hsp'
          have hvcr : ∀ x ∈ rest, validChar x = true :=
            fun x hx => hvc x (List.mem_cons_of_mem _ hx)
          have hall : groupAlts.all (fun ga => ga.all isHex) = true := by
            rw [List.all_eq_true]
            intro ga hga
            rw [List.all_eq_true]
            intro x hx
            have hxinner : x ∈ inner := by
              rw [hjoin2]
              exact mem_joinPipe_of_mem hga hx
            have hganopar : ∀ y ∈ ga, y ≠ '(' ∧ y ≠ ')' := by
              intro y hy
              refine hinner_nopar y ?_
              rw [hjoin2]
              exact mem_joinPipe_of_mem hga hy
            have hnp : x ≠ '|' := noPipe_of_pipeAt0 hganopar (hfacts2 ga hga).2.2 x hx
            have hval := hvcr x (by rw [hrest]; exact List.mem_append_left _ hxinner)
            obtain ⟨hxp1, hxp2⟩ := hinner_nopar x hxinner
            simpa [validChar, hxp1, hxp2, hnp] using hval
          rw [if_pos hall]
          have hipr1 : parenRun inner 1 = some 1 := parenRun_noParen hinner_nopar 1
          refine ih after _ ?_ ?_ ?_ ?_ ?_ ?_
          · have := findGroupSplit_length hfg
            simp only [List.length_cons] at hlen
            omega
          · intro x hx
            refine hvcr x ?_
            rw [hrest]
            exact List.mem_append_right _ (List.mem_cons_of_mem _ hx)
          · rw [hrest, parenRun_append, hipr1, Option.some_bind] at hpr
            simpa [parenRun] using hpr
          · rw [hrest, depthReaches2_append _ hipr1,
              depthReaches2_noParen hinner_nopar, Bool.false_or] at hd2r
            simpa [depthReaches2] using hd2r
          · rw [hrest] at hbp_tail
            exact hasBadPair_cons_tail (hasBadPair_append_right _ hbp_tail)
          · have hp0r : pipeAt0 rest 1 = false := by
              simpa [pipeAt0] using hp0
            rw [hrest, pipeAt0_append _ hipr1] at hp0r
            have := (Bool.or_eq_false_iff.mp hp0r).2
            simpa [pipeAt0] using this
        · by_cases h3 : c = ')'
          · subst h3
            simp [parenRun] at hpr
          · by_cases h4 : c = '|'
            · subst h4
              simp [pipeAt0] at hp0
            · have := hvc c (List.mem_cons_self _ _)
              simp [validChar, h1, h2, h3, h4] at this

theorem hasBadPair_cons_ne (c : Char) {l : Str} (h : l ≠ []) :
    hasBadPair (c :: l) = (badPair c (l.headD ' ') || hasBadPair l) := by
  cases l with
  | nil => exact absurd rfl h
  | cons x xs => rfl

theorem joinPipe_hex_facts : ∀ {parts : List Str}, parts ≠ [] →
    (∀ p ∈ parts, p ≠ [] ∧ p.all isHex = true) →
    (∀ x ∈ joinPipe parts, isHex x = true ∨ x = '|') ∧
    isHex ((joinPipe parts).headD ' ') = true ∧
    isHex ((joinPipe parts).getLastD ' ') = true ∧
    hasBadPair (joinPipe parts) = false := by
  intro parts hne hfacts
  match parts with
  | [p] =>
    obtain ⟨hp, hhex⟩ := hfacts p (List.mem_singleton.mpr rfl)
    have hmem : ∀ x ∈ p, isHex x = true := List.all_eq_true.mp hhex
    exact ⟨fun x hx => Or.inl (hmem x hx),
      hmem _ (headD_mem hp), hmem _ (getLastD_mem hp),
      hasBadPair_hexRun hhex⟩
  | p :: q :: ps =>
    obtain ⟨hp, hphex⟩ := hfacts p (List.mem_cons_self _ _)
    have hrest : ∀ r ∈ q :: ps, r ≠ [] ∧ r.all isHex = true :=
      fun r hr => hfacts r (List.mem_cons_of_mem _ hr)
    obtain ⟨hchars, hhead, hlast, hbp⟩ := joinPipe_hex_facts (by simp) hrest
    have hjne : joinPipe (q :: ps) ≠ [] :=
      joinPipe_ne_nil (by simp) (fun r hr => (hrest r hr).1)
    have hpmem : ∀ x ∈ p, isHex x = true := List.all_eq_true.mp hphex
    refine ⟨?_, ?_, ?_, ?_⟩
    · intro x hx
      rw [joinPipe] at hx
      rcases List.mem_append.mp hx with hx' | hx'
      · exact Or.inl (hpmem x hx')
      · rcases List.mem_cons.mp hx' with rfl | hx''
        · exact Or.inr rfl
        · exact hchars x hx''
    · rw [joinPipe, headD_append_left _ hp]
      exact hpmem _ (headD_mem hp)
    · rw [joinPipe, getLastD_append_right _ (by simp) ' ', List.getLastD_cons,
        getLastD_of_ne_nil hjne '|' ' ']
      exact hlast
    · rw [joinPipe, hasBadPair_append p _ hp (by simp),
        hasBadPair_hexRun hphex, hasBadPair_cons_ne '|' hjne]
      have h1 : badPair (p.getLastD ' ') (('|' :: joinPipe (q :: ps)).headD ' ') = false :=
        badPair_left_hex (hpmem _ (getLastD_mem hp))
      have h2 : badPair '|' ((joinPipe (q :: ps)).headD ' ') = false :=
        badPair_right_hex hhead
      rw [h1, h2, hbp]
      rfl

theorem expandBranchGo_sound :
    ∀ (fuel : Nat) (b : Str) (alts alts2 : List Str),
      expandBranchGo fuel b alts = .ok alts2 →
      (∀ x ∈ b, validChar x = true) ∧ parenRun b 0 = some 0 ∧
      depthReaches2 b 0 = false ∧ hasBadPair b = false ∧
      (b ≠ [] → (isHex (b.headD ' ') = true ∨ b.headD ' ' = '(') ∧
                (isHex (b.getLastD ' ') = true ∨ b.getLastD ' ' = ')')) := by
  intro fuel
  induction fuel with
  | zero =>
    intro b alts alts2 h
    cases b with
    | nil => exact ⟨by simp, rfl, rfl, rfl, fun hne => absurd rfl hne⟩
    | cons c rest => exact Except.noConfusion h
  | succ fuel ih =>
    intro b alts alts2 h
    cases b with
    | nil => exact ⟨by simp, rfl, rfl, rfl, fun hne => absurd rfl hne⟩
    | cons c rest =>
      rw [expandBranchGo] at h
      by_cases h1 : isHex c
      · rw [if_pos h1] at h
        obtain ⟨hvc, hpr, hd2, hbp, hends⟩ := ih _ _ _ h
        have hrunhex : ∀ x ∈ c :: rest.takeWhile isHex, isHex x = true := by
          intro x hx
          rcases List.mem_cons.mp hx with rfl | hx'
          · exact h1
          · exact all_takeWhile_self isHex rest x hx'
        have hnopar : ∀ x ∈ c :: rest.takeWhile isHex, x ≠ '(' ∧ x ≠ ')' :=
          fun x hx => ⟨(isHex_not_special (hrunhex x hx)).1,
            (isHex_not_special (hrunhex x hx)).2.1⟩
        have hsplit : c :: rest = (c :: rest.takeWhile isHex) ++ rest.dropWhile isHex := by
          rw [List.cons_append, List.takeWhile_append_dropWhile]
        have hrun0 : parenRun (c :: rest.takeWhile isHex) 0 = some 0 :=
          parenRun_noParen hnopar 0
        have hrunall : (c :: rest.takeWhile isHex).all isHex = true :=
          List.all_eq_true.mpr hrunhex
        refine ⟨?_, ?_, ?_, ?_, ?_⟩
        · intro x hx
          rw [hsplit] at hx
          rcases List.mem_append.mp hx with hx' | hx'
          · simp [validChar, hrunhex x hx']
          · exact hvc x hx'
        · rw [hsplit, parenRun_append, hrun0, Option.some_bind]
          exact hpr
        · rw [hsplit, depthReaches2_append _ hrun0,
            depthReaches2_noParen hnopar, Bool.false_or]
          exact hd2
        · rw [hsplit]
          cases ht : rest.dropWhile isHex with
          | nil => rw [List.append_nil]; exact hasBadPair_hexRun hrunall
          | cons t0 ts =>
            rw [hasBadPair_append _ _ (by simp) (by simp),
              hasBadPair_hexRun hrunall,
              badPair_left_hex (hrunhex _ (getLastD_mem (by simp)))]
            rw [ht] at hbp
            rw [hbp]
            rfl
        · intro _
          constructor
          · rw [hsplit, headD_append_left _ (by simp)]
            exact Or.inl h1
          · cases ht : rest.dropWhile isHex with
            | nil =>
              rw [hsplit, ht, List.append_nil]
              exact Or.inl (hrunhex _ (getLastD_mem (by simp)))
            | cons t0 ts =>
              rw [hsplit, ht, getLastD_append_right _ (by simp) ' ']
              rw [ht] at hends
              exact (hends (by simp)).2
      · rw [if_neg h1] at h
        by_cases h2 : c = '('
        · rw [if_pos h2] at h
          subst h2
          cases hfg : findGroupSplit 1 rest with
          | none => rw [hfg] at h; exact Except.noConfusion h
          | some pr =>
            obtain ⟨inner, after⟩ := pr
            rw [hfg] at h
            dsimp only at h
            by_cases h5 : inner = []
            · rw [if_pos h5] at h; exact Except.noConfusion h
            · rw [if_neg h5] at h
              cases hsp : splitTopLevel inner with
              | error e => rw [hsp] at h; exact Except.noConfusion h
              | ok groupAlts =>
                rw [hsp] at h
                dsimp only at h
                by_cases h6 : groupAlts.all (fun ga => ga.all isHex) = true
                · rw [if_pos h6] at h
                  obtain ⟨hvc_a, hpr_a, hd2_a, hbp_a, hends_a⟩ := ih _ _ _ h
                  have hrest : rest = inner ++ ')' :: after := findGroupSplit_append hfg
                  obtain ⟨hne2, hjoin2, hfacts2⟩ := splitTopLevel_sound hsp
                  have hgfacts : ∀ ga ∈ groupAlts, ga ≠ [] ∧ ga.all isHex = true :=
                    fun ga hga => ⟨(hfacts2 ga hga).1, List.all_eq_true.mp h6 ga hga⟩
                  obtain ⟨hchars, hhead, hlastx, hbpi⟩ :=
                    joinPipe_hex_facts hne2 hgfacts
                  rw [← hjoin2] at hchars hhead hlastx hbpi
                  have hinner_nopar : ∀ x ∈ inner, x ≠ '(' ∧ x ≠ ')' := by
                    intro x hx
                    rcases hchars x hx with hx' | hx'
                    · exact ⟨(isHex_not_special hx').1, (isHex_not_special hx').2.1⟩
                    · subst hx'
                      exact ⟨by decide, by decide⟩
                  have hipr1 : parenRun inner 1 = some 1 := parenRun_noParen hinner_nopar 1
                  refine ⟨?_, ?_, ?_, ?_, ?_⟩
                  · intro x hx
                    rcases List.mem_cons.mp hx with rfl | hx'
                    · decide
                    · rw [hrest] at hx'
                      rcases List.mem_append.mp hx' with hx'' | hx''
                      · rcases hchars x hx'' with hh | hh
                        · simp [validChar, hh]
                        · subst hh; decide
                      · rcases List.mem_cons.mp hx'' with rfl | hx3
                        · decide
                        · exact hvc_a x hx3
                  · show parenRun ('(' :: rest) 0 = some 0
                    rw [hrest]
                    simp only [parenRun, reduceIte, Nat.zero_add]
                    rw [parenRun_append, hipr1, Option.some_bind]
                    simp only [parenRun, reduceIte]
                    simpa using hpr_a
                  · show depthReaches2 ('(' :: rest) 0 = false
                    rw [hrest]
                    simp only [depthReaches2, reduceIte, Nat.zero_add]
                    rw [depthReaches2_append _ hipr1, depthReaches2_noParen hinner_nopar,
                      Bool.false_or]
                    simp only [depthReaches2, reduceIte]
                    simpa using hd2_a
                  · show hasBadPair ('(' :: rest) = false
                    rw [hrest,
                      hasBadPair_cons_ne '(' (by simp [h5]),
                      headD_append_left _ h5,
                      badPair_right_hex hhead,
                      hasBadPair_append inner _ h5 (by simp),
                      hbpi, badPair_left_hex hlastx]
                    cases after with
                    | nil => rfl
                    | cons a0 as =>
                      rw [hasBadPair_cons_ne ')' (by simp), badPair_left_rparen,
                        hbp_a]
                      rfl
                  · intro _
                    refine ⟨Or.inr rfl, ?_⟩
                    cases after with
                    | nil =>
                      rw [hrest, List.getLastD_cons,
                        getLastD_append_right _ (by simp) '(']
                      exact Or.inr rfl
                    | cons a0 as =>
                      rw [hrest, List.getLastD_cons,
                        getLastD_append_right _ (by simp) '(',
                        List.getLastD_cons,
                        getLastD_of_ne_nil (by simp) ')' ' ']
                      exact (hends_a (by simp)).2
                · rw [if_neg h6] at h; exact Except.noConfusion h
        · rw [if_neg h2] at h
          by_cases h3 : c = ')'
          · rw [if_pos h3] at h; exact Except.noConfusion h
          · rw [if_neg h3] at h
            by_cases h4 : c = '|'
            · rw [if_pos h4] at h; exact Except.noConfusion h
            · rw [if_neg h4] at h; exact Except.noConfusion h

theorem getLastD_mem_poly {α : Type} (d : α) : ∀ {l : List α}, l ≠ [] →
    l.getLastD d ∈ l := by
  intro l h
  rw [List.getLastD_eq_getLast?]
  cases hl : l.getLast? with
  | none => exact absurd (List.getLast?_eq_none_iff.mp hl) h
  | some y => exact List.mem_of_mem_getLast? hl

theorem parenRun_joinPipe : ∀ {parts : List Str},
    (∀ p ∈ parts, parenRun p 0 = some 0) →
    parenRun (joinPipe parts) 0 = some 0 := by
  intro parts h
  match parts with
  | [] => rfl
  | [p] => exact h p (List.mem_singleton.mpr rfl)
  | p :: q :: ps =>
    rw [joinPipe, parenRun_append, h p (List.mem_cons_self _ _), Option.some_bind]
    simp only [parenRun, reduceIte]
    exact parenRun_joinPipe (fun r hr => h r (List.mem_cons_of_mem _ hr))

theorem depthReaches2_joinPipe : ∀ {parts : List Str},
    (∀ p ∈ parts, parenRun p 0 = some 0 ∧ depthReaches2 p 0 = false) →
    depthReaches2 (joinPipe parts) 0 = false := by
  intro parts h
  match parts with
  | [] => rfl
  | [p] => exact (h p (List.mem_singleton.mpr rfl)).2
  | p :: q :: ps =>
    obtain ⟨hp1, hp2⟩ := h p (List.mem_cons_self _ _)
    rw [joinPipe, depthReaches2_append _ hp1, hp2, Bool.false_or]
    simp only [depthReaches2, reduceIte]
    exact depthReaches2_joinPipe (fun r hr => h r (List.mem_cons_of_mem _ hr))

theorem joinPipe_branches_clean : ∀ {parts : List Str},
    (∀ p ∈ parts, p ≠ [] ∧ hasBadPair p = false ∧
      (isHex (p.headD ' ') = true ∨ p.headD ' ' = '(') ∧
      (isHex (p.getLastD ' ') = true ∨ p.getLastD ' ' = ')')) →
    hasBadPair (joinPipe parts) = false := by
  intro parts h
  match parts with
  | [] => rfl
  | [p] => exact (h p (List.mem_singleton.mpr rfl)).2.1
  | p :: q :: ps =>
    obtain ⟨hp1, hp2, hp3, hp4⟩ := h p (List.mem_cons_self _ _)
    have hrest : ∀ r ∈ q :: ps, r ≠ [] ∧ hasBadPair r = false ∧
        (isHex (r.headD ' ') = true ∨ r.headD ' ' = '(') ∧
        (isHex (r.getLastD ' ') = true ∨ r.getLastD ' ' = ')') :=
      fun r hr => h r (List.mem_cons_of_mem _ hr)
    have hq := hrest q (List.mem_cons_self _ _)
    have hjne : joinPipe (q :: ps) ≠ [] :=
      joinPipe_ne_nil (by simp) (fun r hr => (hrest r hr).1)
    rw [joinPipe, hasBadPair_append p _ hp1 (by simp), hp2,
      hasBadPair_cons_ne '|' hjne, headD_joinPipe ps hq.1]
    have h1 : badPair (p.getLastD ' ') (('|' :: joinPipe (q :: ps)).headD ' ') = false := by
      rcases hp4 with h4 | h4
      · exact badPair_left_hex h4
      · rw [h4]; exact badPair_left_rparen _
    have h2 : badPair '|' (q.headD ' ') = false := by
      rcases hq.2.2.1 with h4 | h4
      · exact badPair_right_hex h4
      · rw [h4]; exact badPair_right_lparen _
    rw [h1, h2, joinPipe_branches_clean hrest]
    rfl

theorem danglingPipe_eq_false {s : Str} (hne : s ≠ [])
    (hh : s.headD ' ' ≠ '|') (hl : s.getLastD ' ' ≠ '|') :
    danglingPipe s = false := by
  rw [danglingPipe]
  cases s with
  | nil => exact absurd rfl hne
  | cons c cs =>
    simp only [List.headD_cons] at hh
    rw [List.getLastD_eq_getLast?] at hl
    simp only [List.head?_cons]
    cases hg : (c :: cs).getLast? with
    | none => exact absurd (List.getLast?_eq_none_iff.mp hg) hne
    | some y =>
      rw [hg] at hl
      simp only [Option.getD_some] at hl
      simp [hh, hl]

theorem danglingPipe_false_facts {s : Str} (h : danglingPipe s = false) :
    s.headD ' ' ≠ '|' ∧ s.getLastD ' ' ≠ '|' := by
  rw [danglingPipe] at h
  cases s with
  | nil => exact ⟨by decide, by decide⟩
  | cons c cs =>
    rcases Bool.or_eq_false_iff.mp h with ⟨h1, h2⟩
    simp only [List.head?_cons, beq_eq_false_iff_ne, ne_eq,
      Option.some.injEq] at h1
    constructor
    · simpa using h1
    · rw [List.getLastD_eq_getLast?]
      cases hg : (c :: cs).getLast? with
      | none => exact by decide
      | some y =>
        rw [hg] at h2
        simp only [beq_eq_false_iff_ne, ne_eq, Option.some.injEq] at h2
        simpa using h2

theorem d2_joinPipe_parts : ∀ {parts : List Str},
    (∀ p ∈ parts, parenRun p 0 = some 0) →
    depthReaches2 (joinPipe parts) 0 = false →
    ∀ p ∈ parts, depthReaches2 p 0 = false := by
  intro parts hbal hd2 p hp
  match parts with
  | [] => exact absurd hp (List.not_mem_nil p)
  | [q] =>
    rcases List.mem_singleton.mp hp with rfl
    exact hd2
  | q :: r :: ps =>
    rw [joinPipe, depthReaches2_append _ (hbal q (List.mem_cons_self _ _))] at hd2
    rcases Bool.or_eq_false_iff.mp hd2 with ⟨hq, hrest⟩
    simp only [depthReaches2, reduceIte] at hrest
    rcases List.mem_cons.mp hp with rfl | hp'
    · exact hq
    · exact d2_joinPipe_parts (fun x hx => hbal x (List.mem_cons_of_mem _ hx))
        hrest p hp'

theorem hbp_joinPipe_parts : ∀ {parts : List Str},
    hasBadPair (joinPipe parts) = false →
    ∀ p ∈ parts, hasBadPair p = false := by
  intro parts hbp p hp
  match parts with
  | [] => exact absurd hp (List.not_mem_nil p)
  | [q] =>
    rcases List.mem_singleton.mp hp with rfl
    exact hbp
  | q :: r :: ps =>
    rw [joinPipe] at hbp
    rcases List.mem_cons.mp hp with rfl | hp'
    · exact hasBadPair_append_left _ _ hbp
    · exact hbp_joinPipe_parts
        (hasBadPair_cons_tail (hasBadPair_append_right _ hbp)) p hp'

theorem compileBranches_ok_forall : ∀ (bs all r : List Str),
    compileBranches bs all = .ok r → ∀ b ∈ bs, ∃ e, expandBranch b = .ok e := by
  intro bs
  induction bs with
  | nil => intro all r _ b hb; exact absurd hb (List.not_mem_nil b)
  | cons b bs ih =>
    intro all r h x hx
    rw [compileBranches] at h
    cases he : expandBranch b with
    | error e => rw [he] at h; exact Except.noConfusion h
    | ok expanded =>
      rw [he] at h
      rcases List.mem_cons.mp hx with rfl | hx'
      · exact ⟨expanded, he⟩
      · exact ih _ _ h x hx'

theorem compileBranches_complete : ∀ (bs all : List Str),
    (∀ b ∈ bs, ∃ e, expandBranch b = .ok e) →
    ∃ r, compileBranches bs all = .ok r := by
  intro bs
  induction bs with
  | nil => intro all _; exact ⟨all, rfl⟩
  | cons b bs ih =>
    intro all h
    obtain ⟨e, he⟩ := h b (List.mem_cons_self _ _)
    rw [compileBranches, he]
    exact ih _ (fun x hx => h x (List.mem_cons_of_mem _ hx))

theorem foldl_dedupStep_ne_nil : ∀ (l acc : List Str),
    (acc ≠ [] ∨ l ≠ []) → l.foldl dedupStep acc ≠ [] := by
  intro l
  induction l with
  | nil =>
    intro acc h
    rcases h with h | h
    · exact h
    · exact absurd rfl h
  | cons a l ih =>
    intro acc _
    refine ih _ (Or.inl ?_)
    rw [dedupStep]
    split_ifs with hmem
    · intro he
      rw [he] at hmem
      exact absurd hmem (List.not_mem_nil a)
    · simp

theorem compileBranches_acc_ne : ∀ (bs all r : List Str),
    compileBranches bs all = .ok r → all ≠ [] → r ≠ [] := by
  intro bs
  induction bs with
  | nil =>
    intro all r h hne
    simp only [compileBranches, Except.ok.injEq] at h
    subst h
    exact hne
  | cons b bs ih =>
    intro all r h hne
    rw [compileBranches] at h
    cases he : expandBranch b with
    | error e => rw [he] at h; exact Except.noConfusion h
    | ok expanded =>
      rw [he] at h
      exact ih _ _ h (foldl_dedupStep_ne_nil _ _ (Or.inl hne))

theorem expandBranchGo_alts_ne_nil : ∀ (fuel : Nat) (b : Str) (acc alts : List Str),
    expandBranchGo fuel b acc = .ok alts → acc ≠ [] → alts ≠ [] := by
  intro fuel
  induction fuel with
  | zero =>
    intro b acc alts h hacc
    cases b with
    | nil =>
      simp only [expandBranchGo, Except.ok.injEq] at h
      subst h
      exact hacc
    | cons c rest => exact Except.noConfusion h
  | succ fuel ih =>
    intro b acc alts h hacc
    cases b with
    | nil =>
      simp only [expandBranchGo, Except.ok.injEq] at h
      subst h
      exact hacc
    | cons c rest =>
      rw [expandBranchGo] at h
      split_ifs at h with h1 h2
      · refine ih _ _ _ h ?_
        simp only [appendSegment]
        intro he
        rw [List.flatMap_eq_nil_iff] at he
        cases acc with
        | nil => exact absurd rfl hacc
        | cons a as => simpa using he a (List.mem_cons_self _ _)
      · cases hfs : findGroupSplit 1 rest with
        | none => rw [hfs] at h; exact Except.noConfusion h
        | some pr =>
          obtain ⟨inner, after⟩ := pr
          rw [hfs] at h
          dsimp only at h
          split_ifs at h with h5
          cases hsp : splitTopLevel inner with
          | error e => rw [hsp] at h; exact Except.noConfusion h
          | ok groupAlts =>
            rw [hsp] at h
            dsimp only at h
            split_ifs at h with h6
            refine ih _ _ _ h ?_
            simp only [appendSegment]
            intro he
            rw [List.flatMap_eq_nil_iff] at he
            cases acc with
            | nil => exact absurd rfl hacc
            | cons a as =>
              have := he a (List.mem_cons_self _ _)
              rw [List.map_eq_nil_iff] at this
              exact (splitTopLevel_sound hsp).1 this

theorem compile_ok_no_syndromes {p : Str} {alts : List Str}
    (h : compileHexPattern p = .ok alts) (htrim : trimSpace p ≠ []) :
    errorSyndromes (stripHexMarker (trimSpace p)) = false := by
  rw [compileHexPattern, if_neg htrim] at h
  dsimp only at h
  by_cases h1 : stripHexMarker (trimSpace p) = []
  · rw [if_pos h1] at h
    exact Except.noConfusion h
  · rw [if_neg h1] at h
    cases hsp : splitTopLevel (stripHexMarker (trimSpace p)) with
    | error e => rw [hsp] at h; exact Except.noConfusion h
    | ok branches =>
      rw [hsp] at h
      dsimp only at h
      cases hcb : compileBranches branches [] with
      | error e => rw [hcb] at h; exact Except.noConfusion h
      | ok all =>
        obtain ⟨hne, hjoin, hfacts⟩ := splitTopLevel_sound hsp
        have hexp := compileBranches_ok_forall _ _ _ hcb
        have hbf : ∀ b ∈ branches, (∀ x ∈ b, validChar x = true) ∧
            parenRun b 0 = some 0 ∧ depthReaches2 b 0 = false ∧
            hasBadPair b = false ∧
            ((isHex (b.headD ' ') = true ∨ b.headD ' ' = '(') ∧
             (isHex (b.getLastD ' ') = true ∨ b.getLastD ' ' = ')')) := by
          intro b hb
          obtain ⟨e, he⟩ := hexp b hb
          rw [expandBranch] at he
          obtain ⟨a1, a2, a3, a4, a5⟩ := expandBranchGo_sound _ _ _ _ he
          exact ⟨a1, a2, a3, a4, a5 (hfacts b hb).1⟩
        rw [hjoin, errorSyndromes]
        have hjne : joinPipe branches ≠ [] :=
          joinPipe_ne_nil hne (fun b hb => (hfacts b hb).1)
        have hvalid : (joinPipe branches).any (fun c => !validChar c) = false := by
          rw [List.any_eq_false]
          intro x hx
          rcases mem_joinPipe hx with ⟨b, hb, hxb⟩ | rfl
          · simp [(hbf b hb).1 x hxb]
          · decide
        have hpr : parenRun (joinPipe branches) 0 = some 0 :=
          parenRun_joinPipe (fun b hb => (hbf b hb).2.1)
        have hdang : danglingPipe (joinPipe branches) = false := by
          cases branches with
          | nil => exact absurd rfl hne
          | cons b bs =>
            have hb0 := hbf b (List.mem_cons_self _ _)
            have hbl := getLastD_mem_poly ([] : Str) (l := b :: bs) (by simp)
            have hbfl := hbf _ hbl
            apply danglingPipe_eq_false hjne
            · rw [headD_joinPipe bs (hfacts b (List.mem_cons_self _ _)).1]
              rcases hb0.2.2.2.2.1 with hh | hh
              · intro he
                rw [he] at hh
                exact absurd hh (by decide)
              · rw [hh]
                decide
            · rw [getLastD_joinPipe (by simp) (fun x hx => (hfacts x hx).1)]
              rcases hbfl.2.2.2.2.2 with hh | hh
              · intro he
                rw [he] at hh
                exact absurd hh (by decide)
              · rw [hh]
                decide
        have hbp : hasBadPair (joinPipe branches) = false :=
          joinPipe_branches_clean (fun b hb =>
            ⟨(hfacts b hb).1, (hbf b hb).2.2.2.1, (hbf b hb).2.2.2.2⟩)
        have hd2 : depthReaches2 (joinPipe branches) 0 = false :=
          depthReaches2_joinPipe (fun b hb => ⟨(hbf b hb).2.1, (hbf b hb).2.2.1⟩)
        simp [hjne, hvalid, hpr, hdang, hbp, hd2]

theorem compile_ok_of_no_syndromes {p : Str} (htrim : trimSpace p ≠ [])
    (h : errorSyndromes (stripHexMarker (trimSpace p)) = false) :
    ∃ alts, compileHexPattern p = .ok alts := by
  rw [errorSyndromes] at h
  simp only [Bool.or_eq_false_iff] at h
  obtain ⟨⟨⟨⟨⟨h1, h2⟩, h3⟩, h4⟩, h5⟩, h6⟩ := h
  have hsne : stripHexMarker (trimSpace p) ≠ [] := by
    intro he
    rw [he] at h1
    exact absurd h1 (by decide)
  have hvalid : ∀ x ∈ stripHexMarker (trimSpace p), validChar x = true := by
    intro x hx
    have := List.any_eq_false.mp h2 x hx
    simpa using this
  have hpr : parenRun (stripHexMarker (trimSpace p)) 0 = some 0 := by
    cases hb : (parenRun (stripHexMarker (trimSpace p)) 0 == some 0) with
    | false => rw [hb] at h3; simp at h3
    | true => exact eq_of_beq hb
  obtain ⟨hhd, hld⟩ := danglingPipe_false_facts h4
  obtain ⟨branches, hsp⟩ := splitTopLevelGo_complete (stripHexMarker (trimSpace p))
    0 [] [] hpr h5 hld (fun _ => ⟨hsne, hhd⟩)
  have hsp' : splitTopLevel (stripHexMarker (trimSpace p)) = .ok branches := hsp
  obtain ⟨hne, hjoin, hfacts⟩ := splitTopLevel_sound hsp'
  have hexp : ∀ b ∈ branches, ∃ e, expandBranch b = .ok e := by
    intro b hb
    obtain ⟨hbne, hbpr, hbp0⟩ := hfacts b hb
    rw [expandBranch]
    apply expandBranchGo_complete b.length b [[]] le_rfl
    · intro x hx
      refine hvalid x ?_
      rw [hjoin]
      exact mem_joinPipe_of_mem hb hx
    · exact hbpr
    · refine d2_joinPipe_parts (fun x hx => (hfacts x hx).2.1) ?_ b hb
      rw [← hjoin]
      exact h6
    · refine hbp_joinPipe_parts ?_ b hb
      rw [← hjoin]
      exact h5
    · exact hbp0
  obtain ⟨all, hcb⟩ := compileBranches_complete branches [] hexp
  have hallne : all ≠ [] := by
    cases branches with
    | nil => exact absurd rfl hne
    | cons b bs =>
      rw [compileBranches] at hcb
      obtain ⟨e, he⟩ := hexp b (List.mem_cons_self _ _)
      rw [he] at hcb
      have hene : e ≠ [] := by
        rw [expandBranch] at he
        exact expandBranchGo_alts_ne_nil _ _ _ _ he (by simp)
      exact compileBranches_acc_ne _ _ _ hcb
        (foldl_dedupStep_ne_nil _ _ (Or.inr hene))
  refine ⟨all, ?_⟩
  rw [compileHexPattern, if_neg htrim]
  dsimp only
  rw [if_neg hsne, hsp']
  dsimp only
  rw [hcb]
  dsimp only
  rw [if_neg hallne]

/-- C5 (amended): a blank pattern compiles to the no-constraint result, and a
non-blank pattern fails to compile exactly when the marker-stripped pattern
is empty, has a character outside `[0-9a-fA-F()|]`, has unmatched `(` or
unexpected `)`, has an empty alternative (dangling `|`, adjacent `||`, `(|`,
`|)`, or an empty `()` group) — or, the case missing from the original
taxonomy, contains a nested group (paren depth reaching 2). -/
theorem compile_error_taxonomy :
    (∀ p : Str, trimSpace p = [] → compileHexPattern p = .ok [])
    ∧ ∀ p : Str, trimSpace p ≠ [] →
        ((∃ e, compileHexPattern p = .error e) ↔
          errorSyndromes (stripHexMarker (trimSpace p)) = true) := by
  constructor
  · intro p h
    rw [compileHexPattern, if_pos h]
  · intro p htrim
    constructor
    · rintro ⟨e, he⟩
      by_contra hs
      rw [Bool.not_eq_true] at hs
      obtain ⟨alts, ha⟩ := compile_ok_of_no_syndromes htrim hs
      rw [he] at ha
      exact Except.noConfusion ha
    · intro hs
      cases hc : compileHexPattern p with
      | error e => exact ⟨e, rfl⟩
      | ok alts =>
        have hok := compile_ok_no_syndromes hc htrim
        rw [hs] at hok
        exact Bool.noConfusion hok

/-- Witness for C5: the blank pattern `" "` compiles to no constraint, and
for the non-blank pattern `"("` the error–syndrome equivalence holds. -/
theorem compile_error_taxonomy_witness :
    compileHexPattern [' '] = .ok [] ∧
      ((∃ e, compileHexPattern "(".toList = .error e) ↔
        errorSyndromes (stripHexMarker (trimSpace "(".toList)) = true) :=
  ⟨compile_error_taxonomy.1 [' '] (by decide),
    compile_error_taxonomy.2 "(".toList (by decide)⟩

/-- Counterexample for C5 as stated: `"((a))"` fails to compile although it
is non-empty after stripping, every character is in `[0-9a-fA-F()|]`, the
parens are balanced, and there is no dangling `|`, adjacent `||`/`(|`/`|)`,
or empty `()` — the failure is the nested group, which the claim's
taxonomy does not list. -/
theorem error_taxonomy_counterexample :
    (∃ e, compileHexPattern "((a))".toList = .error e) ∧
    stripHexMarker (trimSpace "((a))".toList) ≠ [] ∧
    (stripHexMarker (trimSpace "((a))".toList)).all validChar = true ∧
    parenRun (stripHexMarker (trimSpace "((a))".toList)) 0 = some 0 ∧
    danglingPipe (stripHexMarker (trimSpace "((a))".toList)) = false ∧
    hasBadPair (stripHexMarker (trimSpace "((a))".toList)) = false :=
  ⟨⟨"invalid character in group", rfl⟩, by decide, by decide, rfl,
    by decide, by decide⟩

/-! ### C7: character-level facts about ASCII lowercasing -/

set_option maxHeartbeats 2000000 in
theorem upper_enum {c : Char} (h1 : 'A' ≤ c) (h2 : c ≤ 'Z') :
    c ∈ "ABCDEFGHIJKLMNOPQRSTUVWXYZ".toList := by
  have hv1 : 65 ≤ c.val.toNat := h1
  have hv2 : c.val.toNat ≤ 90 := h2
  interval_cases h : c.val.toNat <;>
    (rw [← Char.ofNat_toNat c, show c.toNat = _ from h]; decide)

set_option maxHeartbeats 2000000 in
theorem hex_enum {c : Char} (h : isHex c = true) :
    c ∈ hexChars := by
  rw [isHex] at h
  rcases Bool.or_eq_true_iff.mp h with h' | h3
  · rcases Bool.or_eq_true_iff.mp h' with h1 | h2
    · rcases Bool.and_eq_true_iff.mp h1 with ⟨ha, hb⟩
      have hv1 : 48 ≤ c.val.toNat := of_decide_eq_true ha
      have hv2 : c.val.toNat ≤ 57 := of_decide_eq_true hb
      interval_cases hh : c.val.toNat <;>
        (rw [← Char.ofNat_toNat c, show c.toNat = _ from hh]; decide)
    · rcases Bool.and_eq_true_iff.mp h2 with ⟨ha, hb⟩
      have hv1 : 97 ≤ c.val.toNat := of_decide_eq_true ha
      have hv2 : c.val.toNat ≤ 102 := of_decide_eq_true hb
      interval_cases hh : c.val.toNat <;>
        (rw [← Char.ofNat_toNat c, show c.toNat = _ from hh]; decide)
  · rcases Bool.and_eq_true_iff.mp h3 with ⟨ha, hb⟩
    have hv1 : 65 ≤ c.val.toNat := of_decide_eq_true ha
    have hv2 : c.val.toNat ≤ 70 := of_decide_eq_true hb
    interval_cases hh : c.val.toNat <;>
      (rw [← Char.ofNat_toNat c, show c.toNat = _ from hh]; decide)

/-- The pairs of `lowerChar`: every character is either fixed or one of the
26 uppercase ASCII letters mapped to its lowercase form. -/
theorem lowerChar_pair (c : Char) :
    lowerChar c = c ∨ (c, lowerChar c) ∈
      [('A','a'),('B','b'),('C','c'),('D','d'),('E','e'),('F','f'),
       ('G','g'),('H','h'),('I','i'),('J','j'),('K','k'),('L','l'),
       ('M','m'),('N','n'),('O','o'),('P','p'),('Q','q'),('R','r'),
       ('S','s'),('T','t'),('U','u'),('V','v'),('W','w'),('X','x'),
       ('Y','y'),('Z','z')] := by
  by_cases h : (decide ('A' ≤ c) && decide (c ≤ 'Z')) = true
  · right
    rcases Bool.and_eq_true_iff.mp h with ⟨ha, hb⟩
    have hmem := upper_enum (of_decide_eq_true ha) (of_decide_eq_true hb)
    fin_cases hmem <;> decide
  · left
    rw [lowerChar, if_neg h]

theorem isHex_lowerChar (c : Char) : isHex (lowerChar c) = isHex c := by
  rcases lowerChar_pair c with h | h
  · rw [h]
  · fin_cases h <;> decide

theorem isWhitespace_lowerChar (c : Char) :
    (lowerChar c).isWhitespace = c.isWhitespace := by
  rcases lowerChar_pair c with h | h
  · rw [h]
  · fin_cases h <;> decide

theorem lowerChar_eq_lparen (c : Char) : (lowerChar c = '(') ↔ (c = '(') := by
  rcases lowerChar_pair c with h | h
  · rw [h]
  · fin_cases h <;> decide

theorem lowerChar_eq_rparen (c : Char) : (lowerChar c = ')') ↔ (c = ')') := by
  rcases lowerChar_pair c with h | h
  · rw [h]
  · fin_cases h <;> decide

theorem lowerChar_eq_pipe (c : Char) : (lowerChar c = '|') ↔ (c = '|') := by
  rcases lowerChar_pair c with h | h
  · rw [h]
  · fin_cases h <;> decide

theorem lowerChar_eq_zero (c : Char) : (lowerChar c = '0') ↔ (c = '0') := by
  rcases lowerChar_pair c with h | h
  · rw [h]
  · fin_cases h <;> decide

theorem lowerChar_eq_x (c : Char) :
    (lowerChar c = 'x' ∨ lowerChar c = 'X') ↔ (c = 'x' ∨ c = 'X') := by
  rcases lowerChar_pair c with h | h
  · rw [h]
  · fin_cases h <;> decide

theorem trimSpace_toLower (s : Str) :
    trimSpace (toLowerStr s) = toLowerStr (trimSpace s) := by
  rw [trimSpace, trimSpace, toLowerStr, toLowerStr]
  simp only [List.dropWhile_map, List.reverse_map, Function.comp_def,
    isWhitespace_lowerChar]

theorem stripHexMarker_toLower (s : Str) :
    stripHexMarker (toLowerStr s) = toLowerStr (stripHexMarker s) := by
  cases s with
  | nil => rfl
  | cons c0 t =>
    cases t with
    | nil =>
      simp only [toLowerStr, List.map_cons, List.map_nil]
      by_cases h : c0 = 'x' ∨ c0 = 'X'
      · rw [stripHexMarker, if_pos ((lowerChar_eq_x c0).mpr h),
          stripHexMarker, if_pos h]
        rfl
      · rw [stripHexMarker, if_neg (fun hh => h ((lowerChar_eq_x c0).mp hh)),
          stripHexMarker, if_neg h]
        rfl
    | cons c1 rest =>
      simp only [toLowerStr, List.map_cons]
      by_cases h1 : c0 = '0' ∧ (c1 = 'x' ∨ c1 = 'X')
      · rw [stripHexMarker, if_pos ⟨(lowerChar_eq_zero c0).mpr h1.1,
          (lowerChar_eq_x c1).mpr h1.2⟩, stripHexMarker, if_pos h1]
      · have h1' : ¬(lowerChar c0 = '0' ∧ (lowerChar c1 = 'x' ∨ lowerChar c1 = 'X')) :=
          fun hh => h1 ⟨(lowerChar_eq_zero c0).mp hh.1, (lowerChar_eq_x c1).mp hh.2⟩
        by_cases h2 : c0 = 'x' ∨ c0 = 'X'
        · rw [stripHexMarker, if_neg h1', if_pos ((lowerChar_eq_x c0).mpr h2),
            stripHexMarker, if_neg h1, if_pos h2]
          rfl
        · rw [stripHexMarker, if_neg h1',
            if_neg (fun hh => h2 ((lowerChar_eq_x c0).mp hh)),
            stripHexMarker, if_neg h1, if_neg h2]
          rfl

theorem splitTopLevelGo_toLower :
    ∀ (s : Str) (d : Nat) (cur : Str) (acc : List Str),
      splitTopLevelGo (toLowerStr s) d (toLowerStr cur) (acc.map toLowerStr) =
        (splitTopLevelGo s d cur acc).map (List.map toLowerStr) := by
  intro s
  induction s with
  | nil =>
    intro d cur acc
    rw [show toLowerStr [] = [] from rfl, splitTopLevelGo, splitTopLevelGo]
    by_cases hd : d ≠ 0
    · rw [if_pos hd, if_pos hd]
      rfl
    · rw [if_neg hd, if_neg hd]
      by_cases hc : cur = []
      · rw [if_pos hc, if_pos (show toLowerStr cur = [] by simp [hc, toLowerStr])]
        rfl
      · rw [if_neg hc, if_neg (by
          intro hh
          exact hc (List.map_eq_nil_iff.mp hh))]
        show Except.ok (List.map toLowerStr acc ++ [(List.map lowerChar cur).reverse])
            = Except.ok (List.map toLowerStr (acc ++ [cur.reverse]))
        rw [List.map_append]
        simp only [toLowerStr, List.map_cons, List.map_nil, List.map_reverse]
  | cons c cs ih =>
    intro d cur acc
    rw [show toLowerStr (c :: cs) = lowerChar c :: toLowerStr cs from rfl,
      splitTopLevelGo, splitTopLevelGo]
    by_cases h1 : c = '('
    · rw [if_pos ((lowerChar_eq_lparen c).mpr h1), if_pos h1,
        show lowerChar c :: toLowerStr cur = toLowerStr (c :: cur) from rfl, ih]
    · rw [if_neg (fun hh => h1 ((lowerChar_eq_lparen c).mp hh)), if_neg h1]
      by_cases h2 : c = ')'
      · rw [if_pos ((lowerChar_eq_rparen c).mpr h2), if_pos h2]
        by_cases h3 : d = 0
        · rw [if_pos h3, if_pos h3]
          rfl
        · rw [if_neg h3, if_neg h3,
            show lowerChar c :: toLowerStr cur = toLowerStr (c :: cur) from rfl, ih]
      · rw [if_neg (fun hh => h2 ((lowerChar_eq_rparen c).mp hh)), if_neg h2]
        by_cases h3 : c = '|'
        · rw [if_pos ((lowerChar_eq_pipe c).mpr h3), if_pos h3]
          by_cases h4 : d = 0
          · rw [if_pos h4, if_pos h4]
            by_cases h5 : cur = []
            · rw [if_pos h5, if_pos (show toLowerStr cur = [] by simp [h5, toLowerStr])]
              rfl
            · rw [if_neg h5, if_neg (by
                intro hh
                exact h5 (List.map_eq_nil_iff.mp hh))]
              rw [show ([] : Str) = toLowerStr [] from rfl]
              rw [show (acc.map toLowerStr) ++ [(toLowerStr cur).reverse]
                  = (acc ++ [cur.reverse]).map toLowerStr by
                rw [List.map_append]
                simp only [toLowerStr, List.map_cons, List.map_nil, List.map_reverse]]
              exact ih 0 [] (acc ++ [cur.reverse])
          · rw [if_neg h4, if_neg h4,
              show lowerChar c :: toLowerStr cur = toLowerStr (c :: cur) from rfl, ih]
        · rw [if_neg (fun hh => h3 ((lowerChar_eq_pipe c).mp hh)), if_neg h3,
            show lowerChar c :: toLowerStr cur = toLowerStr (c :: cur) from rfl, ih]

theorem splitTopLevel_toLower (s : Str) :
    splitTopLevel (toLowerStr s) = (splitTopLevel s).map (List.map toLowerStr) := by
  rw [splitTopLevel, splitTopLevel,
    show ([] : Str) = toLowerStr [] from rfl,
    show ([] : List Str) = ([] : List Str).map toLowerStr from rfl]
  exact splitTopLevelGo_toLower s 0 [] []

theorem findGroupSplit_toLower :
    ∀ (l : Str) (d : Nat),
      findGroupSplit d (toLowerStr l) =
        (findGroupSplit d l).map (fun pr => (toLowerStr pr.1, toLowerStr pr.2)) := by
  intro l
  induction l with
  | nil => intro d; rfl
  | cons c cs ih =>
    intro d
    rw [show toLowerStr (c :: cs) = lowerChar c :: toLowerStr cs from rfl,
      findGroupSplit, findGroupSplit]
    by_cases h1 : c = '('
    · rw [if_pos ((lowerChar_eq_lparen c).mpr h1), if_pos h1, ih]
      cases findGroupSplit (d + 1) cs with
      | none => rfl
      | some pr => rfl
    · rw [if_neg (fun hh => h1 ((lowerChar_eq_lparen c).mp hh)), if_neg h1]
      by_cases h2 : c = ')'
      · rw [if_pos ((lowerChar_eq_rparen c).mpr h2), if_pos h2]
        by_cases h3 : d = 1
        · rw [if_pos h3, if_pos h3]
          rfl
        · rw [if_neg h3, if_neg h3, ih]
          cases findGroupSplit (d - 1) cs with
          | none => rfl
          | some pr => rfl
      · rw [if_neg (fun hh => h2 ((lowerChar_eq_rparen c).mp hh)), if_neg h2, ih]
        cases findGroupSplit d cs with
        | none => rfl
        | some pr => rfl

theorem appendSegment_map_lower (A S : List Str) :
    appendSegment (A.map toLowerStr) (S.map toLowerStr)
      = (appendSegment A S).map toLowerStr := by
  simp only [appendSegment, List.flatMap_map, List.map_flatMap, List.map_map,
    Function.comp_def, toLowerStr, List.map_append]

theorem expandBranchGo_toLower :
    ∀ (fuel : Nat) (b : Str) (alts : List Str),
      expandBranchGo fuel (toLowerStr b) (alts.map toLowerStr) =
        (expandBranchGo fuel b alts).map (List.map toLowerStr) := by
  intro fuel
  induction fuel with
  | zero =>
    intro b alts
    cases b with
    | nil => rfl
    | cons c rest => rfl
  | succ fuel ih =>
    intro b alts
    cases b with
    | nil => rfl
    | cons c rest =>
      rw [show toLowerStr (c :: rest) = lowerChar c :: toLowerStr rest from rfl,
        expandBranchGo, expandBranchGo]
      by_cases h1 : isHex c = true
      · rw [if_pos (by rw [isHex_lowerChar]; exact h1), if_pos h1]
        have htake : (toLowerStr rest).takeWhile isHex
            = toLowerStr (rest.takeWhile isHex) := by
          rw [toLowerStr, toLowerStr, List.takeWhile_map]
          simp only [Function.comp_def, isHex_lowerChar]
        have hdrop : (toLowerStr rest).dropWhile isHex
            = toLowerStr (rest.dropWhile isHex) := by
          rw [toLowerStr, toLowerStr, List.dropWhile_map]
          simp only [Function.comp_def, isHex_lowerChar]
        rw [htake, hdrop,
          show [lowerChar c :: toLowerStr (rest.takeWhile isHex)]
              = [c :: rest.takeWhile isHex].map toLowerStr from rfl,
          appendSegment_map_lower, ih]
      · rw [if_neg (by rw [isHex_lowerChar]; exact h1), if_neg h1]
        by_cases h2 : c = '('
        · rw [if_pos ((lowerChar_eq_lparen c).mpr h2), if_pos h2,
            show toLowerStr rest = toLowerStr rest from rfl]
          rw [show (toLowerStr rest) = toLowerStr rest from rfl]
          rw [findGroupSplit_toLower rest 1]
          cases hfg : findGroupSplit 1 rest with
          | none => rfl
          | some pr =>
            obtain ⟨inner, after⟩ := pr
            dsimp only [Option.map]
            by_cases h5 : inner = []
            · rw [if_pos h5, if_pos (by simp [h5, toLowerStr])]
              rfl
            · rw [if_neg h5, if_neg (by
                intro hh
                exact h5 (List.map_eq_nil_iff.mp hh))]
              rw [splitTopLevel_toLower inner]
              cases hsp : splitTopLevel inner with
              | error e => rfl
              | ok groupAlts =>
                dsimp only [Except.map]
                have hall : (groupAlts.map toLowerStr).all (fun ga => ga.all isHex)
                    = groupAlts.all (fun ga => ga.all isHex) := by
                  simp only [List.all_map, Function.comp_def, toLowerStr,
                    isHex_lowerChar]
                rw [hall]
                by_cases h6 : groupAlts.all (fun ga => ga.all isHex) = true
                · rw [if_pos h6, if_pos h6, appendSegment_map_lower, ih]
                  rfl
                · rw [if_neg h6, if_neg h6]
        · rw [if_neg (fun hh => h2 ((lowerChar_eq_lparen c).mp hh)), if_neg h2]
          by_cases h3 : c = ')'
          · rw [if_pos ((lowerChar_eq_rparen c).mpr h3), if_pos h3]
            rfl
          · rw [if_neg (fun hh => h3 ((lowerChar_eq_rparen c).mp hh)), if_neg h3]
            by_cases h4 : c = '|'
            · rw [if_pos ((lowerChar_eq_pipe c).mpr h4), if_pos h4]
              rfl
            · rw [if_neg (fun hh => h4 ((lowerChar_eq_pipe c).mp hh)), if_neg h4]
              rfl

theorem expandBranch_toLower {b : Str} {alts : List Str}
    (h : expandBranch b = .ok alts) :
    expandBranch (toLowerStr b) = .ok (alts.map toLowerStr) := by
  rw [expandBranch] at h ⊢
  have hlen : (toLowerStr b).length = b.length := List.length_map _ _
  rw [hlen, show ([[]] : List Str) = ([[]] : List Str).map toLowerStr from rfl,
    expandBranchGo_toLower, h]
  rfl

theorem mem_foldl_dedupStep_intro :
    ∀ (l acc : List Str) (x : Str), (x ∈ acc ∨ x ∈ l) →
      x ∈ l.foldl dedupStep acc := by
  intro l
  induction l with
  | nil =>
    intro acc x hx
    rcases hx with hx | hx
    · exact hx
    · exact absurd hx (List.not_mem_nil x)
  | cons a l ih =>
    intro acc x hx
    have hstep : x ∈ dedupStep acc a ∨ x ∈ l := by
      rcases hx with hx | hx
      · left
        rw [dedupStep]
        split_ifs with hm
        · exact hx
        · exact List.mem_append_left _ hx
      · rcases List.mem_cons.mp hx with rfl | hx'
        · left
          rw [dedupStep]
          split_ifs with hm
          · exact hm
          · exact List.mem_append_right _ (List.mem_singleton.mpr rfl)
        · exact Or.inr hx'
    exact ih _ _ hstep

theorem compileBranches_mem_intro :
    ∀ (bs all r : List Str), compileBranches bs all = .ok r →
      (∀ x ∈ all, x ∈ r) ∧
      ∀ b ∈ bs, ∀ e, expandBranch b = .ok e → ∀ x ∈ e, x ∈ r := by
  intro bs
  induction bs with
  | nil =>
    intro all r h
    simp only [compileBranches, Except.ok.injEq] at h
    subst h
    exact ⟨fun x hx => hx, fun b hb => absurd hb (List.not_mem_nil b)⟩
  | cons b bs ih =>
    intro all r h
    rw [compileBranches] at h
    cases he : expandBranch b with
    | error e => rw [he] at h; exact Except.noConfusion h
    | ok expanded =>
      rw [he] at h
      obtain ⟨hacc, hrest⟩ := ih _ _ h
      constructor
      · intro x hx
        exact hacc x (mem_foldl_dedupStep_intro _ _ _ (Or.inl hx))
      · intro b' hb' e' he' x hx
        rcases List.mem_cons.mp hb' with rfl | hb''
        · rw [he] at he'
          injection he' with hee
          subst hee
          exact hacc x (mem_foldl_dedupStep_intro _ _ _ (Or.inr hx))
        · exact hrest b' hb'' e' he' x hx

theorem compileBranches_mem_src :
    ∀ (bs all r : List Str), compileBranches bs all = .ok r →
      ∀ x ∈ r, x ∈ all ∨ ∃ b ∈ bs, ∃ e, expandBranch b = .ok e ∧ x ∈ e := by
  intro bs
  induction bs with
  | nil =>
    intro all r h x hx
    simp only [compileBranches, Except.ok.injEq] at h
    subst h
    exact Or.inl hx
  | cons b bs ih =>
    intro all r h x hx
    rw [compileBranches] at h
    cases he : expandBranch b with
    | error e => rw [he] at h; exact Except.noConfusion h
    | ok expanded =>
      rw [he] at h
      rcases ih _ _ h x hx with hx' | ⟨b', hb', e', he', hxe⟩
      · rcases mem_foldl_dedupStep _ _ _ hx' with hx'' | hx''
        · exact Or.inl hx''
        · exact Or.inr ⟨b, List.mem_cons_self _ _, expanded, he, hx''⟩
      · exact Or.inr ⟨b', List.mem_cons_of_mem _ hb', e', he', hxe⟩

theorem compile_toLower_mem {p : Str} {alts : List Str}
    (h : compileHexPattern p = .ok alts) (htrim : trimSpace p ≠ []) :
    ∃ altsF, compileHexPattern (toLowerStr p) = .ok altsF ∧ altsF ≠ [] ∧
      ∀ a ∈ alts, toLowerStr a ∈ altsF := by
  rw [compileHexPattern, if_neg htrim] at h
  dsimp only at h
  by_cases h1 : stripHexMarker (trimSpace p) = []
  · rw [if_pos h1] at h
    exact Except.noConfusion h
  · rw [if_neg h1] at h
    cases hsp : splitTopLevel (stripHexMarker (trimSpace p)) with
    | error e => rw [hsp] at h; exact Except.noConfusion h
    | ok branches =>
      rw [hsp] at h
      dsimp only at h
      cases hcb : compileBranches branches [] with
      | error e => rw [hcb] at h; exact Except.noConfusion h
      | ok all =>
        rw [hcb] at h
        dsimp only at h
        by_cases hall : all = []
        · rw [if_pos hall] at h
          exact Except.noConfusion h
        · rw [if_neg hall] at h
          simp only [Except.ok.injEq] at h
          subst h
          have htrim' : trimSpace (toLowerStr p) ≠ [] := by
            rw [trimSpace_toLower]
            intro hh
            exact htrim (List.map_eq_nil_iff.mp hh)
          have hstrip' : stripHexMarker (trimSpace (toLowerStr p))
              = toLowerStr (stripHexMarker (trimSpace p)) := by
            rw [trimSpace_toLower, stripHexMarker_toLower]
          have h1' : toLowerStr (stripHexMarker (trimSpace p)) ≠ [] := by
            intro hh
            exact h1 (List.map_eq_nil_iff.mp hh)
          have hsp' : splitTopLevel (toLowerStr (stripHexMarker (trimSpace p)))
              = .ok (branches.map toLowerStr) := by
            rw [splitTopLevel_toLower, hsp]
            rfl
          have hexpL : ∀ b ∈ branches.map toLowerStr, ∃ e, expandBranch b = .ok e := by
            intro b hb
            rcases List.mem_map.mp hb with ⟨b0, hb0, rfl⟩
            obtain ⟨e0, he0⟩ := compileBranches_ok_forall _ _ _ hcb b0 hb0
            exact ⟨e0.map toLowerStr, expandBranch_toLower he0⟩
          obtain ⟨allF, hcbF⟩ := compileBranches_complete (branches.map toLowerStr) [] hexpL
          have hbne : branches ≠ [] := (splitTopLevel_sound hsp).1
          have hallFne : allF ≠ [] := by
            cases hbr : branches with
            | nil => exact absurd hbr hbne
            | cons b0 bs0 =>
              subst hbr
              rw [List.map_cons, compileBranches] at hcbF
              obtain ⟨e0, he0⟩ := hexpL (toLowerStr b0)
                (by rw [List.map_cons]; exact List.mem_cons_self _ _)
              rw [he0] at hcbF
              have hene : e0 ≠ [] := by
                obtain ⟨e1, he1⟩ := compileBranches_ok_forall _ _ _ hcb b0
                  (List.mem_cons_self _ _)
                have := expandBranch_toLower he1
                rw [he0] at this
                injection this with hee
                subst hee
                intro hh
                rw [List.map_eq_nil_iff] at hh
                subst hh
                rw [expandBranch] at he1
                exact (expandBranchGo_alts_ne_nil _ _ _ _ he1 (by simp)) rfl
              exact compileBranches_acc_ne _ _ _ hcbF
                (foldl_dedupStep_ne_nil _ _ (Or.inr hene))
          refine ⟨allF, ?_, hallFne, ?_⟩
          · rw [compileHexPattern, if_neg htrim']
            dsimp only
            rw [hstrip', if_neg h1', hsp']
            dsimp only
            rw [hcbF]
            dsimp only
            rw [if_neg hallFne]
          · intro a ha
            rcases compileBranches_mem_src _ _ _ hcb a ha with ha' | ⟨b, hb, e, he, hae⟩
            · exact absurd ha' (List.not_mem_nil a)
            · exact (compileBranches_mem_intro _ _ _ hcbF).2 (toLowerStr b)
                (List.mem_map_of_mem _ hb) (e.map toLowerStr)
                (expandBranch_toLower he) (toLowerStr a)
                (List.mem_map_of_mem _ hae)

theorem expandBranchGo_alts_hex :
    ∀ (fuel : Nat) (b : Str) (acc alts : List Str),
      expandBranchGo fuel b acc = .ok alts →
      (∀ a ∈ acc, ∀ c ∈ a, isHex c = true) →
      ∀ a ∈ alts, ∀ c ∈ a, isHex c = true := by
  intro fuel
  induction fuel with
  | zero =>
    intro b acc alts h hacc
    cases b with
    | nil =>
      simp only [expandBranchGo, Except.ok.injEq] at h
      subst h
      exact hacc
    | cons c rest => exact Except.noConfusion h
  | succ fuel ih =>
    intro b acc alts h hacc
    cases b with
    | nil =>
      simp only [expandBranchGo, Except.ok.injEq] at h
      subst h
      exact hacc
    | cons c rest =>
      rw [expandBranchGo] at h
      split_ifs at h with h1 h2
      · refine ih _ _ _ h ?_
        intro a ha x hx
        rcases mem_appendSegment.mp ha with ⟨q, hq, t, ht, rfl⟩
        rcases List.mem_singleton.mp ht with rfl
        rcases List.mem_append.mp hx with hx' | hx'
        · exact hacc q hq x hx'
        · rcases List.mem_cons.mp hx' with rfl | hx''
          · exact h1
          · exact all_takeWhile_self isHex rest x hx''
      · cases hfs : findGroupSplit 1 rest with
        | none => rw [hfs] at h; exact Except.noConfusion h
        | some pr =>
          obtain ⟨inner, after⟩ := pr
          rw [hfs] at h
          dsimp only at h
          split_ifs at h with h5
          cases hsp : splitTopLevel inner with
          | error e => rw [hsp] at h; exact Except.noConfusion h
          | ok groupAlts =>
            rw [hsp] at h
            dsimp only at h
            split_ifs at h with h6
            refine ih _ _ _ h ?_
            intro a ha x hx
            rcases mem_appendSegment.mp ha with ⟨q, hq, t, ht, rfl⟩
            rcases List.mem_append.mp hx with hx' | hx'
            · exact hacc q hq x hx'
            · exact List.all_eq_true.mp (List.all_eq_true.mp h6 t ht) x hx'

theorem compile_alts_hex {p : Str} {alts : List Str}
    (h : compileHexPattern p = .ok alts) :
    ∀ a ∈ alts, ∀ c ∈ a, isHex c = true := by
  rw [compileHexPattern] at h
  by_cases h0 : trimSpace p = []
  · rw [if_pos h0] at h
    simp only [Except.ok.injEq] at h
    subst h
    intro a ha
    exact absurd ha (List.not_mem_nil a)
  · rw [if_neg h0] at h
    dsimp only at h
    by_cases h1 : stripHexMarker (trimSpace p) = []
    · rw [if_pos h1] at h
      exact Except.noConfusion h
    · rw [if_neg h1] at h
      cases hsp : splitTopLevel (stripHexMarker (trimSpace p)) with
      | error e => rw [hsp] at h; exact Except.noConfusion h
      | ok branches =>
        rw [hsp] at h
        dsimp only at h
        cases hcb : compileBranches branches [] with
        | error e => rw [hcb] at h; exact Except.noConfusion h
        | ok all =>
          rw [hcb] at h
          dsimp only at h
          split_ifs at h with hall
          simp only [Except.ok.injEq] at h
          subst h
          intro a ha
          rcases compileBranches_mem_src _ _ _ hcb a ha with ha' | ⟨b, _, e, he, hae⟩
          · exact absurd ha' (List.not_mem_nil a)
          · rw [expandBranch] at he
            exact expandBranchGo_alts_hex _ _ _ _ he (by simp) a hae

theorem u1_pos (c : Char) : 0 < u1 c := by
  rw [u1]
  split_ifs <;> norm_num

theorem uWeight_pos (a : Str) : 0 < uWeight a := by
  rw [uWeight]
  induction a with
  | nil => norm_num
  | cons c t ih =>
    rw [List.map_cons, List.prod_cons]
    exact mul_pos (u1_pos c) ih

theorem countHexLetters_cons (c : Char) (t : Str) :
    countHexLetters (c :: t)
      = (if isHexLetter c = true then 1 else 0) + countHexLetters t := by
  rw [countHexLetters, countHexLetters, List.filter_cons]
  split_ifs with h1 h2 h3
  · rw [List.length_cons, Nat.add_comm]
  · exact absurd h1 h2
  · exact absurd h3 h1
  · rw [Nat.zero_add]

theorem uWeight_eq (a : Str) :
    uWeight a = 1 / ((16:ℚ) ^ a.length * 2 ^ countHexLetters a) := by
  induction a with
  | nil => norm_num [uWeight, countHexLetters]
  | cons c t ih =>
    rw [show uWeight (c :: t) = u1 c * uWeight t by
      rw [uWeight, uWeight, List.map_cons, List.prod_cons], ih,
      countHexLetters_cons, List.length_cons, u1]
    split_ifs with h1
    · rw [pow_succ, pow_add, pow_one]
      field_simp
      ring
    · rw [pow_succ, Nat.zero_add]
      field_simp
      ring

theorem uWeight_eq_patternDenominator (a : Str) :
    uWeight a
      = 1 / ((patternDenominator a.length (countHexLetters a) true : Int) : ℚ) := by
  rw [uWeight_eq, patternDenominator_cast, specCaseFactorK, if_pos rfl]

theorem inv_patternDenominator_false (n k : Nat) :
    1 / ((patternDenominator n k false : Int) : ℚ) = (1/16 : ℚ) ^ n := by
  rw [patternDenominator_cast, specCaseFactorK, if_neg (by simp)]
  rw [div_pow, one_pow, mul_one]

theorem sum_map_add {α : Type} (l : List α) (f g : α → ℚ) :
    (l.map (fun c => f c + g c)).sum = (l.map f).sum + (l.map g).sum := by
  induction l with
  | nil => simp
  | cons c cs ih =>
    simp only [List.map_cons, List.sum_cons, ih]
    ring

theorem sum_map_mul_right {α : Type} (l : List α) (f : α → ℚ) (K : ℚ) :
    (l.map (fun c => f c * K)).sum = (l.map f).sum * K := by
  induction l with
  | nil => simp
  | cons c cs ih =>
    simp only [List.map_cons, List.sum_cons, ih]
    ring

theorem list_sum_ite_eq {α : Type} [DecidableEq α] (l : List α) (x : α) (f : α → ℚ)
    (hnd : l.Nodup) (hx : x ∈ l) :
    (l.map (fun c => if x = c then f c else 0)).sum = f x := by
  induction l with
  | nil => exact absurd hx (List.not_mem_nil x)
  | cons c cs ih =>
    rw [List.nodup_cons] at hnd
    simp only [List.map_cons, List.sum_cons]
    rcases List.mem_cons.mp hx with rfl | hx'
    · rw [if_pos rfl]
      have : (cs.map (fun c => if x = c then f c else 0)).sum = 0 := by
        rw [List.sum_eq_zero]
        intro q hq
        rcases List.mem_map.mp hq with ⟨c', hc', rfl⟩
        rw [if_neg]
        intro hh
        subst hh
        exact hnd.1 hc'
      rw [this, add_zero]
    · rw [if_neg (by
        intro hh
        subst hh
        exact hnd.1 hx'), ih hnd.2 hx', zero_add]

theorem headTails_nil (c : Char) : headTails c [] = [] := rfl

theorem headTails_cons_eq (c : Char) (a : Str) (A : List Str) :
    headTails c (a :: A) =
      (match a with
       | [] => headTails c A
       | x :: t => if x = c then t :: headTails c A else headTails c A) := by
  cases a with
  | nil => rfl
  | cons x t =>
    rw [headTails, List.filterMap_cons]
    dsimp only
    split_ifs with h
    · rfl
    · rfl

theorem headTails_mem {c : Char} {A : List Str} {t : Str}
    (h : t ∈ headTails c A) : (c :: t) ∈ A := by
  induction A with
  | nil => exact absurd h (List.not_mem_nil t)
  | cons a A ih =>
    rw [headTails_cons_eq] at h
    cases a with
    | nil => exact List.mem_cons_of_mem _ (ih h)
    | cons x s =>
      dsimp only at h
      split_ifs at h with hx
      · subst hx
        rcases List.mem_cons.mp h with rfl | h'
        · exact List.mem_cons_self _ _
        · exact List.mem_cons_of_mem _ (ih h')
      · exact List.mem_cons_of_mem _ (ih h)

theorem headTails_nodup (c : Char) : ∀ {A : List Str}, A.Nodup →
    (headTails c A).Nodup := by
  intro A hnd
  induction A with
  | nil => exact List.nodup_nil
  | cons a A ih =>
    rw [List.nodup_cons] at hnd
    rw [headTails_cons_eq]
    cases a with
    | nil => exact ih hnd.2
    | cons x s =>
      dsimp only
      split_ifs with hx
      · subst hx
        rw [List.nodup_cons]
        refine ⟨?_, ih hnd.2⟩
        intro hmem
        exact hnd.1 (headTails_mem hmem)
      · exact ih hnd.2

theorem headTails_total_le (c : Char) : ∀ (A : List Str),
    ((headTails c A).map List.length).sum ≤ ((A.map List.length).sum) := by
  intro A
  induction A with
  | nil => exact le_refl 0
  | cons a A ih =>
    rw [headTails_cons_eq]
    cases a with
    | nil =>
      simp only [List.map_cons, List.sum_cons]
      omega
    | cons x s =>
      dsimp only
      split_ifs with hx
      · simp only [List.map_cons, List.sum_cons, List.length_cons]
        omega
      · simp only [List.map_cons, List.sum_cons]
        omega

theorem headTails_total_lt (c : Char) : ∀ (A : List Str),
    (∀ a ∈ A, a ≠ []) → headTails c A ≠ [] →
    ((headTails c A).map List.length).sum < ((A.map List.length).sum) := by
  intro A
  induction A with
  | nil =>
    intro hA hne
    exact absurd (headTails_nil c) hne
  | cons a A ih =>
    intro hA hne
    rw [headTails_cons_eq] at hne ⊢
    cases a with
    | nil => exact absurd rfl (hA [] (List.mem_cons_self _ _))
    | cons x s =>
      dsimp only at hne ⊢
      split_ifs at hne ⊢ with hx
      · simp only [List.map_cons, List.sum_cons, List.length_cons]
        have := headTails_total_le c A
        omega
      · simp only [List.map_cons, List.sum_cons]
        have := ih (fun a ha => hA a (List.mem_cons_of_mem _ ha)) hne
        omega

theorem sum_u1_lower (cb : Char) :
    ((hexChars.map (fun c => if lowerChar c = cb then u1 c else 0)).sum)
      ≤ (1/16 : ℚ) := by
  rw [hexChars]
  simp only [List.map_cons, List.map_nil, List.sum_cons, List.sum_nil]
  rw [show lowerChar '0' = '0' from by decide,
    show lowerChar '1' = '1' from by decide,
    show lowerChar '2' = '2' from by decide,
    show lowerChar '3' = '3' from by decide,
    show lowerChar '4' = '4' from by decide,
    show lowerChar '5' = '5' from by decide,
    show lowerChar '6' = '6' from by decide,
    show lowerChar '7' = '7' from by decide,
    show lowerChar '8' = '8' from by decide,
    show lowerChar '9' = '9' from by decide,
    show lowerChar 'a' = 'a' from by decide,
    show lowerChar 'b' = 'b' from by decide,
    show lowerChar 'c' = 'c' from by decide,
    show lowerChar 'd' = 'd' from by decide,
    show lowerChar 'e' = 'e' from by decide,
    show lowerChar 'f' = 'f' from by decide,
    show lowerChar 'A' = 'a' from by decide,
    show lowerChar 'B' = 'b' from by decide,
    show lowerChar 'C' = 'c' from by decide,
    show lowerChar 'D' = 'd' from by decide,
    show lowerChar 'E' = 'e' from by decide,
    show lowerChar 'F' = 'f' from by decide]
  rw [show u1 '0' = 1/16 by rw [u1, if_neg (by decide)],
    show u1 '1' = 1/16 by rw [u1, if_neg (by decide)],
    show u1 '2' = 1/16 by rw [u1, if_neg (by decide)],
    show u1 '3' = 1/16 by rw [u1, if_neg (by decide)],
    show u1 '4' = 1/16 by rw [u1, if_neg (by decide)],
    show u1 '5' = 1/16 by rw [u1, if_neg (by decide)],
    show u1 '6' = 1/16 by rw [u1, if_neg (by decide)],
    show u1 '7' = 1/16 by rw [u1, if_neg (by decide)],
    show u1 '8' = 1/16 by rw [u1, if_neg (by decide)],
    show u1 '9' = 1/16 by rw [u1, if_neg (by decide)],
    show u1 'a' = 1/32 by rw [u1, if_pos (by decide)],
    show u1 'b' = 1/32 by rw [u1, if_pos (by decide)],
    show u1 'c' = 1/32 by rw [u1, if_pos (by decide)],
    show u1 'd' = 1/32 by rw [u1, if_pos (by decide)],
    show u1 'e' = 1/32 by rw [u1, if_pos (by decide)],
    show u1 'f' = 1/32 by rw [u1, if_pos (by decide)],
    show u1 'A' = 1/32 by rw [u1, if_pos (by decide)],
    show u1 'B' = 1/32 by rw [u1, if_pos (by decide)],
    show u1 'C' = 1/32 by rw [u1, if_pos (by decide)],
    show u1 'D' = 1/32 by rw [u1, if_pos (by decide)],
    show u1 'E' = 1/32 by rw [u1, if_pos (by decide)],
    show u1 'F' = 1/32 by rw [u1, if_pos (by decide)]]
  by_cases hc0 : cb = '0'
  · subst hc0
    rw [if_pos (Eq.refl ('0' : Char)),
      if_neg (show ¬('1':Char) = '0' by decide),
      if_neg (show ¬('2':Char) = '0' by decide),
      if_neg (show ¬('3':Char) = '0' by decide),
      if_neg (show ¬('4':Char) = '0' by decide),
      if_neg (show ¬('5':Char) = '0' by decide),
      if_neg (show ¬('6':Char) = '0' by decide),
      if_neg (show ¬('7':Char) = '0' by decide),
      if_neg (show ¬('8':Char) = '0' by decide),
      if_neg (show ¬('9':Char) = '0' by decide),
      if_neg (show ¬('a':Char) = '0' by decide),
      if_neg (show ¬('b':Char) = '0' by decide),
      if_neg (show ¬('c':Char) = '0' by decide),
      if_neg (show ¬('d':Char) = '0' by decide),
      if_neg (show ¬('e':Char) = '0' by decide),
      if_neg (show ¬('f':Char) = '0' by decide)]
    norm_num
  by_cases hc1 : cb = '1'
  · subst hc1
    rw [if_neg (show ¬('0':Char) = '1' by decide),
      if_pos (Eq.refl ('1' : Char)),
      if_neg (show ¬('2':Char) = '1' by decide),
      if_neg (show ¬('3':Char) = '1' by decide),
      if_neg (show ¬('4':Char) = '1' by decide),
      if_neg (show ¬('5':Char) = '1' by decide),
      if_neg (show ¬('6':Char) = '1' by decide),
      if_neg (show ¬('7':Char) = '1' by decide),
      if_neg (show ¬('8':Char) = '1' by decide),
      if_neg (show ¬('9':Char) = '1' by decide),
      if_neg (show ¬('a':Char) = '1' by decide),
      if_neg (show ¬('b':Char) = '1' by decide),
      if_neg (show ¬('c':Char) = '1' by decide),
      if_neg (show ¬('d':Char) = '1' by decide),
      if_neg (show ¬('e':Char) = '1' by decide),
      if_neg (show ¬('f':Char) = '1' by decide)]
    norm_num
  by_cases hc2 : cb = '2'
  · subst hc2
    rw [if_neg (show ¬('0':Char) = '2' by decide),
      if_neg (show ¬('1':Char) = '2' by decide),
      if_pos (Eq.refl ('2' : Char)),
      if_neg (show ¬('3':Char) = '2' by decide),
      if_neg (show ¬('4':Char) = '2' by decide),
      if_neg (show ¬('5':Char) = '2' by decide),
      if_neg (show ¬('6':Char) = '2' by decide),
      if_neg (show ¬('7':Char) = '2' by decide),
      if_neg (show ¬('8':Char) = '2' by decide),
      if_neg (show ¬('9':Char) = '2' by decide),
      if_neg (show ¬('a':Char) = '2' by decide),
      if_neg (show ¬('b':Char) = '2' by decide),
      if_neg (show ¬('c':Char) = '2' by decide),
      if_neg (show ¬('d':Char) = '2' by decide),
      if_neg (show ¬('e':Char) = '2' by decide),
      if_neg (show ¬('f':Char) = '2' by decide)]
    norm_num
  by_cases hc3 : cb = '3'
  · subst hc3
    rw [if_neg (show ¬('0':Char) = '3' by decide),
      if_neg (show ¬('1':Char) = '3' by decide),
      if_neg (show ¬('2':Char) = '3' by decide),
      if_pos (Eq.refl ('3' : Char)),
      if_neg (show ¬('4':Char) = '3' by decide),
      if_neg (show ¬('5':Char) = '3' by decide),
      if_neg (show ¬('6':Char) = '3' by decide),
      if_neg (show ¬('7':Char) = '3' by decide),
      if_neg (show ¬('8':Char) = '3' by decide),
      if_neg (show ¬('9':Char) = '3' by decide),
      if_neg (show ¬('a':Char) = '3' by decide),
      if_neg (show ¬('b':Char) = '3' by decide),
      if_neg (show ¬('c':Char) = '3' by decide),
      if_neg (show ¬('d':Char) = '3' by decide),
      if_neg (show ¬('e':Char) = '3' by decide),
      if_neg (show ¬('f':Char) = '3' by decide)]
    norm_num
  by_cases hc4 : cb = '4'
  · subst hc4
    rw [if_neg (show ¬('0':Char) = '4' by decide),
      if_neg (show ¬('1':Char) = '4' by decide),
      if_neg (show ¬('2':Char) = '4' by decide),
      if_neg (show ¬('3':Char) = '4' by decide),
      if_pos (Eq.refl ('4' : Char)),
      if_neg (show ¬('5':Char) = '4' by decide),
      if_neg (show ¬('6':Char) = '4' by decide),
      if_neg (show ¬('7':Char) = '4' by decide),
      if_neg (show ¬('8':Char) = '4' by decide),
      if_neg (show ¬('9':Char) = '4' by decide),
      if_neg (show ¬('a':Char) = '4' by decide),
      if_neg (show ¬('b':Char) = '4' by decide),
      if_neg (show ¬('c':Char) = '4' by decide),
      if_neg (show ¬('d':Char) = '4' by decide),
      if_neg (show ¬('e':Char) = '4' by decide),
      if_neg (show ¬('f':Char) = '4' by decide)]
    norm_num
  by_cases hc5 : cb = '5'
  · subst hc5
    rw [if_neg (show ¬('0':Char) = '5' by decide),
      if_neg (show ¬('1':Char) = '5' by decide),
      if_neg (show ¬('2':Char) = '5' by decide),
      if_neg (show ¬('3':Char) = '5' by decide),
      if_neg (show ¬('4':Char) = '5' by decide),
      if_pos (Eq.refl ('5' : Char)),
      if_neg (show ¬('6':Char) = '5' by decide),
      if_neg (show ¬('7':Char) = '5' by decide),
      if_neg (show ¬('8':Char) = '5' by decide),
      if_neg (show ¬('9':Char) = '5' by decide),
      if_neg (show ¬('a':Char) = '5' by decide),
      if_neg (show ¬('b':Char) = '5' by decide),
      if_neg (show ¬('c':Char) = '5' by decide),
      if_neg (show ¬('d':Char) = '5' by decide),
      if_neg (show ¬('e':Char) = '5' by decide),
      if_neg (show ¬('f':Char) = '5' by decide)]
    norm_num
  by_cases hc6 : cb = '6'
  · subst hc6
    rw [if_neg (show ¬('0':Char) = '6' by decide),
      if_neg (show ¬('1':Char) = '6' by decide),
      if_neg (show ¬('2':Char) = '6' by decide),
      if_neg (show ¬('3':Char) = '6' by decide),
      if_neg (show ¬('4':Char) = '6' by decide),
      if_neg (show ¬('5':Char) = '6' by decide),
      if_pos (Eq.refl ('6' : Char)),
      if_neg (show ¬('7':Char) = '6' by decide),
      if_neg (show ¬('8':Char) = '6' by decide),
      if_neg (show ¬('9':Char) = '6' by decide),
      if_neg (show ¬('a':Char) = '6' by decide),
      if_neg (show ¬('b':Char) = '6' by decide),
      if_neg (show ¬('c':Char) = '6' by decide),
      if_neg (show ¬('d':Char) = '6' by decide),
      if_neg (show ¬('e':Char) = '6' by decide),
      if_neg (show ¬('f':Char) = '6' by decide)]
    norm_num
  by_cases hc7 : cb = '7'
  · subst hc7
    rw [if_neg (show ¬('0':Char) = '7' by decide),
      if_neg (show ¬('1':Char) = '7' by decide),
      if_neg (show ¬('2':Char) = '7' by decide),
      if_neg (show ¬('3':Char) = '7' by decide),
      if_neg (show ¬('4':Char) = '7' by decide),
      if_neg (show ¬('5':Char) = '7' by decide),
      if_neg (show ¬('6':Char) = '7' by decide),
      if_pos (Eq.refl ('7' : Char)),
      if_neg (show ¬('8':Char) = '7' by decide),
      if_neg (show ¬('9':Char) = '7' by decide),
      if_neg (show ¬('a':Char) = '7' by decide),
      if_neg (show ¬('b':Char) = '7' by decide),
      if_neg (show ¬('c':Char) = '7' by decide),
      if_neg (show ¬('d':Char) = '7' by decide),
      if_neg (show ¬('e':Char) = '7' by decide),
      if_neg (show ¬('f':Char) = '7' by decide)]
    norm_num
  by_cases hc8 : cb = '8'
  · subst hc8
    rw [if_neg (show ¬('0':Char) = '8' by decide),
      if_neg (show ¬('1':Char) = '8' by decide),
      if_neg (show ¬('2':Char) = '8' by decide),
      if_neg (show ¬('3':Char) = '8' by decide),
      if_neg (show ¬('4':Char) = '8' by decide),
      if_neg (show ¬('5':Char) = '8' by decide),
      if_neg (show ¬('6':Char) = '8' by decide),
      if_neg (show ¬('7':Char) = '8' by decide),
      if_pos (Eq.refl ('8' : Char)),
      if_neg (show ¬('9':Char) = '8' by decide),
      if_neg (show ¬('a':Char) = '8' by decide),
      if_neg (show ¬('b':Char) = '8' by decide),
      if_neg (show ¬('c':Char) = '8' by decide),
      if_neg (show ¬('d':Char) = '8' by decide),
      if_neg (show ¬('e':Char) = '8' by decide),
      if_neg (show ¬('f':Char) = '8' by decide)]
    norm_num
  by_cases hc9 : cb = '9'
  · subst hc9
    rw [if_neg (show ¬('0':Char) = '9' by decide),
      if_neg (show ¬('1':Char) = '9' by decide),
      if_neg (show ¬('2':Char) = '9' by decide),
      if_neg (show ¬('3':Char) = '9' by decide),
      if_neg (show ¬('4':Char) = '9' by decide),
      if_neg (show ¬('5':Char) = '9' by decide),
      if_neg (show ¬('6':Char) = '9' by decide),
      if_neg (show ¬('7':Char) = '9' by decide),
      if_neg (show ¬('8':Char) = '9' by decide),
      if_pos (Eq.refl ('9' : Char)),
      if_neg (show ¬('a':Char) = '9' by decide),
      if_neg (show ¬('b':Char) = '9' by decide),
      if_neg (show ¬('c':Char) = '9' by decide),
      if_neg (show ¬('d':Char) = '9' by decide),
      if_neg (show ¬('e':Char) = '9' by decide),
      if_neg (show ¬('f':Char) = '9' by decide)]
    norm_num
  by_cases hca : cb = 'a'
  · subst hca
    rw [if_neg (show ¬('0':Char) = 'a' by decide),
      if_neg (show ¬('1':Char) = 'a' by decide),
      if_neg (show ¬('2':Char) = 'a' by decide),
      if_neg (show ¬('3':Char) = 'a' by decide),
      if_neg (show ¬('4':Char) = 'a' by decide),
      if_neg (show ¬('5':Char) = 'a' by decide),
      if_neg (show ¬('6':Char) = 'a' by decide),
      if_neg (show ¬('7':Char) = 'a' by decide),
      if_neg (show ¬('8':Char) = 'a' by decide),
      if_neg (show ¬('9':Char) = 'a' by decide),
      if_pos (Eq.refl ('a' : Char)),
      if_neg (show ¬('b':Char) = 'a' by decide),
      if_neg (show ¬('c':Char) = 'a' by decide),
      if_neg (show ¬('d':Char) = 'a' by decide),
      if_neg (show ¬('e':Char) = 'a' by decide),
      if_neg (show ¬('f':Char) = 'a' by decide)]
    norm_num
  by_cases hcb : cb = 'b'
  · subst hcb
    rw [if_neg (show ¬('0':Char) = 'b' by decide),
      if_neg (show ¬('1':Char) = 'b' by decide),
      if_neg (show ¬('2':Char) = 'b' by decide),
      if_neg (show ¬('3':Char) = 'b' by decide),
      if_neg (show ¬('4':Char) = 'b' by decide),
      if_neg (show ¬('5':Char) = 'b' by decide),
      if_neg (show ¬('6':Char) = 'b' by decide),
      if_neg (show ¬('7':Char) = 'b' by decide),
      if_neg (show ¬('8':Char) = 'b' by decide),
      if_neg (show ¬('9':Char) = 'b' by decide),
      if_neg (show ¬('a':Char) = 'b' by decide),
      if_pos (Eq.refl ('b' : Char)),
      if_neg (show ¬('c':Char) = 'b' by decide),
      if_neg (show ¬('d':Char) = 'b' by decide),
      if_neg (show ¬('e':Char) = 'b' by decide),
      if_neg (show ¬('f':Char) = 'b' by decide)]
    norm_num
  by_cases hcc : cb = 'c'
  · subst hcc
    rw [if_neg (show ¬('0':Char) = 'c' by decide),
      if_neg (show ¬('1':Char) = 'c' by decide),
      if_neg (show ¬('2':Char) = 'c' by decide),
      if_neg (show ¬('3':Char) = 'c' by decide),
      if_neg (show ¬('4':Char) = 'c' by decide),
      if_neg (show ¬('5':Char) = 'c' by decide),
      if_neg (show ¬('6':Char) = 'c' by decide),
      if_neg (show ¬('7':Char) = 'c' by decide),
      if_neg (show ¬('8':Char) = 'c' by decide),
      if_neg (show ¬('9':Char) = 'c' by decide),
      if_neg (show ¬('a':Char) = 'c' by decide),
      if_neg (show ¬('b':Char) = 'c' by decide),
      if_pos (Eq.refl ('c' : Char)),
      if_neg (show ¬('d':Char) = 'c' by decide),
      if_neg (show ¬('e':Char) = 'c' by decide),
      if_neg (show ¬('f':Char) = 'c' by decide)]
    norm_num
  by_cases hcd : cb = 'd'
  · subst hcd
    rw [if_neg (show ¬('0':Char) = 'd' by decide),
      if_neg (show ¬('1':Char) = 'd' by decide),
      if_neg (show ¬('2':Char) = 'd' by decide),
      if_neg (show ¬('3':Char) = 'd' by decide),
      if_neg (show ¬('4':Char) = 'd' by decide),
      if_neg (show ¬('5':Char) = 'd' by decide),
      if_neg (show ¬('6':Char) = 'd' by decide),
      if_neg (show ¬('7':Char) = 'd' by decide),
      if_neg (show ¬('8':Char) = 'd' by decide),
      if_neg (show ¬('9':Char) = 'd' by decide),
      if_neg (show ¬('a':Char) = 'd' by decide),
      if_neg (show ¬('b':Char) = 'd' by decide),
      if_neg (show ¬('c':Char) = 'd' by decide),
      if_pos (Eq.refl ('d' : Char)),
      if_neg (show ¬('e':Char) = 'd' by decide),
      if_neg (show ¬('f':Char) = 'd' by decide)]
    norm_num
  by_cases hce : cb = 'e'
  · subst hce
    rw [if_neg (show ¬('0':Char) = 'e' by decide),
      if_neg (show ¬('1':Char) = 'e' by decide),
      if_neg (show ¬('2':Char) = 'e' by decide),
      if_neg (show ¬('3':Char) = 'e' by decide),
      if_neg (show ¬('4':Char) = 'e' by decide),
      if_neg (show ¬('5':Char) = 'e' by decide),
      if_neg (show ¬('6':Char) = 'e' by decide),
      if_neg (show ¬('7':Char) = 'e' by decide),
      if_neg (show ¬('8':Char) = 'e' by decide),
      if_neg (show ¬('9':Char) = 'e' by decide),
      if_neg (show ¬('a':Char) = 'e' by decide),
      if_neg (show ¬('b':Char) = 'e' by decide),
      if_neg (show ¬('c':Char) = 'e' by decide),
      if_neg (show ¬('d':Char) = 'e' by decide),
      if_pos (Eq.refl ('e' : Char)),
      if_neg (show ¬('f':Char) = 'e' by decide)]
    norm_num
  by_cases hcf : cb = 'f'
  · subst hcf
    rw [if_neg (show ¬('0':Char) = 'f' by decide),
      if_neg (show ¬('1':Char) = 'f' by decide),
      if_neg (show ¬('2':Char) = 'f' by decide),
      if_neg (show ¬('3':Char) = 'f' by decide),
      if_neg (show ¬('4':Char) = 'f' by decide),
      if_neg (show ¬('5':Char) = 'f' by decide),
      if_neg (show ¬('6':Char) = 'f' by decide),
      if_neg (show ¬('7':Char) = 'f' by decide),
      if_neg (show ¬('8':Char) = 'f' by decide),
      if_neg (show ¬('9':Char) = 'f' by decide),
      if_neg (show ¬('a':Char) = 'f' by decide),
      if_neg (show ¬('b':Char) = 'f' by decide),
      if_neg (show ¬('c':Char) = 'f' by decide),
      if_neg (show ¬('d':Char) = 'f' by decide),
      if_neg (show ¬('e':Char) = 'f' by decide),
      if_pos (Eq.refl ('f' : Char))]
    norm_num
  rw [if_neg (show ¬('0':Char) = cb from fun hh => hc0 hh.symm),
    if_neg (show ¬('1':Char) = cb from fun hh => hc1 hh.symm),
    if_neg (show ¬('2':Char) = cb from fun hh => hc2 hh.symm),
    if_neg (show ¬('3':Char) = cb from fun hh => hc3 hh.symm),
    if_neg (show ¬('4':Char) = cb from fun hh => hc4 hh.symm),
    if_neg (show ¬('5':Char) = cb from fun hh => hc5 hh.symm),
    if_neg (show ¬('6':Char) = cb from fun hh => hc6 hh.symm),
    if_neg (show ¬('7':Char) = cb from fun hh => hc7 hh.symm),
    if_neg (show ¬('8':Char) = cb from fun hh => hc8 hh.symm),
    if_neg (show ¬('9':Char) = cb from fun hh => hc9 hh.symm),
    if_neg (show ¬('a':Char) = cb from fun hh => hca hh.symm),
    if_neg (show ¬('b':Char) = cb from fun hh => hcb hh.symm),
    if_neg (show ¬('c':Char) = cb from fun hh => hcc hh.symm),
    if_neg (show ¬('d':Char) = cb from fun hh => hcd hh.symm),
    if_neg (show ¬('e':Char) = cb from fun hh => hce hh.symm),
    if_neg (show ¬('f':Char) = cb from fun hh => hcf hh.symm)]
  norm_num

theorem sum_u1_total :
    ((hexChars.map u1).sum) = 1 := by
  rw [hexChars]
  simp only [List.map_cons, List.map_nil, List.sum_cons, List.sum_nil]
  rw [show u1 '0' = 1/16 by rw [u1, if_neg (by decide)],
    show u1 '1' = 1/16 by rw [u1, if_neg (by decide)],
    show u1 '2' = 1/16 by rw [u1, if_neg (by decide)],
    show u1 '3' = 1/16 by rw [u1, if_neg (by decide)],
    show u1 '4' = 1/16 by rw [u1, if_neg (by decide)],
    show u1 '5' = 1/16 by rw [u1, if_neg (by decide)],
    show u1 '6' = 1/16 by rw [u1, if_neg (by decide)],
    show u1 '7' = 1/16 by rw [u1, if_neg (by decide)],
    show u1 '8' = 1/16 by rw [u1, if_neg (by decide)],
    show u1 '9' = 1/16 by rw [u1, if_neg (by decide)],
    show u1 'a' = 1/32 by rw [u1, if_pos (by decide)],
    show u1 'b' = 1/32 by rw [u1, if_pos (by decide)],
    show u1 'c' = 1/32 by rw [u1, if_pos (by decide)],
    show u1 'd' = 1/32 by rw [u1, if_pos (by decide)],
    show u1 'e' = 1/32 by rw [u1, if_pos (by decide)],
    show u1 'f' = 1/32 by rw [u1, if_pos (by decide)],
    show u1 'A' = 1/32 by rw [u1, if_pos (by decide)],
    show u1 'B' = 1/32 by rw [u1, if_pos (by decide)],
    show u1 'C' = 1/32 by rw [u1, if_pos (by decide)],
    show u1 'D' = 1/32 by rw [u1, if_pos (by decide)],
    show u1 'E' = 1/32 by rw [u1, if_pos (by decide)],
    show u1 'F' = 1/32 by rw [u1, if_pos (by decide)]]
  norm_num

theorem sum_u_buckets : ∀ (A : List Str),
    (∀ a ∈ A, a ≠ []) → (∀ a ∈ A, ∀ x ∈ a, isHex x = true) →
    ((A.map uWeight).sum)
      = ((hexChars.map
          (fun c => u1 c * ((headTails c A).map uWeight).sum)).sum) := by
  intro A
  induction A with
  | nil =>
    intro _ _
    simp [headTails_nil]
  | cons a A ih =>
    intro hne hhex
    cases a with
    | nil => exact absurd rfl (hne [] (List.mem_cons_self _ _))
    | cons x t =>
      have hx : x ∈ hexChars :=
        hex_enum (hhex _ (List.mem_cons_self _ _) x (List.mem_cons_self _ _))
      rw [List.map_cons, List.sum_cons,
        show uWeight (x :: t) = u1 x * uWeight t by
          rw [uWeight, uWeight, List.map_cons, List.prod_cons],
        ih (fun a ha => hne a (List.mem_cons_of_mem _ ha))
           (fun a ha x' hx' => hhex a (List.mem_cons_of_mem _ ha) x' hx')]
      rw [show (hexChars.map
            (fun c => u1 c * ((headTails c ((x :: t) :: A)).map uWeight).sum)).sum
          = (hexChars.map (fun c => (if x = c then u1 c * uWeight t else 0)
              + u1 c * ((headTails c A).map uWeight).sum)).sum by
        congr 1
        refine List.map_congr_left ?_
        intro c hc
        rw [headTails_cons_eq]
        dsimp only
        split_ifs with hxc
        · rw [List.map_cons, List.sum_cons]
          ring
        · rw [zero_add]]
      rw [sum_map_add, list_sum_ite_eq hexChars x _ (by decide) hx]

theorem kraft_cover : ∀ (n : Nat) (b : Str) (A : List Str),
    ((A.map List.length).sum) ≤ n →
    A.Nodup →
    (∀ a ∈ A, ∀ a' ∈ A, a ≠ a' → ¬ a <+: a') →
    (∀ a ∈ A, ∀ x ∈ a, isHex x = true) →
    (∀ a ∈ A, b <+: toLowerStr a) →
    ((A.map uWeight).sum) ≤ (1/16 : ℚ) ^ b.length := by
  intro n
  induction n using Nat.strong_induction_on with
  | _ n ih =>
    intro b A hlen hnd hpf hhex hcov
    cases A with
    | nil =>
      simp only [List.map_nil, List.sum_nil]
      positivity
    | cons a0 A0 =>
      by_cases hnil : [] ∈ a0 :: A0
      · have hb : b = [] := by
          have hc := hcov [] hnil
          rw [show toLowerStr [] = [] from rfl] at hc
          exact List.prefix_nil.mp hc
        subst hb
        have hall : ∀ a ∈ a0 :: A0, a = [] := by
          intro a ha
          by_contra hane
          exact (hpf [] hnil a ha (fun hh => hane hh.symm)) (List.nil_prefix)
        have ha0 : a0 = [] := hall a0 (List.mem_cons_self _ _)
        have hA0 : A0 = [] := by
          cases hA0c : A0 with
          | nil => rfl
          | cons a1 A1 =>
            have ha1 : a1 = [] := hall a1 (by
              rw [hA0c]
              exact List.mem_cons_of_mem _ (List.mem_cons_self _ _))
            exfalso
            rw [List.nodup_cons] at hnd
            apply hnd.1
            rw [hA0c, ha0, ← ha1]
            exact List.mem_cons_self _ _
        subst ha0
        subst hA0
        norm_num [uWeight]
      · have hne2 : ∀ a ∈ a0 :: A0, a ≠ [] := fun a ha hh => hnil (hh ▸ ha)
        rw [sum_u_buckets _ hne2 hhex]
        have hbucket_le : ∀ (c : Char) (btgt : Str),
            (∀ t ∈ headTails c (a0 :: A0), btgt <+: toLowerStr t) →
            ((headTails c (a0 :: A0)).map uWeight).sum ≤ (1/16:ℚ) ^ btgt.length := by
          intro c btgt hcovt
          by_cases hbe : headTails c (a0 :: A0) = []
          · rw [hbe]
            simp only [List.map_nil, List.sum_nil]
            positivity
          · refine ih (((headTails c (a0 :: A0)).map List.length).sum)
              (lt_of_lt_of_le (headTails_total_lt c _ hne2 hbe) hlen)
              btgt _ le_rfl (headTails_nodup c hnd) ?_ ?_ hcovt
            · intro t ht t' ht' htne
              have hmt := headTails_mem ht
              have hmt' := headTails_mem ht'
              intro hpre
              exact hpf _ hmt _ hmt' (fun hh => htne (List.cons_injective hh))
                ((List.cons_prefix_cons).mpr ⟨rfl, hpre⟩)
            · intro t ht x hx
              exact hhex _ (headTails_mem ht) x (List.mem_cons_of_mem _ hx)
        cases b with
        | nil =>
          have hb1 : ∀ c ∈ hexChars,
              u1 c * ((headTails c (a0 :: A0)).map uWeight).sum ≤ u1 c * 1 := by
            intro c hc
            refine mul_le_mul_of_nonneg_left ?_ (le_of_lt (u1_pos c))
            have := hbucket_le c [] (fun t ht => List.nil_prefix)
            simpa using this
          calc (hexChars.map
                (fun c => u1 c * ((headTails c (a0 :: A0)).map uWeight).sum)).sum
              ≤ (hexChars.map (fun c => u1 c * 1)).sum := List.sum_le_sum hb1
            _ = 1 := by
                simp only [mul_one]
                exact sum_u1_total
            _ = (1/16:ℚ) ^ ([] : Str).length := by norm_num
        | cons cb b' =>
          have hb1 : ∀ c ∈ hexChars,
              u1 c * ((headTails c (a0 :: A0)).map uWeight).sum
                ≤ (if lowerChar c = cb then u1 c else 0) * (1/16:ℚ) ^ b'.length := by
            intro c hc
            by_cases hbe : headTails c (a0 :: A0) = []
            · rw [hbe]
              simp only [List.map_nil, List.sum_nil, mul_zero]
              split_ifs
              · exact mul_nonneg (le_of_lt (u1_pos c)) (by positivity)
              · rw [zero_mul]
            · obtain ⟨t0, ht0⟩ := List.exists_mem_of_ne_nil _ hbe
              have hcovt0 := hcov _ (headTails_mem ht0)
              rw [show toLowerStr (c :: t0) = lowerChar c :: toLowerStr t0 from rfl]
                at hcovt0
              obtain ⟨hcb, _⟩ := List.cons_prefix_cons.mp hcovt0
              rw [if_pos hcb.symm]
              refine mul_le_mul_of_nonneg_left ?_ (le_of_lt (u1_pos c))
              refine hbucket_le c b' ?_
              intro t ht
              have hct := hcov _ (headTails_mem ht)
              rw [show toLowerStr (c :: t) = lowerChar c :: toLowerStr t from rfl]
                at hct
              exact (List.cons_prefix_cons.mp hct).2
          calc (hexChars.map
                (fun c => u1 c * ((headTails c (a0 :: A0)).map uWeight).sum)).sum
              ≤ (hexChars.map (fun c =>
                  (if lowerChar c = cb then u1 c else 0) * (1/16:ℚ) ^ b'.length)).sum :=
                List.sum_le_sum hb1
            _ = ((hexChars.map (fun c =>
                  if lowerChar c = cb then u1 c else 0)).sum) * (1/16:ℚ) ^ b'.length :=
                sum_map_mul_right _ _ _
            _ ≤ (1/16:ℚ) * (1/16:ℚ) ^ b'.length := by
                refine mul_le_mul_of_nonneg_right (sum_u1_lower cb) ?_
                positivity
            _ = (1/16:ℚ) ^ (cb :: b').length := by
                rw [List.length_cons, pow_succ]
                ring

theorem reduceAlts_subset {alts : List Str} {st : Bool} {a : Str}
    (h : a ∈ reduceAlts alts st) : a ∈ alts :=
  List.mem_of_mem_filter h

theorem reduceAlts_nodup {alts : List Str} (st : Bool) (h : alts.Nodup) :
    (reduceAlts alts st).Nodup :=
  h.filter _

theorem reduce_cover {alts : List Str} : ∀ (n : Nat) (x : Str),
    x.length ≤ n → x ∈ alts →
    ∃ b ∈ reduceAlts alts true, b <+: x := by
  intro n
  induction n using Nat.strong_induction_on with
  | _ n ih =>
    intro x hxn hx
    by_cases hmem : x ∈ reduceAlts alts true
    · exact ⟨x, hmem, List.prefix_refl x⟩
    · have hpred : (! alts.any (fun b =>
          !(b == x) && decide (b.length < x.length) &&
            (if true = true then decide (b <+: x) else decide (b <:+ x)))) = false := by
        by_contra hp
        rw [Bool.not_eq_false] at hp
        exact hmem (List.mem_filter.mpr ⟨hx, hp⟩)
      rw [Bool.not_eq_false'] at hpred
      obtain ⟨b, hb, hbp⟩ := List.any_eq_true.mp hpred
      rw [if_pos rfl] at hbp
      rcases Bool.and_eq_true_iff.mp hbp with ⟨hbp1, hbp3⟩
      rcases Bool.and_eq_true_iff.mp hbp1 with ⟨_, hbp2⟩
      have hlt : b.length < x.length := of_decide_eq_true hbp2
      have hpre : b <+: x := of_decide_eq_true hbp3
      obtain ⟨r, hr, hrb⟩ := ih b.length (lt_of_lt_of_le hlt hxn) b le_rfl hb
      exact ⟨r, hr, hrb.trans hpre⟩

theorem reduce_prefixfree {alts : List Str} {a a' : Str}
    (ha : a ∈ reduceAlts alts true) (ha' : a' ∈ reduceAlts alts true)
    (hne : a ≠ a') : ¬ a <+: a' := by
  intro hpre
  have hlen : a.length ≤ a'.length := hpre.length_le
  have hlt : a.length < a'.length := by
    rcases Nat.lt_or_ge a.length a'.length with h | h
    · exact h
    · exact absurd (List.IsPrefix.eq_of_length hpre (le_antisymm hlen h)) hne
  have hfil := (List.mem_filter.mp ha').2
  rw [Bool.not_eq_true'] at hfil
  have hall := List.any_eq_false.mp hfil a (reduceAlts_subset ha)
  apply hall
  rw [if_pos rfl]
  refine Bool.and_eq_true_iff.mpr ⟨Bool.and_eq_true_iff.mpr ⟨?_, ?_⟩, ?_⟩
  · rw [Bool.not_eq_true', beq_eq_false_iff_ne]
    exact hne
  · exact decide_eq_true hlt
  · exact decide_eq_true hpre

theorem list_sum_fiber (T F : List Str) (g : Str → Str) (w : Str → ℚ)
    (hFnd : F.Nodup) (hg : ∀ a ∈ T, g a ∈ F) :
    (T.map w).sum
      = (F.map (fun b => ((T.filter (fun a => g a == b)).map w).sum)).sum := by
  induction T with
  | nil =>
    rw [List.map_nil, List.sum_nil]
    symm
    rw [List.sum_eq_zero]
    intro q hq
    rcases List.mem_map.mp hq with ⟨b, hb, rfl⟩
    rw [List.filter_nil, List.map_nil, List.sum_nil]
  | cons a T ih =>
    have hgT : ∀ x ∈ T, g x ∈ F := fun x hx => hg x (List.mem_cons_of_mem _ hx)
    rw [List.map_cons, List.sum_cons, ih hgT]
    rw [show (F.map (fun b => ((List.filter (fun x => g x == b) (a :: T)).map w).sum)).sum
        = (F.map (fun b => (if g a = b then w a else 0)
            + ((T.filter (fun x => g x == b)).map w).sum)).sum by
      congr 1
      refine List.map_congr_left ?_
      intro b hb
      rw [List.filter_cons]
      by_cases hgab : g a = b
      · rw [if_pos (by simpa using hgab), if_pos hgab, List.map_cons, List.sum_cons]
      · rw [if_neg (by simpa using hgab), if_neg hgab, zero_add]]
    rw [sum_map_add, list_sum_ite_eq F (g a) _ hFnd (hg a (List.mem_cons_self _ _))]

theorem sum_weights_le {T F : List Str}
    (hTnd : T.Nodup)
    (hTpf : ∀ a ∈ T, ∀ a' ∈ T, a ≠ a' → ¬ a <+: a')
    (hThex : ∀ a ∈ T, ∀ x ∈ a, isHex x = true)
    (hFnd : F.Nodup)
    (hcov : ∀ a ∈ T, ∃ b ∈ F, b <+: toLowerStr a) :
    (T.map uWeight).sum ≤ (F.map (fun b => (1/16:ℚ) ^ b.length)).sum := by
  have hchoice : ∀ a : Str, ∃ b : Str, a ∈ T → b ∈ F ∧ b <+: toLowerStr a := by
    intro a
    by_cases ha : a ∈ T
    · obtain ⟨b, hb, hpre⟩ := hcov a ha
      exact ⟨b, fun _ => ⟨hb, hpre⟩⟩
    · exact ⟨[], fun h => absurd h ha⟩
  choose g hg using hchoice
  rw [list_sum_fiber T F g uWeight hFnd (fun a ha => (hg a ha).1)]
  refine List.sum_le_sum ?_
  intro b hb
  refine kraft_cover (((T.filter (fun a => g a == b)).map List.length).sum) b _
    le_rfl (hTnd.filter _) ?_ ?_ ?_
  · intro a ha a' ha' hne
    exact hTpf a (List.mem_of_mem_filter ha) a' (List.mem_of_mem_filter ha') hne
  · intro a ha
    exact hThex a (List.mem_of_mem_filter ha)
  · intro a ha
    have hmem := List.mem_of_mem_filter ha
    have hfb : g a = b := by
      have := (List.mem_filter.mp ha).2
      simpa using this
    rw [← hfb]
    exact (hg a hmem).2

theorem edgeProbCompiled_sum {alts : List Str} {cs : Bool} {q : ℚ}
    (hne : alts ≠ [])
    (h : edgeProbCompiled (.ok alts) true cs = some q) :
    q = ((reduceAlts alts true).map
      (fun a => 1 / ((patternDenominator a.length
        (countHexLetters a) cs : Int) : ℚ))).sum := by
  cases alts with
  | nil => exact absurd rfl hne
  | cons a0 rest =>
    simp only [edgeProbCompiled, Option.some.injEq] at h
    subst h
    rw [foldl_add_eq_sum, zero_add]
    exact ((sortStrs_perm _).map _).sum_eq

theorem edgeProb_cs_le_ci {p : Str} {altsT altsF : List Str} {qT qF : ℚ}
    (hT : compileHexPattern p = .ok altsT)
    (hF : compileHexPattern (toLowerStr p) = .ok altsF)
    (hcov : ∀ a ∈ altsT, toLowerStr a ∈ altsF)
    (hTne : altsT ≠ []) (hFne : altsF ≠ [])
    (hqT : edgeProbCompiled (.ok altsT) true true = some qT)
    (hqF : edgeProbCompiled (.ok altsF) true false = some qF) :
    qT ≤ qF := by
  rw [edgeProbCompiled_sum hTne hqT, edgeProbCompiled_sum hFne hqF]
  rw [show ((reduceAlts altsT true).map
      (fun a => 1 / ((patternDenominator a.length
        (countHexLetters a) true : Int) : ℚ))).sum
      = ((reduceAlts altsT true).map uWeight).sum by
    congr 1
    refine List.map_congr_left ?_
    intro a _
    exact (uWeight_eq_patternDenominator a).symm]
  rw [show ((reduceAlts altsF true).map
      (fun a => 1 / ((patternDenominator a.length
        (countHexLetters a) false : Int) : ℚ))).sum
      = ((reduceAlts altsF true).map (fun b => (1/16:ℚ) ^ b.length)).sum by
    congr 1
    refine List.map_congr_left ?_
    intro a _
    exact inv_patternDenominator_false a.length (countHexLetters a)]
  refine sum_weights_le (reduceAlts_nodup true (compileHexPattern_ok_nodup p altsT hT))
    ?_ ?_ (reduceAlts_nodup true (compileHexPattern_ok_nodup _ altsF hF)) ?_
  · intro a ha a' ha' hne
    exact reduce_prefixfree ha ha' hne
  · intro a ha
    exact compile_alts_hex hT a (reduceAlts_subset ha)
  · intro a ha
    exact reduce_cover (toLowerStr a).length (toLowerStr a) le_rfl
      (hcov a (reduceAlts_subset ha))

theorem tdiv_den_num_antitone {q q' : ℚ} (hq : 0 < q) (hqq' : q ≤ q') :
    (q'.den : Int).tdiv q'.num ≤ (q.den : Int).tdiv q.num := by
  have hq' : 0 < q' := lt_of_lt_of_le hq hqq'
  have hnq : 0 < q.num := Rat.num_pos.mpr hq
  have hnq' : 0 < q'.num := Rat.num_pos.mpr hq'
  rw [Int.tdiv_eq_ediv (by positivity) (le_of_lt hnq'),
      Int.tdiv_eq_ediv (by positivity) (le_of_lt hnq)]
  rw [Int.le_ediv_iff_mul_le hnq]
  have h1 : (q'.den : Int) / q'.num * q'.num ≤ (q'.den : Int) :=
    Int.ediv_mul_le _ (ne_of_gt hnq')
  have h2 : q.num * (q'.den : Int) ≤ q'.num * q.den := Rat.le_def.mp hqq'
  have h3 : (q'.den : Int) / q'.num * q.num * q'.num
      ≤ (q.den : Int) * q'.num := by
    calc (q'.den : Int) / q'.num * q.num * q'.num
        = ((q'.den : Int) / q'.num * q'.num) * q.num := by ring
      _ ≤ (q'.den : Int) * q.num := mul_le_mul_of_nonneg_right h1 (le_of_lt hnq)
      _ = q.num * (q'.den : Int) := by ring
      _ ≤ q'.num * q.den := h2
      _ = (q.den : Int) * q'.num := by ring
  exact le_of_mul_le_mul_right h3 hnq'

theorem hexDifficulty_prefix_eval (p : Str) (cs : Bool) {q : ℚ}
    (h : edgePatternProbability p true cs = some q) (hq : 0 < q) :
    HexDifficulty p [] [] cs = some (max 1 ((q.den : Int).tdiv q.num)) := by
  rw [HexDifficulty, h,
    show edgePatternProbability [] false cs = none from rfl,
    show containsPatternProbabilityApprox [] cs = none from rfl,
    show accumProb (false, 1) (some q) = (true, 1 * q) from rfl]
  rw [show accumProb (true, 1 * q) none = (true, 1 * q) from rfl,
    show accumProb (true, 1 * q) none = (true, 1 * q) from rfl]
  simp only [one_mul]
  rw [hexDifficultyOf, if_neg (by
      push_neg
      exact ⟨fun hh => Bool.noConfusion hh, ne_of_gt hq⟩),
    if_neg (by
      simp only
      exact ne_of_gt (Rat.num_pos.mpr hq))]
  have htd : 0 ≤ (q.den : Int).tdiv q.num := by
    rw [Int.tdiv_eq_ediv (by positivity) (le_of_lt (Rat.num_pos.mpr hq))]
    exact Int.ediv_nonneg (by positivity) (le_of_lt (Rat.num_pos.mpr hq))
  by_cases h0 : (q.den : Int).tdiv q.num = 0
  · rw [if_pos h0, h0]
    rfl
  · rw [if_neg h0]
    dsimp only
    congr 1
    omega

theorem compile_ok_ne_nil {p : Str} {alts : List Str}
    (htrim : trimSpace p ≠ []) (h : compileHexPattern p = .ok alts) :
    alts ≠ [] := by
  rw [compileHexPattern, if_neg htrim] at h
  dsimp only at h
  by_cases h1 : stripHexMarker (trimSpace p) = []
  · rw [if_pos h1] at h
    exact Except.noConfusion h
  · rw [if_neg h1] at h
    cases hsp : splitTopLevel (stripHexMarker (trimSpace p)) with
    | error e => rw [hsp] at h; exact Except.noConfusion h
    | ok branches =>
      rw [hsp] at h
      dsimp only at h
      cases hcb : compileBranches branches [] with
      | error e => rw [hcb] at h; exact Except.noConfusion h
      | ok all =>
        rw [hcb] at h
        dsimp only at h
        split_ifs at h with hall
        simp only [Except.ok.injEq] at h
        subst h
        exact hall

/-- C7 (amended): for every prefix pattern that compiles (with empty suffix
and contains), the case-sensitive difficulty estimate is at least the
case-insensitive one; the strict inequality claimed for patterns with a
hex letter fails (see the counterexample `"a|A"`). -/
theorem case_sensitive_difficulty_ge :
    ∀ (p : Str) (alts : List Str),
      trimSpace p ≠ [] → compileHexPattern p = .ok alts →
      ∃ dt df : Int, HexDifficulty p [] [] true = some dt ∧
        HexDifficulty p [] [] false = some df ∧ df ≤ dt := by
  intro p alts htrim hcomp
  have haltne : alts ≠ [] := compile_ok_ne_nil htrim hcomp
  obtain ⟨altsF, hF, hFne, hcov⟩ := compile_toLower_mem hcomp htrim
  have hedgeT : edgePatternProbability p true true
      = edgeProbCompiled (.ok alts) true true := by
    rw [edgePatternProbability, if_neg htrim]
    rw [show (if true = true then p else toLowerStr p) = p from rfl, hcomp]
  have hedgeF : edgePatternProbability p true false
      = edgeProbCompiled (.ok altsF) true false := by
    rw [edgePatternProbability, if_neg htrim]
    rw [show (if false = true then p else toLowerStr p) = toLowerStr p from rfl, hF]
  obtain ⟨qT, hqT⟩ : ∃ qT, edgeProbCompiled (.ok alts) true true = some qT := by
    cases alts with
    | nil => exact absurd rfl haltne
    | cons a0 rest => exact ⟨_, rfl⟩
  obtain ⟨qF, hqF⟩ : ∃ qF, edgeProbCompiled (.ok altsF) true false = some qF := by
    cases altsF with
    | nil => exact absurd rfl hFne
    | cons b0 rest => exact ⟨_, rfl⟩
  have hqTpos : 0 < qT := edgeProbCompiled_pos hqT
  have hqFpos : 0 < qF := edgeProbCompiled_pos hqF
  have hle : qT ≤ qF := edgeProb_cs_le_ci hcomp hF hcov haltne hFne hqT hqF
  refine ⟨max 1 ((qT.den : Int).tdiv qT.num), max 1 ((qF.den : Int).tdiv qF.num),
    hexDifficulty_prefix_eval p true (by rw [hedgeT]; exact hqT) hqTpos,
    hexDifficulty_prefix_eval p false (by rw [hedgeF]; exact hqF) hqFpos, ?_⟩
  exact max_le_max le_rfl (tdiv_den_num_antitone hqTpos hle)

/-- Witness for C7: the pattern `"a"` compiles, and its case-sensitive
difficulty estimate dominates the case-insensitive one. -/
theorem case_sensitive_difficulty_ge_witness :
    ∃ dt df : Int, HexDifficulty "a".toList [] [] true = some dt ∧
      HexDifficulty "a".toList [] [] false = some df ∧ df ≤ dt :=
  case_sensitive_difficulty_ge "a".toList [['a']] (by decide) rfl

/-- Counterexample for the strictness part of C7 as stated: `"a|A"`
contains two hex letters, yet the case-sensitive and case-insensitive
difficulty estimates are both 16 — the two cased alternatives of weight
`1/32` sum to exactly the weight `1/16` of the single lowercased
alternative, so the estimate is not strictly greater. -/
theorem case_sensitive_strictness_counterexample :
    HexDifficulty "a|A".toList [] [] true = some 16 ∧
    HexDifficulty "a|A".toList [] [] false = some 16 ∧
    countHexLetters "a|A".toList = 2 := by
  refine ⟨?_, ?_, by decide⟩
  · have he : edgePatternProbability "a|A".toList true true
        = some (0 + 1 / ((patternDenominator 1 1 true : Int) : ℚ)
            + 1 / ((patternDenominator 1 1 true : Int) : ℚ)) := rfl
    have hs : edgePatternProbability ([] : Str) false true = none := rfl
    have hc : containsPatternProbabilityApprox ([] : Str) true = none := rfl
    rw [HexDifficulty, he, hs, hc]
    simp only [accumProb, hexDifficultyOf]
    norm_num [patternDenominator]
  · have he : edgePatternProbability "a|A".toList true false
        = some (0 + 1 / ((patternDenominator 1 1 false : Int) : ℚ)) := rfl
    have hs : edgePatternProbability ([] : Str) false false = none := rfl
    have hc : containsPatternProbabilityApprox ([] : Str) false = none := rfl
    rw [HexDifficulty, he, hs, hc]
    simp only [accumProb, hexDifficultyOf]
    norm_num [patternDenominator]

end VanityEth
